import Mathlib

set_option maxRecDepth 4000

/-!
Verification of SDATtool2 (Nintendo DS SDAT sound-archive converter) against
its natural-language specification.

The Python sources under `SDATtool2/` are shallowly embedded here:

* `SDATtool2/sdat_io.py` — the binary buffer primitive `SdatIO`;
* `SDATtool2/info.py`    — the container model (info records, file
  descriptors, the symbol-binding pass `InfoData.set_symbols`);
* `SDATtool2/sseq.py`    — the sequence bytecode codec
  (`SseqToTxtConverter`, `TxtToSseqConverter`).

Machine integers are embedded as `Nat`/`Int` (Python integers are unbounded;
struct fields carry explicit range side conditions where they matter).  Python
byte strings are `List Nat` (each element < 256), Python text strings are
`List Char`, and code that can raise an exception returns `Option`/`Except`
(`none`/`.error` = the Python call raises).
-/

namespace SDATtool2

/-! ### Shared byte-level helpers

`int.from_bytes(bs, 'little')` and `value.to_bytes(n, 'little')`, plus the
Python slice `data[pos:pos+size]` (which silently truncates at the end of the
buffer) and the bytearray slice assignment `data[pos:pos+n] = v`. -/

/-- Python `int.from_bytes(bs, 'little')` (unsigned). -/
def intFromBytesLE : List Nat → Nat
  | [] => 0
  | b :: rest => b + 256 * intFromBytesLE rest

/-- Python `int.from_bytes(bs, 'little', signed=True)`. -/
def intFromBytesSLE (bs : List Nat) : Int :=
  let u := intFromBytesLE bs
  if 2 * u < 2 ^ (8 * bs.length) then (u : Int)
  else (u : Int) - 2 ^ (8 * bs.length)

/-- Python `value.to_bytes(n, 'little')` for `0 ≤ value < 256^n`
(raises `OverflowError` otherwise, hence `Option`).  The range check is
written on the `Nat` side (`value.toNat < 256 ^ n`, equivalent under
`0 ≤ value`) so that the kernel never unfolds an `Int` comparison against a
large literal. -/
def intToBytesLE (value : Int) (n : Nat) : Option (List Nat) :=
  if 0 ≤ value ∧ value.toNat < 256 ^ n then
    some ((List.range n).map fun i => ((value.toNat / 256 ^ i) % 256))
  else none

/-- Python slice `data[pos:pos+size]` on a byte string (truncates silently). -/
def pySlice (data : List Nat) (pos size : Nat) : List Nat :=
  (data.drop pos).take size

/-- Python bytearray slice assignment `data[pos:pos+v.length] = v` for a
natural index `pos`: replaces the (possibly truncated) slice in place,
appending when `pos` is at or past the end — exactly Python's semantics for
non-negative `pos`. -/
def listWriteAt (data : List Nat) (pos : Nat) (v : List Nat) : List Nat :=
  data.take pos ++ v ++ data.drop (pos + v.length)

/-- Python `bytes(buffer).rstrip(b'\x00')`: drop trailing zero bytes. -/
def rstripZeros (data : List Nat) : List Nat :=
  (data.reverse.dropWhile (· == 0)).reverse

/-!
### `SDATtool2/sdat_io.py` — class `SdatIO`

The wrapper over the SDAT byte buffer.  Only the state and the methods the
claims are about (`read`, `seek`) are embedded; `data` is the byte buffer and
`cursor` the internal cursor. -/

/-- State of an `SdatIO` object: the mutable buffer and the cursor. -/
structure SdatIOState where
  data : List Nat
  cursor : Nat
  deriving Repr, DecidableEq

namespace SdatIOState

/-- `SdatIO.read(size, pos)`: reads `int.from_bytes(self.data[pos:pos+size],
'little')`.  When `pos is None`, reads at the cursor and advances it by
`size`.  The Python slice truncates silently, so the method never raises,
even when `pos + size` exceeds the buffer length. -/
def read (st : SdatIOState) (size : Nat) (pos : Option Nat) : Nat × SdatIOState :=
  match pos with
  | none => (intFromBytesLE (pySlice st.data st.cursor size),
             { st with cursor := st.cursor + size })
  | some p => (intFromBytesLE (pySlice st.data p size), st)

/-- `SdatIO.seek(pos, whence)`.  `whence` is compared against `os.SEEK_SET =
0`, `os.SEEK_CUR = 1`, `os.SEEK_END = 2`; any other value raises
`ValueError` before the cursor assignment runs, so the state is unchanged on
error (the `.error` branch carries no state; `seekState` below gives the
state of the Python object after the call).  On success the new cursor is
`min(max(new, 0), len(self.data))`. -/
def seek (st : SdatIOState) (pos : Int) (whence : Int) : Except String SdatIOState :=
  if whence = 0 then
    .ok { st with cursor := (min (max pos 0) (st.data.length : Int)).toNat }
  else if whence = 1 then
    .ok { st with cursor :=
      (min (max ((st.cursor : Int) + pos) 0) (st.data.length : Int)).toNat }
  else if whence = 2 then
    .ok { st with cursor :=
      (min (max ((st.data.length : Int) - pos) 0) (st.data.length : Int)).toNat }
  else
    .error "unrecognized argument for whence"

/-- The state of the Python object after a call to `seek`: unchanged when the
method raises (the `raise` precedes the only assignment to `self.cursor`). -/
def seekState (st : SdatIOState) (pos : Int) (whence : Int) : SdatIOState :=
  match seek st pos whence with
  | .ok s => s
  | .error _ => st

end SdatIOState

/-!
### `SDATtool2/info.py` — packed wave-archive info word (claim C9)

`NNSSndArcWaveArcInfo` packs `fileId` (low 24 bits) and `flags` (high 8 bits)
into one `u32` field `raw`.  Python integers are unbounded and non-negative
here, so the bit operations rewrite arithmetically:

* `raw & 0xFFFFFF`           = `raw % 2^24`;
* `(raw >> 24) & 0xFF`       = `raw / 2^24 % 2^8`;
* `raw & ~0xFFFFFF`          = clear the low 24 bits = `raw / 2^24 * 2^24`;
* `raw & ~0xFF000000`        = clear bits 24..31
                             = `raw % 2^24 + raw / 2^32 * 2^32`;
* `x | y` on operands with disjoint bit ranges = `x + y`. -/

namespace NNSSndArcWaveArcInfo

/-- Property getter `fileId`: `self.raw & 0xFFFFFF`. -/
def fileId (raw : Nat) : Nat := raw % 2 ^ 24

/-- Property getter `flags`: `(self.raw >> 24) & 0xFF`. -/
def flags (raw : Nat) : Nat := raw / 2 ^ 24 % 2 ^ 8

/-- Property setter `fileId`:
`self.raw = (self.raw & ~0xFFFFFF) | (value & 0xFFFFFF)`. -/
def setFileId (raw : Nat) (value : Nat) : Nat :=
  raw / 2 ^ 24 * 2 ^ 24 + value % 2 ^ 24

/-- Property setter `flags`:
`self.raw = (self.raw & ~0xFF000000) | ((value & 0xFF) << 24)`. -/
def setFlags (raw : Nat) (value : Nat) : Nat :=
  (raw % 2 ^ 24 + raw / 2 ^ 32 * 2 ^ 32) + value % 2 ^ 8 * 2 ^ 24

end NNSSndArcWaveArcInfo

/-! ### Decimal rendering helper

Python `f'{i:03d}'` (used for the synthesized default names) and plain
`str(i)`. -/

/-- Decimal digit characters, fuel-structured so the kernel can evaluate it
(the fuel `n + 1` always suffices since the recursion divides by 10). -/
def natToDecCharsGo : Nat → Nat → List Char
  | 0, _ => []
  | fuel + 1, n =>
    if n < 10 then [Char.ofNat (48 + n)]
    else natToDecCharsGo fuel (n / 10) ++ [Char.ofNat (48 + n % 10)]

/-- Decimal digit characters of a natural number, most significant first. -/
def natToDecChars (n : Nat) : List Char :=
  natToDecCharsGo (n + 1) n

/-- Python `f'{n:03d}'`: decimal, left-padded with zeros to width 3. -/
def pad3 (n : Nat) : String :=
  let s := natToDecChars n
  String.mk (List.replicate (3 - s.length) '0' ++ s)

/-!
### `SDATtool2/info.py` — container model records and symbol binding

One structure per `DataClass` record, carrying the struct fields plus the
attributes installed by `__post_init__` and by the binding pass
(`name`, `filename`, resolved cross-references).  `CoreInfoType` members are
embedded by their enum value (`SEQ = 0` … `STRM = 7`; the
`NativeFileInfo.kind` default is the plain integer `8`). -/

/-- The name of a `CoreInfoType` member, by enum value. -/
def coreInfoTypeName (kind : Nat) : String :=
  match kind with
  | 0 => "SEQ"
  | 1 => "SEQARC"
  | 2 => "BANK"
  | 3 => "WAVARC"
  | 4 => "PLAYER"
  | 5 => "GROUP"
  | 6 => "PLAYER2"
  | 7 => "STRM"
  | _ => ""

/-- The binary file extension of a `CoreInfoType` member (`file_types` in
`sdat_io.py`). -/
def coreInfoTypeExt (kind : Nat) : String :=
  match kind with
  | 0 => ".sseq"
  | 1 => ".ssar"
  | 2 => ".sbnk"
  | 3 => ".swar"
  | 7 => ".strm"
  | _ => ""

/-- Modelled from the spec: `CoreInfoType.make_file_name`, which is called by
`InfoData.add_file` but is absent from the sources in `src/` (the
`CoreInfoType` enum there does not define it).  Per the spec's filesystem
interface, the derived output filename of a claimed slot is a file named
`<Name><category-extension>` in a directory per category under `Files/`:
`Files/<Category>/<name><ext>`. -/
def makeFileName (kind : Nat) (name : String) : String :=
  "Files/" ++ coreInfoTypeName kind ++ "/" ++ name ++ coreInfoTypeExt kind

/-- `NativeFileInfo`: one descriptor per numeric file slot.  Defaults:
`name = ''`, `kind = 8`, `contents = b''`. -/
structure NativeFileInfo where
  name : String := ""
  kind : Nat := 8
  contents : List Nat := []
  deriving Repr, DecidableEq

instance : Inhabited NativeFileInfo := ⟨⟨"", 8, []⟩⟩

/-- `InfoData.add_file(info, contents)`: grows `file_descriptions` with fresh
default descriptors up to `info.fileId`, then fills the slot's descriptor
exactly once (only if its `name` is still empty), and finally copies the
descriptor's `name` into the record's `filename`.  Returns the updated
descriptor list and the record's new `filename`.  `kind`/`name` are the
claiming record's `_kind` and `name`. -/
def addFile (descs : List NativeFileInfo) (kind : Nat) (name : String)
    (fileId : Nat) (contents : List Nat) : List NativeFileInfo × String :=
  let descs :=
    if descs.length ≤ fileId then
      descs ++ List.replicate (fileId - descs.length + 1) ⟨"", 8, []⟩
    else descs
  let d := descs.getD fileId ⟨"", 8, []⟩
  if d.name = "" then
    (descs.set fileId { name := makeFileName kind name, kind := kind,
                        contents := contents },
     makeFileName kind name)
  else
    (descs, d.name)

/-- `NNSSndArcWaveArcInfo` record: packed `raw` word plus the attributes set
by `__post_init__` and the binding pass. -/
structure NNSSndArcWaveArcInfo where
  raw : Nat
  name : String := ""
  filename : String := ""
  deriving Repr, DecidableEq

/-- `NNSSndArcPlayerInfo` record. -/
structure NNSSndArcPlayerInfo where
  seqMax : Nat
  padding : Nat
  allocChBitFlag : Nat
  heapSize : Nat
  name : String := ""
  deriving Repr, DecidableEq

/-- `NNSSndArcBankInfo` record: `fileId`, the four `waveArcNo_i` slots, and
the attributes set by `__post_init__` / the binding pass. -/
structure NNSSndArcBankInfo where
  fileId : Nat
  waveArcNo_0 : Nat
  waveArcNo_1 : Nat
  waveArcNo_2 : Nat
  waveArcNo_3 : Nat
  name : String := ""
  filename : String := ""
  waveArc : List NNSSndArcWaveArcInfo := []
  deriving Repr, DecidableEq

/-- Property `NNSSndArcBankInfo.waveArcNo`: the four slots in order, keeping
only the values different from the sentinel `65535`. -/
def NNSSndArcBankInfo.waveArcNo (b : NNSSndArcBankInfo) : List Nat :=
  [b.waveArcNo_0, b.waveArcNo_1, b.waveArcNo_2, b.waveArcNo_3].filter
    (· ≠ 65535)

/-- `NNSSndArcSeqInfo` record. -/
structure NNSSndArcSeqInfo where
  fileId : Nat
  bankNo : Nat
  volume : Nat
  channelPrio : Nat
  playerPrio : Nat
  playerNo : Nat
  reserved : Nat
  name : String := ""
  filename : String := ""
  bank : Option NNSSndArcBankInfo := none
  player : Option NNSSndArcPlayerInfo := none
  deriving Repr, DecidableEq

/-- `NNSSndArcSeqArcInfo` record. -/
structure NNSSndArcSeqArcInfo where
  fileId : Nat
  name : String := ""
  filename : String := ""
  arc_names : List String := []
  deriving Repr, DecidableEq

/-- `NNSSndArcStrmInfo` record. -/
structure NNSSndArcStrmInfo where
  fileId : Nat
  volume : Nat
  playerPrio : Nat
  playerNo : Nat
  flags : Nat
  name : String := ""
  filename : String := ""
  deriving Repr, DecidableEq

/-- `NNSSndArcStrmPlayerInfo` record. -/
structure NNSSndArcStrmPlayerInfo where
  numChannels : Nat
  chNoList_0 : Nat
  chNoList_1 : Nat
  name : String := ""
  deriving Repr, DecidableEq

/-- `NNSSndArcGroupItem` record (`seq` is resolved by the binding pass, and
the pass also installs a `name` attribute on each item). -/
structure NNSSndArcGroupItem where
  type : Nat
  loadFlags : Nat
  padding : Nat
  index : Nat
  seq : Option NNSSndArcSeqInfo := none
  name : String := ""
  deriving Repr, DecidableEq

/-- `NNSSndArcGroupInfo`: a named list of group items. -/
structure NNSSndArcGroupInfo where
  items : List NNSSndArcGroupItem
  name : String := ""
  deriving Repr, DecidableEq

/-- `SymbolData`: the per-category symbol arrays (a `seqArc` symbol is a pair
of the archive's own name and its member names). -/
structure SymbolData where
  seq : List String := []
  seqArc : List (String × List String) := []
  bank : List String := []
  waveArc : List String := []
  player : List String := []
  group : List String := []
  strmPlayer : List String := []
  strm : List String := []
  deriving Repr, DecidableEq

/-- `InfoData`: the eight per-category record lists plus the
`file_descriptions` list installed by `__post_init__`. -/
structure InfoData where
  seq : List NNSSndArcSeqInfo := []
  seqArc : List NNSSndArcSeqArcInfo := []
  bank : List NNSSndArcBankInfo := []
  waveArc : List NNSSndArcWaveArcInfo := []
  player : List NNSSndArcPlayerInfo := []
  group : List NNSSndArcGroupInfo := []
  strmPlayer : List NNSSndArcStrmPlayerInfo := []
  strm : List NNSSndArcStrmInfo := []
  file_descriptions : List NativeFileInfo := []
  deriving Repr, DecidableEq

/-- `InfoData.set_name` for a non-SEQARC record: the record's `name` becomes
the symbol, or `'<Category>_<3-digit-index>'` when the symbol is empty. -/
def setName (kind : Nat) (idx : Nat) (symb : String) : String :=
  if symb = "" then coreInfoTypeName kind ++ "_" ++ pad3 idx else symb

/-- One step of `set_symbols` shared by every category: iterate
`enumerate(zip(infolist, symbollist))` (so the iteration truncates at the
shorter list, and records without a symbol are left untouched), threading a
state `σ` through a per-record action that may raise (`none`). -/
def bindZipIdx {α β σ : Type} (f : Nat → α → β → σ → Option (α × σ)) :
    Nat → List α → List β → σ → Option (List α × σ)
  | _, as, [], st => some (as, st)
  | _, [], _, st => some ([], st)
  | i, a :: as, b :: bs, st =>
    (f i a b st).bind fun p =>
      (bindZipIdx f (i + 1) as bs p.2).bind fun q =>
        some (p.1 :: q.1, q.2)

/-- The SEQ step of `set_symbols`: set the name, claim the file slot
(`files[info.fileId]` raises `IndexError` when out of range), and resolve
`bank`/`player` by index (raising when out of range).  `banks`/`players` are
the model's lists as they stand when the SEQ category is processed (before
their own categories are bound). -/
def bindSeqRec (banks : List NNSSndArcBankInfo)
    (players : List NNSSndArcPlayerInfo) (files : List (List Nat))
    (i : Nat) (rec : NNSSndArcSeqInfo) (symb : String)
    (descs : List NativeFileInfo) :
    Option (NNSSndArcSeqInfo × List NativeFileInfo) := do
  let name := setName 0 i symb
  let contents ← files[rec.fileId]?
  let (descs, fname) := addFile descs 0 name rec.fileId contents
  let bank ← banks[rec.bankNo]?
  let player ← players[rec.playerNo]?
  some ({ rec with
            name := name
            filename := fname
            bank := some bank
            player := some player }, descs)

/-- The SEQARC step of `set_symbols`: the symbol is a (name, member names)
pair; set both, then claim the file slot. -/
def bindSeqArcRec (files : List (List Nat)) (i : Nat)
    (rec : NNSSndArcSeqArcInfo) (symb : String × List String)
    (descs : List NativeFileInfo) :
    Option (NNSSndArcSeqArcInfo × List NativeFileInfo) := do
  let name := if symb.1 = "" then coreInfoTypeName 1 ++ "_" ++ pad3 i
              else symb.1
  let contents ← files[rec.fileId]?
  let (descs, fname) := addFile descs 1 name rec.fileId contents
  some ({ rec with
            name := name
            arc_names := symb.2
            filename := fname }, descs)

/-- The BANK step of `set_symbols`: set the name, claim the file slot, and
resolve every non-sentinel `waveArcNo` slot against the model's `waveArc`
list (raising `IndexError` when an index is out of range). -/
def bindBankRec (waveArcs : List NNSSndArcWaveArcInfo)
    (files : List (List Nat)) (i : Nat) (rec : NNSSndArcBankInfo)
    (symb : String) (descs : List NativeFileInfo) :
    Option (NNSSndArcBankInfo × List NativeFileInfo) := do
  let name := setName 2 i symb
  let contents ← files[rec.fileId]?
  let (descs, fname) := addFile descs 2 name rec.fileId contents
  let resolved ← rec.waveArcNo.mapM fun x => waveArcs[x]?
  some ({ rec with
            name := name
            filename := fname
            waveArc := resolved }, descs)

/-- The WAVARC step of `set_symbols`: set the name and claim the file slot
(the record's `fileId` is the low 24 bits of its packed `raw` word). -/
def bindWaveArcRec (files : List (List Nat)) (i : Nat)
    (rec : NNSSndArcWaveArcInfo) (symb : String)
    (descs : List NativeFileInfo) :
    Option (NNSSndArcWaveArcInfo × List NativeFileInfo) := do
  let name := setName 3 i symb
  let contents ← files[NNSSndArcWaveArcInfo.fileId rec.raw]?
  let (descs, fname) := addFile descs 3 name
    (NNSSndArcWaveArcInfo.fileId rec.raw) contents
  some ({ rec with name := name, filename := fname }, descs)

/-- The PLAYER step of `set_symbols`: player records carry a name but no
`fileId` and no cross-references. -/
def bindPlayerRec (i : Nat) (rec : NNSSndArcPlayerInfo) (symb : String)
    (descs : List NativeFileInfo) :
    Option (NNSSndArcPlayerInfo × List NativeFileInfo) :=
  some ({ rec with name := setName 4 i symb }, descs)

/-- The GROUP step of `set_symbols`: name the group, then name each member
`'<GroupName>_<3-digit-index>'` and resolve its `seq` by index into the
model's (already bound) `seq` list. -/
def bindGroupRec (seqs : List NNSSndArcSeqInfo) (i : Nat)
    (rec : NNSSndArcGroupInfo) (symb : String)
    (descs : List NativeFileInfo) :
    Option (NNSSndArcGroupInfo × List NativeFileInfo) := do
  let name := setName 5 i symb
  let items ← (rec.items.enum.mapM fun (j, x) => do
    let s ← seqs[x.index]?
    some { x with name := name ++ "_" ++ pad3 j, seq := some s })
  some ({ rec with name := name, items := items }, descs)

/-- The PLAYER2 (stream player) step of `set_symbols`: name only. -/
def bindStrmPlayerRec (i : Nat) (rec : NNSSndArcStrmPlayerInfo)
    (symb : String) (descs : List NativeFileInfo) :
    Option (NNSSndArcStrmPlayerInfo × List NativeFileInfo) :=
  some ({ rec with name := setName 6 i symb }, descs)

/-- The STRM step of `set_symbols`: set the name and claim the file slot. -/
def bindStrmRec (files : List (List Nat)) (i : Nat)
    (rec : NNSSndArcStrmInfo) (symb : String)
    (descs : List NativeFileInfo) :
    Option (NNSSndArcStrmInfo × List NativeFileInfo) := do
  let name := setName 7 i symb
  let contents ← files[rec.fileId]?
  let (descs, fname) := addFile descs 7 name rec.fileId contents
  some ({ rec with name := name, filename := fname }, descs)

/-- `InfoData.set_symbols(symbols, files)`: the symbol-binding pass.  The
Python `for infolist, symbollist in zip(self, symbols)` loop visits the
eight category lists in dataclass field order (seq, seqArc, bank, waveArc,
player, group, strmPlayer, strm); it is unrolled here into one phase per
category, threading the record lists and `file_descriptions` through.
`none` means some step raised (an out-of-range index). -/
def setSymbols (m : InfoData) (symbols : SymbolData)
    (files : List (List Nat)) : Option InfoData :=
  (bindZipIdx (bindSeqRec m.bank m.player files) 0
      m.seq symbols.seq m.file_descriptions).bind fun pSeq =>
  (bindZipIdx (bindSeqArcRec files) 0
      m.seqArc symbols.seqArc pSeq.2).bind fun pSeqArc =>
  (bindZipIdx (bindBankRec m.waveArc files) 0
      m.bank symbols.bank pSeqArc.2).bind fun pBank =>
  (bindZipIdx (bindWaveArcRec files) 0
      m.waveArc symbols.waveArc pBank.2).bind fun pWaveArc =>
  (bindZipIdx bindPlayerRec 0
      m.player symbols.player pWaveArc.2).bind fun pPlayer =>
  (bindZipIdx (bindGroupRec pSeq.1) 0
      m.group symbols.group pPlayer.2).bind fun pGroup =>
  (bindZipIdx bindStrmPlayerRec 0
      m.strmPlayer symbols.strmPlayer pGroup.2).bind fun pStrmPlayer =>
  (bindZipIdx (bindStrmRec files) 0
      m.strm symbols.strm pStrmPlayer.2).bind fun pStrm =>
  some { seq := pSeq.1
         seqArc := pSeqArc.1
         bank := pBank.1
         waveArc := pWaveArc.1
         player := pPlayer.1
         group := pGroup.1
         strmPlayer := pStrmPlayer.1
         strm := pStrm.1
         file_descriptions := pStrm.2 }

/-!
### `SDATtool2/sseq.py` — the sequence bytecode codec

Python text strings are embedded as `List Char`; a text file is a
`List (List Char)` of lines (without the trailing newline, which both the
renderer and `rstrip` discard).  Python `dict`s keyed by label name or
address are embedded as insertion-ordered association lists with
update-or-append assignment (`dictSet`), matching dict semantics exactly
because `dictSet` keeps keys unique. -/

/-- Python `d[k] = v` on an insertion-ordered dict embedded as an
association list with unique keys: update in place, or append. -/
def dictSet {κ ν : Type} [DecidableEq κ] :
    List (κ × ν) → κ → ν → List (κ × ν)
  | [], k, v => [(k, v)]
  | (k1, v1) :: rest, k, v =>
    if k1 = k then (k1, v) :: rest else (k1, v1) :: dictSet rest k v

/-- Python `d[k]` (None = `KeyError`). -/
def dictGet {κ ν : Type} [DecidableEq κ] : List (κ × ν) → κ → Option ν
  | [], _ => none
  | (k1, v1) :: rest, k => if k1 = k then some v1 else dictGet rest k

/-- Python `k in d`. -/
def dictHas {κ ν : Type} [DecidableEq κ] (d : List (κ × ν)) (k : κ) : Bool :=
  (dictGet d k).isSome

/-- Decimal digit characters of a Python int, `str(v)` (a minus sign
followed by the digits when negative). -/
def intToDecChars (v : Int) : List Char :=
  if v < 0 then '-' :: natToDecChars (-v).toNat
  else natToDecChars v.toNat

/-- Python `f'{n:02d}'`. -/
def pad2 (n : Nat) : List Char :=
  let s := natToDecChars n
  List.replicate (2 - s.length) '0' ++ s

/-- Uppercase hexadecimal digit characters of a natural number, most
significant first. -/
def natToHexCharsGo : Nat → Nat → List Char
  | 0, _ => []
  | fuel + 1, n =>
    if n < 16 then [['0','1','2','3','4','5','6','7','8','9',
      'A','B','C','D','E','F'].getD n '0']
    else natToHexCharsGo fuel (n / 16) ++
      [['0','1','2','3','4','5','6','7','8','9',
        'A','B','C','D','E','F'].getD (n % 16) '0']

/-- Same, with the always-sufficient fuel `n + 1`. -/
def natToHexChars (n : Nat) : List Char :=
  natToHexCharsGo (n + 1) n

/-- Python `f'{n:04X}'`. -/
def hex4 (n : Nat) : List Char :=
  let s := natToHexChars n
  List.replicate (4 - s.length) '0' ++ s

/-- Python `f'{n:02X}'`. -/
def hex2 (n : Nat) : List Char :=
  let s := natToHexChars n
  List.replicate (2 - s.length) '0' ++ s

/-- Python `int(s)` restricted to the shapes this codec ever feeds it: an
optional sign followed by one or more decimal digits (`None` = plain
`ValueError`; Python also tolerates surrounding whitespace and inner
underscores, which never occur in this pipeline's argument tokens). -/
def pyInt (s : List Char) : Option Int :=
  match s with
  | '-' :: ds =>
    if ds ≠ [] ∧ ds.all (·.isDigit) then
      some (-(ds.foldl (fun a c => a * 10 + (c.toNat - 48)) 0 : Nat))
    else none
  | '+' :: ds =>
    if ds ≠ [] ∧ ds.all (·.isDigit) then
      some ((ds.foldl (fun a c => a * 10 + (c.toNat - 48)) 0 : Nat))
    else none
  | ds =>
    if ds ≠ [] ∧ ds.all (·.isDigit) then
      some ((ds.foldl (fun a c => a * 10 + (c.toNat - 48)) 0 : Nat))
    else none

/-- Python `int(s, 16)` on the two uppercase hex digits of an unknown-command
spelling. -/
def hexDigitVal (c : Char) : Option Nat :=
  if c.isDigit then some (c.toNat - 48)
  else if 'A' ≤ c ∧ c ≤ 'F' then some (c.toNat - 55)
  else none

/-- `re`'s `\w` on the ASCII text this codec produces. -/
def isWordChar (c : Char) : Bool := c.isAlphanum || c = '_'

/-- The `SseqCommandId` enum: `(value, name)` pairs, in declaration order. -/
def sseqCommandList : List (Nat × List Char) :=
  [(0x80, "Delay"), (0x81, "Instrument"), (0x93, "Pointer"), (0x94, "Jump"),
   (0x95, "Call"), (0xB0, "SetVar"), (0xB1, "AddVar"), (0xB2, "SubVar"),
   (0xB3, "MulVar"), (0xB4, "DivVar"), (0xB5, "ShiftVar"), (0xB6, "SetVarRnd"),
   (0xB8, "VarEq"), (0xB9, "VarGe"), (0xBA, "VarGt"), (0xBB, "VarLe"),
   (0xBC, "VarLt"), (0xBD, "VarNe"), (0xC0, "Pan"), (0xC1, "Volume"),
   (0xC2, "MasterVolume"), (0xC3, "Transpose"), (0xC4, "PitchBlend"),
   (0xC5, "PitchBlendRange"), (0xC6, "Priority"), (0xC7, "Poly"),
   (0xC8, "Tie"), (0xC9, "PortamentoControl"), (0xCA, "ModDepth"),
   (0xCB, "ModSpeed"), (0xCC, "ModType"), (0xCD, "ModRange"),
   (0xCE, "PortamentoOnOff"), (0xCF, "PortamentoTime"), (0xD0, "Attack"),
   (0xD1, "Decay"), (0xD2, "Sustain"), (0xD3, "Release"), (0xD4, "LoopStart"),
   (0xD5, "Expression"), (0xD6, "Print"), (0xE0, "ModDelay"), (0xE1, "Tempo"),
   (0xE3, "PitchSweep"), (0xFC, "LoopEnd"), (0xFD, "Return"),
   (0xFF, "TrackEnd")].map fun p => (p.1, p.2.toList)

/-- `SseqCommandId(value)` (None = `ValueError`, i.e. not an enum value). -/
def cmdNameOf (value : Nat) : Option (List Char) :=
  (sseqCommandList.find? fun p => p.1 = value).map Prod.snd

/-- `getattr(SseqCommandId, name).value` (None = `AttributeError`). -/
def cmdFromName (name : List Char) : Option Nat :=
  (sseqCommandList.find? fun p => p.2 = name).map Prod.fst

/-- The shared `note_names` list of `SeqConverter`. -/
def noteNames : List (List Char) :=
  ["C_", "C#", "D_", "D#", "E_", "F_", "F#", "G_", "G#", "A_", "A#",
   "B_"].map String.toList

/-- `SeqConverter.note_names.index(s)` (None = `ValueError`). -/
def noteNamesIndex (s : List Char) : Option Nat :=
  (noteNames.zip (List.range 12)).findSome? fun p =>
    if p.1 = s then some p.2 else none

/-- The `SNDSeqVal` enum of command parameter types. -/
inductive SNDSeqVal where
  | u8
  | u16
  | vlv
  | ran
  | var
  | noinit
  deriving Repr, DecidableEq

/-- Shorthand: the character list of a string literal. -/
def strL (s : String) : List Char := s.data

/-- The `NNSSndSeqData` header of an SSEQ resource (struct format
`<4sHHLHHLLL`, 28 bytes). -/
structure NNSSndSeqData where
  signature : List Nat
  byteOrder : Nat
  version : Nat
  fileSize : Nat
  headerSize : Nat
  dataBlocks : Nat
  kind : Nat
  size2 : Nat
  baseOffset : Nat
  deriving Repr, DecidableEq

/-- `NNSSndSeqData.unpack_from(buffer)` followed by the `__post_init__`
asserts (`b'SSEQ'` signature, byte order `0xFEFF`, version `0x0100`, block
kind ASCII `DATA`); `none` = `struct.error` on a short buffer or a failed
assert. -/
def sseqUnpackHeader (buffer : List Nat) : Option NNSSndSeqData :=
  if buffer.length < 28 then none
  else
    let h : NNSSndSeqData :=
      { signature := pySlice buffer 0 4
        byteOrder := intFromBytesLE (pySlice buffer 4 2)
        version := intFromBytesLE (pySlice buffer 6 2)
        fileSize := intFromBytesLE (pySlice buffer 8 4)
        headerSize := intFromBytesLE (pySlice buffer 12 2)
        dataBlocks := intFromBytesLE (pySlice buffer 14 2)
        kind := intFromBytesLE (pySlice buffer 16 4)
        size2 := intFromBytesLE (pySlice buffer 20 4)
        baseOffset := intFromBytesLE (pySlice buffer 24 4) }
    if h.signature = [0x53, 0x53, 0x45, 0x51] ∧ h.byteOrder = 0xFEFF ∧
        h.version = 0x0100 ∧
        h.kind = intFromBytesLE [0x44, 0x41, 0x54, 0x41] then
      some h
    else none

/-- `NNSSndSeqData` packed back to bytes (`header.pack()` in `compile`); the
caller builds it with in-range field values. -/
def sseqPackHeader (fileSize size2 : Nat) : List Nat :=
  [0x53, 0x53, 0x45, 0x51] ++ [0xFF, 0xFE] ++ [0x00, 0x01] ++
    (List.range 4).map (fun i => fileSize / 256 ^ i % 256) ++
    [0x10, 0x00] ++ [0x01, 0x00] ++ [0x44, 0x41, 0x54, 0x41] ++
    (List.range 4).map (fun i => size2 / 256 ^ i % 256) ++
    [0x1C, 0x00, 0x00, 0x00]

/-- The decoded form of one statement, as stored in
`SseqToTxtConverter.commands[addr]`: the Python tuple
`(cmdstr, params, valueType, validx, conditional)`.  `cmdstr` is an
`SseqCommandId` member (represented by its opcode), a note string, or `None`
for an unknown command. -/
inductive SseqCmdStr where
  | cmd (value : Nat)
  | note (s : List Char)
  | unk
  deriving Repr, DecidableEq

/-- One `commands` entry. -/
structure SseqEntry where
  cmdstr : SseqCmdStr
  params : List Int
  valueType : SNDSeqVal
  validx : Int
  conditional : Bool
  deriving Repr, DecidableEq

/-- State of a `SseqToTxtConverter`. -/
structure SseqToTxt where
  labels : List (Int × List Char)
  commands : List (Nat × SseqEntry)
  ntracks : Nat
  trackMask : Nat
  view : List Nat
  cursor : Nat
  baseOffset : Nat
  deriving Repr, DecidableEq

/-- `read_integer(nbytes)` (unsigned): little-endian value of the (silently
truncating) slice at the cursor, and the advanced cursor. -/
def readInteger (view : List Nat) (cursor n : Nat) : Nat × Nat :=
  (intFromBytesLE (pySlice view cursor n), cursor + n)

/-- `read_integer(nbytes, signed=True)`. -/
def readSigned (view : List Nat) (cursor n : Nat) : Int × Nat :=
  (intFromBytesSLE (pySlice view cursor n), cursor + n)

/-- The loop of `read_varlen`: one byte per step, accumulating 7 bits at a
time, stopping on a clear high bit.  Reading past the end of the buffer
yields byte `0`, which stops the loop, so the fuel
`view.length - cursor + 1` always suffices; bytes are `< 256`, making
`b & 0x80 ≠ 0` the same as `128 ≤ b`. -/
def readVarlenGo (view : List Nat) : Nat → Nat → Nat → Option (Nat × Nat)
  | 0, _, _ => none
  | fuel + 1, cursor, acc =>
    let b := (readInteger view cursor 1).1
    let acc2 := acc * 128 + b % 128
    if 128 ≤ b then readVarlenGo view fuel (cursor + 1) acc2
    else some (acc2, cursor + 1)

/-- `read_varlen`, including the final `assert ret <= 0xFFFFFFFF` (`none` =
`AssertionError`). -/
def readVarlen (view : List Nat) (cursor : Nat) : Option (Nat × Nat) := do
  let (v, c) ← readVarlenGo view (view.length - cursor + 1) cursor 0
  if v ≤ 0xFFFFFFFF then some (v, c) else none

/-- `get_command`: consume the conditional (`0xA2`) and value-type override
(`0xA0` random, `0xA1` variable) prefixes in the source's order and return
the true opcode byte, the override, the conditional flag and the new
cursor. -/
def getCommand (view : List Nat) (cursor : Nat) :
    Nat × SNDSeqVal × Bool × Nat :=
  let (cmd, c) := readInteger view cursor 1
  let (cmd, c, cond) :=
    if cmd = 0xA2 then
      let (x, c2) := readInteger view c 1
      (x, c2, true)
    else (cmd, c, false)
  let (cmd, c, vt) :=
    if cmd = 0xA0 then
      let (x, c2) := readInteger view c 1
      (x, c2, SNDSeqVal.ran)
    else (cmd, c, SNDSeqVal.noinit)
  let (cmd, c, vt) :=
    if cmd = 0xA1 then
      let (x, c2) := readInteger view c 1
      (x, c2, SNDSeqVal.var)
    else (cmd, c, vt)
  (cmd, vt, cond, c)

/-- `read_value(valueType, default)`: the argument tuple for the active
value type (`none` = the unreachable `ValueError`). -/
def readValue (view : List Nat) (cursor : Nat) (vt default : SNDSeqVal) :
    Option (List Int × Nat) :=
  let vt := if vt = SNDSeqVal.noinit then default else vt
  match vt with
  | SNDSeqVal.u8 =>
    let (x, c) := readInteger view cursor 1
    some ([(x : Int)], c)
  | SNDSeqVal.u16 =>
    let (x, c) := readInteger view cursor 2
    some ([(x : Int)], c)
  | SNDSeqVal.vlv => do
    let (v, c) ← readVarlen view cursor
    some ([(v : Int)], c)
  | SNDSeqVal.var =>
    let (x, c) := readInteger view cursor 1
    some ([(x : Int)], c)
  | SNDSeqVal.ran =>
    let (lo, c1) := readSigned view cursor 2
    let (hi, c2) := readSigned view c1 2
    some ([lo, hi], c2)
  | SNDSeqVal.noinit => none

/-- `parse_note`: the note-name string `<pitch><octave>` and the parameter
tuple `(velocity, *length)`. -/
def parseNote (view : List Nat) (cursor : Nat) (cmd : Nat)
    (vt : SNDSeqVal) : Option (List Char × List Int × Nat) := do
  let pitch := noteNames.getD (cmd % 12) []
  let octave := cmd / 12
  let (velocity, c1) := readInteger view cursor 1
  let (length, c2) ← readValue view c1 vt SNDSeqVal.vlv
  some (pitch ++ natToDecChars octave, (velocity : Int) :: length, c2)

/-- `parse_cmd`: dispatch on the opcode's high nibble, replicating the ARM7
logic (the opcode byte is `< 256`, so `cmd & 0xF0 = cmd / 16 * 16`). -/
def parseCmd (view : List Nat) (cursor : Nat) (cmd : Nat)
    (vt : SNDSeqVal) : Option (SseqCmdStr × List Int × Int × Nat) := do
  let known := (cmdNameOf cmd).isSome
  let high := cmd / 16 * 16
  let (arg, validx, c2) ←
    if high = 0x80 then do
      let (arg, c) ← readValue view cursor vt SNDSeqVal.vlv
      some (arg, (0 : Int), c)
    else if high = 0x90 then
      if cmd = 0x93 then
        let (trackno, ca) := readInteger view cursor 1
        let (address, cb) := readInteger view ca 3
        some ([(trackno : Int), (address : Int)], (-1 : Int), cb)
      else if cmd = 0x94 ∨ cmd = 0x95 then
        let (address, ca) := readInteger view cursor 3
        some ([(address : Int)], (-1 : Int), ca)
      else some (([] : List Int), (-1 : Int), cursor)
    else if high = 0xC0 ∨ high = 0xD0 then do
      let (arg, c) ← readValue view cursor vt SNDSeqVal.u8
      let arg := if cmd = 0xC0 ∧
          (vt = SNDSeqVal.noinit ∨ vt = SNDSeqVal.ran) then
          arg.map (· - 0x40)
        else arg
      some (arg, (0 : Int), c)
    else if high = 0xE0 then do
      let (arg, c) ← readValue view cursor vt SNDSeqVal.u16
      some (arg, (0 : Int), c)
    else if high = 0xB0 then do
      let (varnum, ca) := readInteger view cursor 1
      let (param, cb) ← readValue view ca vt SNDSeqVal.u16
      some ((varnum : Int) :: param, (1 : Int), cb)
    else some (([] : List Int), (-1 : Int), cursor)
  if known then some (SseqCmdStr.cmd cmd, arg, validx, c2)
  else some (SseqCmdStr.unk, (cmd : Int) :: arg, validx, c2)

/-- One iteration of the `parse_track` loop followed by the bookkeeping of
`scan_commands`: decode one statement at the cursor, store it in `commands`,
and register a label for a `Pointer` target or a `Jump`/`Call` target. -/
def scanStep (seqname : List Char) (st : SseqToTxt) : Option SseqToTxt := do
  let addr := st.cursor
  let (cmd, vt, cond, c1) := getCommand st.view st.cursor
  if cmd < 128 then
    let (pitchStr, params, c2) ← parseNote st.view c1 cmd vt
    some { st with
             commands := dictSet st.commands addr
               ⟨SseqCmdStr.note pitchStr, params, vt, -1, cond⟩
             cursor := c2 }
  else
    let (cmdstr, params, validx, c2) ← parseCmd st.view c1 cmd vt
    let labels :=
      if cmdstr = SseqCmdStr.cmd 0x93 then
        match params with
        | [trkno, address] =>
          dictSet st.labels address
            (seqname ++ strL "_Tk" ++ pad2 trkno.toNat)
        | _ => st.labels
      else if cmdstr = SseqCmdStr.cmd 0x94 ∨ cmdstr = SseqCmdStr.cmd 0x95 then
        match params with
        | [address] =>
          dictSet st.labels address
            (seqname ++ strL "_Sub" ++ hex4 address.toNat)
        | _ => st.labels
      else st.labels
    some { st with
             labels := labels
             commands := dictSet st.commands addr
               ⟨cmdstr, params, vt, validx, cond⟩
             cursor := c2 }

/-- The `parse_track` loop of `scan_commands`: decode statements until the
cursor reaches the end of the (zero-stripped) buffer.  Every statement
consumes at least one byte, so fuel `view.length` suffices. -/
def scanCommands (seqname : List Char) : Nat → SseqToTxt → Option SseqToTxt
  | 0, st => if st.cursor < st.view.length then none else some st
  | fuel + 1, st =>
    if st.cursor < st.view.length then do
      let st2 ← scanStep seqname st
      scanCommands seqname fuel st2
    else some st

/-- Number of set bits among the low 16 bits of the track mask. -/
def countBits16 (m : Nat) : Nat :=
  (List.range 16).foldl (fun a i => a + m / 2 ^ i % 2) 0

/-- `SseqToTxtConverter.__init__(buffer)`: unpack and check the header, trim
trailing zero bytes, consume an optional `0xFE` tracks-used header, and
register the first track's label.  The label text `'{seqname:s}_Tk00'` is a
format template; `seqname` here is the name later substituted by
`str.format`, so labels are embedded post-substitution. -/
def sseqInit (seqname : List Char) (buffer : List Nat) :
    Option SseqToTxt := do
  let header ← sseqUnpackHeader buffer
  let view := rstripZeros buffer
  let (b, c1) := readInteger view header.baseOffset 1
  let (trackMask, ntracks, cursor) :=
    if b = 0xFE then
      let (mask, c2) := readInteger view c1 2
      (mask, countBits16 mask, c2)
    else (0, 0, c1 - 1)
  some { labels := [((cursor - header.baseOffset : Nat), seqname ++ strL "_Tk00")]
         commands := []
         ntracks := ntracks
         trackMask := trackMask
         view := view
         cursor := cursor
         baseOffset := header.baseOffset }

/-- Python `', '.join`. -/
def joinSep (sep : List Char) : List (List Char) → List Char
  | [] => []
  | [x] => x
  | x :: xs => x ++ sep ++ joinSep sep xs

/-- The `valueType.name.replace('SND_SEQ_VAL_', '')` tag used when a
flexible-width argument's actual encoding differs from the default. -/
def valTypeTag : SNDSeqVal → List Char
  | SNDSeqVal.u8 => strL "U8"
  | SNDSeqVal.u16 => strL "U16"
  | SNDSeqVal.vlv => strL "VLV"
  | SNDSeqVal.ran => strL "RAN"
  | SNDSeqVal.var => strL "VAR"
  | SNDSeqVal.noinit => strL "NOINIT"

/-- One iteration of `iter_format_commands`: the rendered line(s) for one
`commands` entry (a label line when the addresses match, the statement line,
and a blank line after `Return`/`TrackEnd`). -/
def renderEntry (labels : List (Int × List Char)) (baseOffset : Nat)
    (addrEntry : Nat × SseqEntry) : Option (List (List Char)) := do
  let addrRel : Int := (addrEntry.1 : Int) - (baseOffset : Int)
  let e := addrEntry.2
  let labelLines :=
    match dictGet labels addrRel with
    | some lbl => [lbl ++ strL ": @ 0x" ++ hex4 addrRel.toNat]
    | none => ([] : List (List Char))
  let condS := if e.conditional then strL "IFTRUE " else []
  match e.cmdstr with
  | SseqCmdStr.cmd c => do
    let name ← cmdNameOf c
    let lines ←
      if e.params ≠ [] then do
        let paramsL ←
          if c = 0x93 then do
            let a0 ← e.params[0]?
            let a1 ← e.params[1]?
            let lbl ← dictGet labels a1
            some [intToDecChars a0, lbl ++ strL " @ 0x" ++ hex4 a1.toNat]
          else if c = 0x94 ∨ c = 0x95 then do
            let a0 ← e.params[0]?
            let lbl ← dictGet labels a0
            some [lbl]
          else
            some (e.params.map intToDecChars)
        let paramsL :=
          if e.validx ≠ -1 ∧ e.valueType ≠ SNDSeqVal.noinit then
            paramsL.take e.validx.toNat ++
              [valTypeTag e.valueType ++ strL "(" ++
                joinSep (strL ", ") (paramsL.drop e.validx.toNat) ++ strL ")"]
          else paramsL
        some ['\t' :: (condS ++ name ++ strL " " ++
          joinSep (strL ", ") paramsL)]
      else
        some ['\t' :: (condS ++ name)]
    let lines := if c = 0xFD ∨ c = 0xFF then lines ++ [[]] else lines
    some (labelLines ++ lines)
  | SseqCmdStr.note s => do
    let a0 ← e.params[0]?
    let a1 ← e.params[1]?
    some (labelLines ++ ['\t' :: (condS ++ s ++ strL ", " ++
      intToDecChars a0 ++ strL ", " ++ intToDecChars a1)])
  | SseqCmdStr.unk => do
    let c0 ← e.params[0]?
    let rest := e.params.drop 1
    let nm := strL "SeqUnkCmd_x" ++ hex2 c0.toNat
    if rest ≠ [] then
      some (labelLines ++ ['\t' :: (condS ++ nm ++ strL " " ++
        joinSep (strL ", ") (rest.map intToDecChars))])
    else
      some (labelLines ++ ['\t' :: (condS ++ nm)])

/-- `SseqToTxtConverter.parse()` composed with the `str.format` substitution
of `seqname`: the disassembler's text output, as a list of lines (`none` =
an exception while decoding or rendering). -/
def sseqParse (seqname : List Char) (buffer : List Nat) :
    Option (List (List Char)) := do
  let st ← sseqInit seqname buffer
  let st ← scanCommands seqname st.view.length st
  let rendered ← st.commands.mapM (renderEntry st.labels st.baseOffset)
  some rendered.flatten

/-!
### `TxtToSseqConverter` — the assembler

State: `labels` (dict label name → offset), `relocs` (dict offset → label
name), the `compiled` byte buffer and `tracks_mask`; `shifts` is a ghost
counter incremented exactly when the retroactive 3-byte tracks-used header
insertion in `write_command` runs (it changes nothing else and exists only
to state the one-time-shift claim). -/

/-- State of a `TxtToSseqConverter`. -/
structure TxtToSseq where
  labels : List (List Char × Nat)
  relocs : List (Nat × List Char)
  compiled : List Nat
  tracks_mask : Nat
  shifts : Nat
  deriving Repr, DecidableEq

/-- `write_integer(value, nbytes, offset)`: negative values are wrapped by
`1 << (8*nbytes)` and the result must fit `nbytes` bytes (`none` =
`OverflowError` from `to_bytes`); `offset=None` appends, otherwise the bytes
replace the slice at `offset`. -/
def writeInteger (compiled : List Nat) (value : Int) (nbytes : Nat)
    (offset : Option Nat) : Option (List Nat) :=
  let value := if value < 0 then value + (2 : Int) ^ (8 * nbytes) else value
  (intToBytesLE value nbytes).map fun buf =>
    match offset with
    | none => compiled ++ buf
    | some o => listWriteAt compiled o buf

/-- The little-endian 7-bit chunks built by the `write_varlen` loop, each
with the continuation bit set (`(value & 0x7F) | 0x80 = value % 128 + 128`). -/
def varlenChunksGo : Nat → Nat → List Nat
  | 0, _ => []
  | fuel + 1, v =>
    if v = 0 then [] else (v % 128 + 128) :: varlenChunksGo fuel (v / 128)

/-- Same, with the always-sufficient fuel `v + 1`. -/
def varlenChunks (v : Nat) : List Nat :=
  varlenChunksGo (v + 1) v

/-- `write_varlen(value, offset)`: emit the chunks, clear the continuation
bit of the first (least significant) one — `buffer[0] &= 0x7F` raises
`IndexError` when `value = 0` because the loop then emits nothing — and
reverse to big-endian order.  A negative value never leaves the Python
`while value:` loop (`value >>= 7` stalls at `-1`); that divergence is also
embedded as `none`. -/
def writeVarlen (compiled : List Nat) (value : Int) (offset : Option Nat) :
    Option (List Nat) :=
  if value ≤ 0 then none
  else
    match varlenChunks value.toNat with
    | [] => none
    | c :: rest =>
      let buf := ((c % 128) :: rest).reverse
      some (match offset with
            | none => compiled ++ buf
            | some o => listWriteAt compiled o buf)

/-- `handle_prefix(match, var_arg)`: the conditional byte `0xA2` and the
value-type override byte (`0xA0` for `RAN(...)`, `0xA1` for `VAR(...)`;
any other tag kind raises `ValueError`). -/
def handlePrefix (cond : Bool) (varArg : Option (List Char × List Char))
    (compiled : List Nat) : Option (List Nat) := do
  let compiled ← if cond then writeInteger compiled 0xA2 1 none
                 else some compiled
  match varArg with
  | none => some compiled
  | some (kind, _) =>
    if kind = strL "RAN" then writeInteger compiled 0xA0 1 none
    else if kind = strL "VAR" then writeInteger compiled 0xA1 1 none
    else none

/-- Python `s.split(', ')` (the separator is non-empty): split on
non-overlapping occurrences, left to right. -/
def pySplitSepGo (sep : List Char) : Nat → List Char → List (List Char)
  | 0, s => [s]
  | fuel + 1, s =>
    match (List.range s.length).find? fun i => sep.isPrefixOf (s.drop i) with
    | none => [s]
    | some i => s.take i :: pySplitSepGo sep fuel (s.drop (i + sep.length))

/-- Python `s.split(sep)` for a non-empty separator. -/
def pySplitSep (s sep : List Char) : List (List Char) :=
  pySplitSepGo sep (s.length + 1) s

/-- `handle_var_arg(raw, var_arg, default)`: encode a flexible-width
argument, by the tagged kind when one is present and by the structural
default otherwise. -/
def handleVarArg (compiled : List Nat) (raw : List Char)
    (varArg : Option (List Char × List Char)) (default : SNDSeqVal) :
    Option (List Nat) :=
  match varArg with
  | none =>
    match default with
    | SNDSeqVal.vlv => do
      let v ← pyInt raw
      writeVarlen compiled v none
    | SNDSeqVal.u8 => do
      let v ← pyInt raw
      writeInteger compiled v 1 none
    | SNDSeqVal.u16 => do
      let v ← pyInt raw
      writeInteger compiled v 2 none
    | _ => none
  | some (kind, args) =>
    if kind = strL "RAN" then
      (pySplitSep args (strL ", ")).foldlM
        (fun comp tok => do
          let v ← pyInt tok
          writeInteger comp v 2 none) compiled
    else do
      let v ← pyInt args
      writeInteger compiled v 1 none

/-- `LABEL_PAT, r'(?P<symbol>\w+):'` via `re.match`: a maximal non-empty run
of word characters followed by `':'` (shorter runs cannot backtrack into a
match because the character after them is a word character, not `':'`). -/
def labelPatMatch (s : List Char) : Option (List Char) :=
  let w := s.takeWhile isWordChar
  if w ≠ [] ∧ (s.drop w.length).head? = some ':' then some w else none

/-- The lazy group of `ARG_LEN`, `\((?P<args>.+?)\)`, applied after the
opening parenthesis: the shortest non-empty prefix followed by `')'`
(equivalently everything before the first `')'` at index ≥ 1; `.` does not
match a newline, but no line of this pipeline contains one). -/
def findCloseLazy (body : List Char) : Option (List Char) :=
  match body with
  | [] => none
  | c :: rest =>
    (rest.findIdx? fun x => x = ')').map fun k => c :: rest.take k

/-- `ARG_LEN, r'(?P<kind>\w+)\((?P<args>.+?)\)'` via `re.match` (trailing
characters after the closing parenthesis are allowed by `match`). -/
def argLenMatch (s : List Char) : Option (List Char × List Char) :=
  let w := s.takeWhile isWordChar
  if w = [] then none
  else
    match s.drop w.length with
    | '(' :: body => (findCloseLazy body).map fun args => (w, args)
    | _ => none

/-- `NOTE_PAT,
r'\t(?P<conditional>IFTRUE )?(?P<note>[A-G][_#])(?P<octave>\d), (?P<velocity>\d+), (?P<length>.+)'`
via `re.match`.  When the line starts with `IFTRUE ` but the rest fails to
match, the regex backtracks to the empty optional group, which then fails
immediately at `[A-G]` on `'I'`; so the optional group can be committed.
The velocity run is maximal (a shorter run is followed by a digit, not
`,`), and `length` is the non-empty remainder of the line. -/
def notePatMatch (s : List Char) :
    Option (Bool × List Char × List Char × List Char × List Char) :=
  match s with
  | '\t' :: rest =>
    let cond := (strL "IFTRUE ").isPrefixOf rest
    let t := if cond then rest.drop 7 else rest
    match t with
    | n1 :: n2 :: oc :: ',' :: ' ' :: restB =>
      if ('A' ≤ n1 ∧ n1 ≤ 'G') ∧ (n2 = '_' ∨ n2 = '#') ∧ oc.isDigit then
        let vel := restB.takeWhile (·.isDigit)
        if vel ≠ [] then
          match restB.drop vel.length with
          | ',' :: ' ' :: restC =>
            let len := restC.takeWhile (· ≠ '\n')
            if len ≠ [] then some (cond, [n1, n2], [oc], vel, len) else none
          | _ => none
        else none
      else none
    | _ => none
  | _ => none

/-- `CMD_PAT, r'\t(?P<conditional>IFTRUE )?(?P<command>\w+)(?P<args>.*)'` via
`re.match`.  The optional group participates only when a word character
follows `IFTRUE `; otherwise the regex backtracks and `IFTRUE...` itself
becomes the command word. -/
def cmdPatMatch (s : List Char) : Option (Bool × List Char × List Char) :=
  match s with
  | '\t' :: rest =>
    if (strL "IFTRUE ").isPrefixOf rest ∧
        ((rest.drop 7).head?.map isWordChar).getD false then
      let w := (rest.drop 7).takeWhile isWordChar
      some (true, w, ((rest.drop 7).drop w.length).takeWhile (· ≠ '\n'))
    else
      let w := rest.takeWhile isWordChar
      if w ≠ [] then
        some (false, w, (rest.drop w.length).takeWhile (· ≠ '\n'))
      else none
  | _ => none

/-- `UNK_COMMAND, r'SeqUnkCmd_x(?P<index>[0-9A-F]{2})'` via `re.match`, and
the `int(..., 16)` recovery of the raw opcode. -/
def unkCommandMatch (s : List Char) : Option Nat :=
  if (strL "SeqUnkCmd_x").isPrefixOf s then
    match s.drop 11 with
    | h1 :: h2 :: _ => do
      let a ← hexDigitVal h1
      let b ← hexDigitVal h2
      some (a * 16 + b)
    | _ => none
  else none

/-- `CMD_ARGS, r'\w+\(.+?\)|[^, ]+'` via `re.findall`: scan left to right;
at each position first try a word run followed by a lazily-closed
parenthesized group, then a maximal run of characters other than `','` and
`' '`; otherwise advance one character. -/
def cmdArgsFindallGo : Nat → List Char → List (List Char)
  | 0, _ => []
  | _ + 1, [] => []
  | fuel + 1, c :: rest =>
    let s := c :: rest
    let w := s.takeWhile isWordChar
    let attempt1 : Option (List Char × List Char) :=
      if w ≠ [] then
        match s.drop w.length with
        | '(' :: body =>
          (findCloseLazy body).map fun args =>
            (w ++ '(' :: (args ++ [')']), body.drop (args.length + 1))
        | _ => none
      else none
    match attempt1 with
    | some (tok, rem) => tok :: cmdArgsFindallGo fuel rem
    | none =>
      if c ≠ ',' ∧ c ≠ ' ' then
        let tok := s.takeWhile fun x => x ≠ ',' ∧ x ≠ ' '
        tok :: cmdArgsFindallGo fuel (s.drop tok.length)
      else cmdArgsFindallGo fuel rest

/-- `CMD_ARGS.findall(args)`. -/
def cmdArgsFindall (s : List Char) : List (List Char) :=
  cmdArgsFindallGo (s.length + 1) s

/-- `write_note(match)`: prefix bytes, pitch byte
(`note_names.index(note) + 12 * octave`), velocity byte, then the
flexible-width duration (default variable-length). -/
def writeNote (cond : Bool) (note octave velocity length : List Char)
    (compiled : List Nat) : Option (List Nat) := do
  let pitchIdx ← noteNamesIndex note
  let oct ← pyInt octave
  let pitch : Int := (pitchIdx : Int) + 12 * oct
  let vel ← pyInt velocity
  let varArg := argLenMatch length
  let compiled ← handlePrefix cond varArg compiled
  let compiled ← writeInteger compiled pitch 1 none
  let compiled ← writeInteger compiled vel 1 none
  handleVarArg compiled length varArg SNDSeqVal.vlv

/-- The `Pointer`/`Jump`/`Call` block of `write_command` (opcode high
nibble `0x90`): a known `Pointer` performs the one-time retroactive 3-byte
shift when `tracks_mask` is still 1 (counted by the ghost field `shifts`),
ORs `1 << trackno` into the mask (raising on a negative index), writes the
track byte and reserves a relocation; a known `Jump`/`Call` reserves a
relocation; any other opcode with this high nibble writes nothing more. -/
def writeCmd90 (cmdKnown : Bool) (cmdIdx : Nat) (argsL : List (List Char))
    (st : TxtToSseq) (compiled : List Nat) : Option TxtToSseq :=
  if cmdKnown ∧ cmdIdx = 0x93 then do
    let (tknoS, labelS) ← match argsL with
                          | [a, b] => some (a, b)
                          | _ => none
    let tkno ← pyInt tknoS
    let (labels1, relocs1, compiled1, shifts1) :=
      if st.tracks_mask = 1 then
        (st.labels.map fun p => (p.1, p.2 + 3),
         st.relocs.map fun p => (p.1 + 3, p.2),
         [0, 0, 0] ++ compiled,
         st.shifts + 1)
      else (st.labels, st.relocs, compiled, st.shifts)
    let tknoN ← if tkno < 0 then none else some tkno.toNat
    let mask := st.tracks_mask ||| 2 ^ tknoN
    let compiled2 ← writeInteger compiled1 tkno 1 none
    let relocs2 := dictSet relocs1 compiled2.length labelS
    let compiled3 ← writeInteger compiled2 0 3 none
    some { labels := labels1
           relocs := relocs2
           compiled := compiled3
           tracks_mask := mask
           shifts := shifts1 }
  else if cmdKnown ∧ (cmdIdx = 0x94 ∨ cmdIdx = 0x95) then do
    let labelS ← match argsL with
                 | [a] => some a
                 | _ => none
    let relocs2 := dictSet st.relocs compiled.length labelS
    let compiled2 ← writeInteger compiled 0 3 none
    some { st with relocs := relocs2, compiled := compiled2 }
  else some { st with compiled := compiled }

/-- The u8-argument block of `write_command` (high nibble `0xC0`/`0xD0`),
including the `Pan` bias fix-up on the just-written byte(s). -/
def writeCmdC0D0 (cmdKnown : Bool) (cmdIdx : Nat)
    (argsL : List (List Char)) (varArg : Option (List Char × List Char))
    (compiled : List Nat) : Option (List Nat) := do
  let a0 ← match argsL with
           | [a] => some a
           | _ => none
  let compiled ← handleVarArg compiled a0 varArg SNDSeqVal.u8
  if cmdKnown ∧ cmdIdx = 0xC0 then
    match varArg with
    | none => do
      let lastB ← compiled.getLast?
      some (compiled.dropLast ++ [(lastB + 0x40) % 256])
    | some (kind, _) =>
      if kind = strL "RAN" then do
        let low := intFromBytesSLE
          ((compiled.drop (compiled.length - 4)).take 2) + 0x40
        let high2 := intFromBytesSLE (compiled.drop (compiled.length - 2)) + 0x40
        let compiled ← writeInteger compiled low 2 (some (compiled.length - 4))
        writeInteger compiled high2 2 (some (compiled.length - 2))
      else some compiled
  else some compiled

/-- The variable-manipulation block of `write_command` (high nibble
`0xB0`). -/
def writeCmdB0 (argsL : List (List Char))
    (varArg : Option (List Char × List Char)) (compiled : List Nat) :
    Option (List Nat) := do
  let (vS, pS) ← match argsL with
                 | [a, b] => some (a, b)
                 | _ => none
  let v ← pyInt vS
  let compiled ← writeInteger compiled v 1 none
  handleVarArg compiled pS varArg SNDSeqVal.u16

/-- `write_command(match)`: resolve the mnemonic (falling back to the
`SeqUnkCmd_xNN` spelling), tokenize the arguments, emit prefix and opcode
bytes and dispatch on the opcode's high nibble, replicating the ARM7
logic. -/
def writeCommand (cond : Bool) (cmdName args : List Char)
    (st : TxtToSseq) : Option TxtToSseq := do
  let (cmdKnown, cmdIdx) ←
    match cmdFromName cmdName with
    | some v => some (true, v)
    | none => (unkCommandMatch cmdName).map fun v => (false, v)
  let argsL := cmdArgsFindall args
  let varArg := match argsL.getLast? with
                | some last => argLenMatch last
                | none => none
  let compiled ← handlePrefix cond varArg st.compiled
  let compiled ← writeInteger compiled cmdIdx 1 none
  let high := cmdIdx / 16 * 16
  if high = 0x80 then do
    let a0 ← argsL[0]?
    let compiled ← handleVarArg compiled a0 varArg SNDSeqVal.vlv
    some { st with compiled := compiled }
  else if high = 0x90 then
    writeCmd90 cmdKnown cmdIdx argsL st compiled
  else if high = 0xC0 ∨ high = 0xD0 then
    (writeCmdC0D0 cmdKnown cmdIdx argsL varArg compiled).map
      fun c => { st with compiled := c }
  else if high = 0xE0 then do
    let a0 ← match argsL with
             | [a] => some a
             | _ => none
    let compiled ← handleVarArg compiled a0 varArg SNDSeqVal.u16
    some { st with compiled := compiled }
  else if high = 0xB0 then
    (writeCmdB0 argsL varArg compiled).map fun c => { st with compiled := c }
  else some { st with compiled := compiled }

/-- Python `str.isspace` characters relevant to `str.rstrip()`. -/
def isPySpace (c : Char) : Bool :=
  c.toNat = 32 ∨ c.toNat = 9 ∨ c.toNat = 10 ∨ c.toNat = 13 ∨
    c.toNat = 11 ∨ c.toNat = 12

/-- Python `s.rstrip()`. -/
def rstripWS (s : List Char) : List Char :=
  (s.reverse.dropWhile isPySpace).reverse

/-- One iteration of the main parsing loop of `compile`: strip the `@`
comment, then try the label, note and command patterns in order. -/
def compileLine (st : TxtToSseq) (line : List Char) : Option TxtToSseq :=
  let line := rstripWS (line.takeWhile (· ≠ '@'))
  match labelPatMatch line with
  | some sym => some { st with labels := dictSet st.labels sym st.compiled.length }
  | none =>
    match notePatMatch line with
    | some (cond, note, octave, velocity, length) =>
      (writeNote cond note octave velocity length st.compiled).map
        fun comp => { st with compiled := comp }
    | none =>
      match cmdPatMatch line with
      | some (cond, cmd, args) => writeCommand cond cmd args st
      | none => some st

/-- `dispatch_relocs`: patch every pending relocation with its label's final
offset (`none` = `KeyError` on a dangling label, or an out-of-range
offset). -/
def dispatchRelocs (labels : List (List Char × Nat))
    (relocs : List (Nat × List Char)) (compiled : List Nat) :
    Option (List Nat) :=
  relocs.foldlM
    (fun comp p => do
      let target ← dictGet labels p.2
      writeInteger comp (target : Int) 3 (some p.1)) compiled

/-- The fresh assembler state of `TxtToSseqConverter.__init__`. -/
def txtToSseqInit : TxtToSseq :=
  { labels := [], relocs := [], compiled := [], tracks_mask := 1, shifts := 0 }

/-- `TxtToSseqConverter.compile(file)`: the single-pass line loop, the
relocation fix-up, the tracks-used header when more than one track was
declared, zero padding to 32-bit alignment, and the packed resource header
(whose `u32` fields must be in range — `struct.error` otherwise). -/
def compileTxt (lines : List (List Char)) : Option (List Nat) := do
  let st ← lines.foldlM compileLine txtToSseqInit
  let compiled ← dispatchRelocs st.labels st.relocs st.compiled
  let compiled ←
    if st.tracks_mask ≠ 1 then do
      let c1 ← writeInteger compiled 0xFE 1 (some 0)
      writeInteger c1 (st.tracks_mask : Int) 2 (some 1)
    else some compiled
  let compiled :=
    if compiled.length % 4 ≠ 0 then
      compiled ++ List.replicate (4 - compiled.length % 4) 0
    else compiled
  if 28 + compiled.length < 2 ^ 32 then
    some (sseqPackHeader (28 + compiled.length) (12 + compiled.length) ++
      compiled)
  else none

/-! ### Concrete example inputs used by the codec claims -/

/-- A two-track SSEQ binary: canonical 28-byte header (base offset 28),
then `FE 03 00` (tracks-used, mask `0b11`), a `Pointer` declaring track 1 at
stream-relative address 9, and one `TrackEnd` per track. -/
def exampleTwoTrackBin : List Nat :=
  sseqPackHeader 38 22 ++
    [0xFE, 0x03, 0x00, 0x93, 0x01, 0x09, 0x00, 0x00, 0xFF, 0xFF]

/-- A single-track SSEQ binary whose only statement is a `Delay` whose
variable-length argument `1` is encoded non-minimally as `80 01`. -/
def exampleNonMinimalVarlenBin : List Nat :=
  sseqPackHeader 31 15 ++ [0x80, 0x80, 0x01]

/-- A text program whose `Pointer` statements declare track index 0 twice. -/
def examplePointerZeroTwice : List (List Char) :=
  [strL "A:", strL "\tPointer 0, A", strL "\tPointer 0, A"]

/-- Side condition for the one-time-shift claim: a parsed `Pointer`
statement declares a positive (nonzero) track index.  (Commands that fail to
parse or to assemble are vacuously fine — the run aborts on them.) -/
def cmdPointerPositive (cmd args : List Char) : Bool :=
  if cmdFromName cmd = some 0x93 then
    match cmdArgsFindall args with
    | [a, _] =>
      match pyInt a with
      | some t => decide (1 ≤ t)
      | none => true
    | _ => true
  else true

/-- The same side condition lifted to one text line: every line that the
assembler's command pattern recognizes as a `Pointer` statement carries a
positive track index. -/
def linePointerPositive (line : List Char) : Bool :=
  let l := rstripWS (line.takeWhile (· ≠ '@'))
  match labelPatMatch l with
  | some _ => true
  | none =>
    match notePatMatch l with
    | some _ => true
    | none =>
      match cmdPatMatch l with
      | some (_, cmd, args) => cmdPointerPositive cmd args
      | none => true

/-!
### Canonical straight-line programs (for the round-trip claim)

The amended round-trip statement quantifies over single-track, straight-line
statement lists: notes and commands with fixed-width or minimally encoded
variable-length arguments, no modifier prefixes, no branch statements, ending
in `TrackEnd`.  `encStmt` is the byte encoding such a statement assembles to
(and that the disassembler consumes); `canonicalBin` wraps a program in the
exact header and padding `TxtToSseqConverter.compile` emits. -/

/-- A straight-line statement. -/
inductive StraightStmt where
  | note (pitch velocity length : Nat)
  | cmdVlv (op v : Nat)
  | cmdU8 (op a : Nat)
  | cmdU16 (op a : Nat)
  | cmdVar (op varnum p : Nat)
  | cmdNone (op : Nat)
  deriving Repr, DecidableEq

/-- The known opcodes with a u8 argument, excluding `Pan` (whose rendered
value is biased). -/
def u8Ops : List Nat :=
  [0xC1, 0xC2, 0xC3, 0xC4, 0xC5, 0xC6, 0xC7, 0xC8, 0xC9, 0xCA, 0xCB, 0xCC,
   0xCD, 0xCE, 0xCF, 0xD0, 0xD1, 0xD2, 0xD3, 0xD4, 0xD5, 0xD6]

/-- The known opcodes with a u16 argument. -/
def u16Ops : List Nat := [0xE0, 0xE1, 0xE3]

/-- The known variable-manipulation opcodes. -/
def varOps : List Nat :=
  [0xB0, 0xB1, 0xB2, 0xB3, 0xB4, 0xB5, 0xB6, 0xB8, 0xB9, 0xBA, 0xBB, 0xBC,
   0xBD]

/-- Well-formedness of a straight-line statement: known opcode, argument in
range, variable-length values nonzero (and within the decoder's assert). -/
def wfStmt : StraightStmt → Bool
  | StraightStmt.note p v l =>
    p < 120 && v < 256 && 1 ≤ l && l ≤ 0xFFFFFFFF
  | StraightStmt.cmdVlv op v =>
    (op = 0x80 || op = 0x81) && 1 ≤ v && v ≤ 0xFFFFFFFF
  | StraightStmt.cmdU8 op a => op ∈ u8Ops && a < 256
  | StraightStmt.cmdU16 op a => op ∈ u16Ops && a < 65536
  | StraightStmt.cmdVar op n p => op ∈ varOps && n < 256 && p < 65536
  | StraightStmt.cmdNone op => op = 0xFC || op = 0xFD || op = 0xFF

/-- Two little-endian bytes (what `write_16bits` appends). -/
def le2 (v : Nat) : List Nat := [v % 256, v / 256 % 256]

/-- The minimal big-endian variable-length encoding (what `write_varlen`
emits for a positive value). -/
def minVarlen (v : Nat) : List Nat :=
  match varlenChunks v with
  | [] => []
  | c :: rest => ((c % 128) :: rest).reverse

/-- The byte encoding of a straight-line statement. -/
def encStmt : StraightStmt → List Nat
  | StraightStmt.note p v l => p :: v :: minVarlen l
  | StraightStmt.cmdVlv op v => op :: minVarlen v
  | StraightStmt.cmdU8 op a => [op, a]
  | StraightStmt.cmdU16 op a => op :: le2 a
  | StraightStmt.cmdVar op n p => op :: n :: le2 p
  | StraightStmt.cmdNone op => [op]

/-- The `commands` entry the disassembler's scan produces for a
straight-line statement. -/
def entryOf : StraightStmt → SseqEntry
  | StraightStmt.note p v l =>
    ⟨SseqCmdStr.note (noteNames.getD (p % 12) [] ++ natToDecChars (p / 12)),
     [(v : Int), (l : Int)], SNDSeqVal.noinit, -1, false⟩
  | StraightStmt.cmdVlv op v =>
    ⟨SseqCmdStr.cmd op, [(v : Int)], SNDSeqVal.noinit, 0, false⟩
  | StraightStmt.cmdU8 op a =>
    ⟨SseqCmdStr.cmd op, [(a : Int)], SNDSeqVal.noinit, 0, false⟩
  | StraightStmt.cmdU16 op a =>
    ⟨SseqCmdStr.cmd op, [(a : Int)], SNDSeqVal.noinit, 0, false⟩
  | StraightStmt.cmdVar op n p =>
    ⟨SseqCmdStr.cmd op, [(n : Int), (p : Int)], SNDSeqVal.noinit, 1, false⟩
  | StraightStmt.cmdNone op =>
    ⟨SseqCmdStr.cmd op, [], SNDSeqVal.noinit, -1, false⟩

/-- The statement line(s) the renderer emits for a straight-line statement
(excluding any label line): one line, plus a blank line after `Return` and
`TrackEnd`. -/
def stmtLines : StraightStmt → List (List Char)
  | StraightStmt.note p v l =>
    ['\t' :: (noteNames.getD (p % 12) [] ++ natToDecChars (p / 12) ++
      strL ", " ++ natToDecChars v ++ strL ", " ++ natToDecChars l)]
  | StraightStmt.cmdVlv op v =>
    ['\t' :: ((cmdNameOf op).getD [] ++ strL " " ++ natToDecChars v)]
  | StraightStmt.cmdU8 op a =>
    ['\t' :: ((cmdNameOf op).getD [] ++ strL " " ++ natToDecChars a)]
  | StraightStmt.cmdU16 op a =>
    ['\t' :: ((cmdNameOf op).getD [] ++ strL " " ++ natToDecChars a)]
  | StraightStmt.cmdVar op n p =>
    ['\t' :: ((cmdNameOf op).getD [] ++ strL " " ++ natToDecChars n ++
      strL ", " ++ natToDecChars p)]
  | StraightStmt.cmdNone op =>
    if op = 0xFD ∨ op = 0xFF then
      ['\t' :: (cmdNameOf op).getD [], []]
    else
      ['\t' :: (cmdNameOf op).getD []]

/-- Decidable well-formedness of a command mnemonic, as used by the
round-trip argument: at least two characters, all word characters, not
starting like `IFTRUE `, first two characters not matching the note
pattern's head, and not ending in whitespace.  Every mnemonic in
`SseqCommandId` satisfies it. -/
def nameOkB (nm : List Char) : Bool :=
  match nm with
  | c1 :: c2 :: _ =>
    nm.all isWordChar &&
    !((c1 == 'I') && (c2 == 'F')) &&
    !(decide ('A' ≤ c1 ∧ c1 ≤ 'G') && ((c2 == '_') || (c2 == '#'))) &&
    !isPySpace (nm.getLastD ' ')
  | _ => false

/-- The concatenated encoding of a straight-line program. -/
def canonicalBody (stmts : List StraightStmt) : List Nat :=
  (stmts.map encStmt).flatten

/-- The `commands` entries the scan produces for a straight-line program
starting at address `c`: one per statement, keyed by its address. -/
def entriesFrom (c : Nat) : List StraightStmt → List (Nat × SseqEntry)
  | [] => []
  | s :: rest => (c, entryOf s) :: entriesFrom (c + (encStmt s).length) rest

/-- The canonical binary of a straight-line program: the standard 28-byte
header (base offset 28, sizes derived from the padded data length) followed
by the encoded statements and zero padding to 32-bit alignment — exactly
the binary `TxtToSseqConverter.compile` emits for it. -/
def canonicalBin (stmts : List StraightStmt) : List Nat :=
  let body := canonicalBody stmts
  let pad := (4 - body.length % 4) % 4
  sseqPackHeader (28 + (body.length + pad)) (12 + (body.length + pad)) ++
    body ++ List.replicate pad 0

end SDATtool2

namespace SDATtool2

/-! ## Helper lemmas about the container model -/

/-- A derived filename is never the empty string (it starts with `Files/`). -/
theorem makeFileName_ne_empty (kind : Nat) (name : String) :
    makeFileName kind name ≠ "" := by
  intro h
  have h2 := congrArg String.length h
  simp only [makeFileName, String.length_append] at h2
  have e1 : ("Files/" : String).length = 6 := rfl
  have e2 : ("" : String).length = 0 := rfl
  omega

/-- Behavior of `add_file` on an unclaimed slot (`fid` beyond the descriptor
list, or the slot's `name` still empty): the slot is created if needed and
filled from the claiming record, and the record receives the derived
filename. -/
theorem addFile_unclaimed (descs : List NativeFileInfo) (kind : Nat)
    (name : String) (fid : Nat) (contents : List Nat)
    (h : (descs.getD fid ⟨"", 8, []⟩).name = "") :
    ∃ ext : List NativeFileInfo,
      fid < ext.length ∧ ext.getD fid ⟨"", 8, []⟩ = descs.getD fid ⟨"", 8, []⟩ ∧
      addFile descs kind name fid contents =
        (ext.set fid ⟨makeFileName kind name, kind, contents⟩,
         makeFileName kind name) := by
  unfold addFile
  by_cases hlen : descs.length ≤ fid
  · refine ⟨descs ++ List.replicate (fid - descs.length + 1)
      (⟨"", 8, []⟩ : NativeFileInfo), ?_, ?_, ?_⟩
    · simp only [List.length_append, List.length_replicate]
      omega
    · rw [List.getD_eq_getElem?_getD, List.getD_eq_getElem?_getD,
        List.getElem?_append_right hlen, List.getElem?_replicate,
        List.getElem?_eq_none hlen]
      simp only [if_pos (by omega : fid - descs.length < fid - descs.length + 1)]
      rfl
    · have hd : ((descs ++ List.replicate (fid - descs.length + 1)
          (⟨"", 8, []⟩ : NativeFileInfo)).getD fid
            (⟨"", 8, []⟩ : NativeFileInfo)).name = "" := by
        rw [List.getD_eq_getElem?_getD, List.getElem?_append_right hlen,
          List.getElem?_replicate]
        simp only [if_pos (by omega : fid - descs.length < fid - descs.length + 1)]
        rfl
      rw [List.getD_eq_getElem?_getD] at hd
      simp [hlen, hd]
  · refine ⟨descs, by omega, rfl, ?_⟩
    rw [List.getD_eq_getElem?_getD] at h
    simp [hlen, h]

/-- C6: when a second info record claims an already-claimed `fileId`, no
error is raised, the descriptor list is left completely unchanged (name,
category and contents of the slot stay those of the first claimant), and the
second record receives the first claimant's derived filename as its own
`filename`. -/
theorem addFile_second_claimant_noop (descs : List NativeFileInfo)
    (fid k1 k2 : Nat) (n1 n2 : String) (c1 c2 : List Nat)
    (h : (descs.getD fid ⟨"", 8, []⟩).name = "") :
    addFile (addFile descs k1 n1 fid c1).1 k2 n2 fid c2 =
      ((addFile descs k1 n1 fid c1).1, makeFileName k1 n1) ∧
    (addFile descs k1 n1 fid c1).1.getD fid ⟨"", 8, []⟩ =
      ⟨makeFileName k1 n1, k1, c1⟩ ∧
    (addFile descs k1 n1 fid c1).2 = makeFileName k1 n1 := by
  obtain ⟨ext, hfl, _, heq⟩ := addFile_unclaimed descs k1 n1 fid c1 h
  have hset : (ext.set fid
      (⟨makeFileName k1 n1, k1, c1⟩ : NativeFileInfo)).getD fid ⟨"", 8, []⟩ =
      ⟨makeFileName k1 n1, k1, c1⟩ := by
    rw [List.getD_eq_getElem?_getD, List.getElem?_set_self (by simpa using hfl)]
    rfl
  refine ⟨?_, by rw [heq]; exact hset, by rw [heq]⟩
  rw [heq]
  unfold addFile
  have hlen : ¬ (ext.set fid
      (⟨makeFileName k1 n1, k1, c1⟩ : NativeFileInfo)).length ≤ fid := by
    simp only [List.length_set]
    omega
  simp only [if_neg hlen, hset, if_neg (makeFileName_ne_empty k1 n1)]

/-- C6 witness: instantiated on an empty descriptor list at slot 2, with a
SEQ record claiming first and a BANK record claiming second. -/
theorem addFile_second_claimant_noop_witness :
    (([] : List NativeFileInfo).getD 2 ⟨"", 8, []⟩).name = "" ∧
    addFile (addFile [] 0 "A" 2 [1]).1 2 "B" 2 [2] =
      ((addFile [] 0 "A" 2 [1]).1, makeFileName 0 "A") :=
  ⟨rfl, (addFile_second_claimant_noop [] 2 0 2 "A" "B" [1] [2] rfl).1⟩

/-- The binding iteration over an empty symbol list leaves the records
untouched (Python `zip` truncates at the shorter list). -/
theorem bindZipIdx_nil_right {α β σ : Type} (f : Nat → α → β → σ → Option (α × σ))
    (i : Nat) (as : List α) (st : σ) :
    bindZipIdx f i as ([] : List β) st = some (as, st) := by
  cases as <;> rfl

/-- The binding iteration over an empty record list is a no-op. -/
theorem bindZipIdx_nil_left {α β σ : Type} (f : Nat → α → β → σ → Option (α × σ))
    (i : Nat) (bs : List β) (st : σ) :
    bindZipIdx f i ([] : List α) bs st = some (([] : List α), st) := by
  cases bs <;> rfl

/-- The SEQARC binding step never raises when the record's `fileId` is within
the FAT file list; its result is the renamed record and the updated
descriptor list. -/
theorem bindSeqArcRec_eq (files : List (List Nat)) (i : Nat)
    (rec : NNSSndArcSeqArcInfo) (symb : String × List String)
    (descs : List NativeFileInfo) :
    bindSeqArcRec files i rec symb descs =
      (files[rec.fileId]?).bind fun contents =>
        some ({ rec with
                  name := if symb.1 = "" then coreInfoTypeName 1 ++ "_" ++ pad3 i
                          else symb.1
                  arc_names := symb.2
                  filename := (addFile descs 1
                    (if symb.1 = "" then coreInfoTypeName 1 ++ "_" ++ pad3 i
                     else symb.1) rec.fileId contents).2 },
              (addFile descs 1
                (if symb.1 = "" then coreInfoTypeName 1 ++ "_" ++ pad3 i
                 else symb.1) rec.fileId contents).1) := by
  cases h : files[rec.fileId]? <;> simp [bindSeqArcRec, h]

/-- Success direction for the seqArc binding loop: when every record paired
with a symbol has an in-range `fileId`, the loop never raises. -/
theorem bindZipIdx_seqArc_some (files : List (List Nat)) :
    ∀ (recs : List NNSSndArcSeqArcInfo) (ss : List (String × List String))
      (i : Nat) (descs : List NativeFileInfo),
      (∀ p ∈ recs.zip ss, p.1.fileId < files.length) →
      ∃ r, bindZipIdx (bindSeqArcRec files) i recs ss descs = some r := by
  intro recs
  induction recs with
  | nil => intro ss i descs _; exact ⟨_, bindZipIdx_nil_left _ _ _ _⟩
  | cons r rs ih =>
    intro ss i descs hall
    cases ss with
    | nil => exact ⟨_, bindZipIdx_nil_right _ _ _ _⟩
    | cons b bs =>
      have hlt : r.fileId < files.length := by
        have := hall (r, b) (by simp)
        simpa using this
      have hc : files[r.fileId]? = some files[r.fileId] :=
        List.getElem?_eq_getElem hlt
      obtain ⟨q, hq⟩ := ih bs (i + 1)
        ((addFile descs 1 (if b.1 = "" then coreInfoTypeName 1 ++ "_" ++ pad3 i
          else b.1) r.fileId files[r.fileId]).1)
        (fun p hp => hall p (by simp [hp]))
      simp only [bindZipIdx, bindSeqArcRec_eq, hc, Option.some_bind, hq]
      exact ⟨_, rfl⟩

/-- Bound direction for the seqArc binding loop: a successful run implies
every processed record had an in-range `fileId`. -/
theorem bindZipIdx_seqArc_bound (files : List (List Nat)) :
    ∀ (recs : List NNSSndArcSeqArcInfo) (ss : List (String × List String))
      (i : Nat) (descs : List NativeFileInfo) r,
      bindZipIdx (bindSeqArcRec files) i recs ss descs = some r →
      ∀ p ∈ recs.zip ss, p.1.fileId < files.length := by
  intro recs
  induction recs with
  | nil => intro ss i descs r _ p hp; simp at hp
  | cons rr rs ih =>
    intro ss i descs r hsome p hp
    cases ss with
    | nil => simp at hp
    | cons b bs =>
      simp only [bindZipIdx, bindSeqArcRec_eq] at hsome
      cases hf : files[rr.fileId]? with
      | none => rw [hf] at hsome; simp at hsome
      | some c =>
        rw [hf] at hsome
        simp only [Option.some_bind] at hsome
        cases hrest : bindZipIdx (bindSeqArcRec files) (i + 1) rs bs
            ((addFile descs 1 (if b.1 = "" then
              coreInfoTypeName 1 ++ "_" ++ pad3 i else b.1) rr.fileId c).1) with
        | none => rw [hrest] at hsome; simp at hsome
        | some q =>
          have hlt : rr.fileId < files.length := by
            by_contra hc
            rw [List.getElem?_eq_none (by omega)] at hf
            exact Option.noConfusion hf
          simp only [List.zip_cons_cons, List.mem_cons] at hp
          rcases hp with rfl | hp
          · exact hlt
          · exact ih bs (i + 1) _ q hrest p hp

/-- A seqArc-only model: `setSymbols` reduces to the seqArc phase. -/
theorem setSymbols_seqArcOnly_eq (recs : List NNSSndArcSeqArcInfo)
    (ss : List (String × List String)) (files : List (List Nat)) :
    setSymbols { seqArc := recs } { seqArc := ss } files =
      (bindZipIdx (bindSeqArcRec files) 0 recs ss []).bind fun pa =>
        some { seqArc := pa.1, file_descriptions := pa.2 } := by
  cases h : bindZipIdx (bindSeqArcRec files) 0 recs ss [] with
  | none =>
    simp only [setSymbols, bindZipIdx_nil_left, Option.some_bind, h,
      Option.none_bind]
  | some pa =>
    simp only [setSymbols, bindZipIdx_nil_left, Option.some_bind, h]

/-- C2 counterexample: a model whose single info record (a sequence-archive
record) carries `fileId = 65536` binds without any error when the FAT holds
65537 files — the record is named, its file slot is claimed and its filename
is derived, so a `fileId ≥ 65536` is silently accepted. -/
theorem setSymbols_accepts_fileId_65536 :
    ∃ m, setSymbols { seqArc := [⟨65536, "", "", []⟩] }
        { seqArc := [("X", [])] } (List.replicate 65537 []) = some m ∧
      m.seqArc = [⟨65536, "X", "Files/SEQARC/X.ssar", []⟩] := by
  obtain ⟨ext, hfl, hgd, heq⟩ := addFile_unclaimed [] 1 "X" 65536 [] rfl
  have hfile : (List.replicate 65537 ([] : List Nat))[(65536 : Nat)]? =
      some [] := by
    rw [List.getElem?_replicate]
    norm_num
  have hstep : bindZipIdx (bindSeqArcRec (List.replicate 65537 [])) 0
      [⟨65536, "", "", []⟩] [("X", [])] [] =
      some ([⟨65536, "X", makeFileName 1 "X", []⟩],
        ext.set 65536 ⟨makeFileName 1 "X", 1, []⟩) := by
    simp only [bindZipIdx, bindSeqArcRec_eq, hfile, Option.some_bind,
      bindZipIdx_nil_left]
    rw [show (if ("X" : String) = "" then coreInfoTypeName 1 ++ "_" ++ pad3 0
        else "X") = "X" from rfl]
    simp only [heq, Option.some_bind]
  refine ⟨{ seqArc := [⟨65536, "X", makeFileName 1 "X", []⟩]
            file_descriptions := ext.set 65536 ⟨makeFileName 1 "X", 1, []⟩ },
    ?_, ?_⟩
  · rw [setSymbols_seqArcOnly_eq, hstep, Option.some_bind]
  · rw [show makeFileName 1 "X" = "Files/SEQARC/X.ssar" from rfl]

/-- C2 (amended): on a container model holding sequence-archive records, the
symbol-binding pass fails fatally exactly when some record paired with a
symbol has `fileId ≥ number of FAT files` (the `files[fileId]` lookup raises
`IndexError`); any `fileId` below the file count — including values at or
above 65536 — is silently accepted. -/
theorem setSymbols_fails_iff_fileId_out_of_range
    (recs : List NNSSndArcSeqArcInfo) (ss : List (String × List String))
    (files : List (List Nat)) :
    setSymbols { seqArc := recs } { seqArc := ss } files = none ↔
      ∃ p ∈ recs.zip ss, files.length ≤ p.1.fileId := by
  rw [setSymbols_seqArcOnly_eq]
  cases hx : bindZipIdx (bindSeqArcRec files) 0 recs ss [] with
  | none =>
    simp only [Option.none_bind]
    constructor
    · intro _
      by_contra hno
      push_neg at hno
      obtain ⟨q, hq⟩ := bindZipIdx_seqArc_some files recs ss 0 []
        (fun p hp => hno p hp)
      rw [hq] at hx
      exact Option.noConfusion hx
    · intro _; trivial
  | some pa =>
    simp only [Option.some_bind]
    constructor
    · intro hc; exact Option.noConfusion hc
    · rintro ⟨p, hp, hle⟩
      have := bindZipIdx_seqArc_bound files recs ss 0 [] pa hx p hp
      omega

/-- Specification of `List.mapM` over `Option`: a successful traversal has
the same length as the input and resolves index-wise. -/
theorem mapM_option_spec {α β : Type} (f : α → Option β) :
    ∀ (l : List α) (r : List β), l.mapM f = some r →
      r.length = l.length ∧ ∀ j : Nat, r[j]? = (l[j]?).bind f := by
  intro l
  induction l with
  | nil =>
    intro r hr
    simp only [List.mapM_nil, pure] at hr
    cases hr
    refine ⟨rfl, ?_⟩
    intro j
    simp
  | cons a as ih =>
    intro r hr
    rw [List.mapM_cons] at hr
    simp only [bind, Option.bind_eq_some, pure, Option.some.injEq] at hr
    obtain ⟨b, hb, bs, hbs, rfl⟩ := hr
    obtain ⟨hlen, hidx⟩ := ih bs hbs
    refine ⟨by simp [hlen], ?_⟩
    intro j
    cases j with
    | zero => simp [hb]
    | succ k => simpa using hidx k

/-- Unfolding of the BANK binding step as an explicit `Option.bind` chain. -/
theorem bindBankRec_eq (w : List NNSSndArcWaveArcInfo)
    (files : List (List Nat)) (i : Nat) (rec : NNSSndArcBankInfo)
    (symb : String) (descs : List NativeFileInfo) :
    bindBankRec w files i rec symb descs =
      (files[rec.fileId]?).bind fun contents =>
        (rec.waveArcNo.mapM fun x => w[x]?).bind fun resolved =>
          some ({ rec with
                    name := setName 2 i symb
                    filename := (addFile descs 2 (setName 2 i symb)
                      rec.fileId contents).2
                    waveArc := resolved },
                (addFile descs 2 (setName 2 i symb) rec.fileId contents).1) := by
  cases h : files[rec.fileId]? with
  | none => simp [bindBankRec, h]
  | some c =>
    cases hm : rec.waveArcNo.mapM fun x => w[x]? with
    | none =>
      rw [List.mapM] at hm
      simp [bindBankRec, h, hm, List.mapM]
    | some resolved =>
      rw [List.mapM] at hm
      simp [bindBankRec, h, hm, List.mapM]

/-- The slot fields of a bank record are untouched by the binding update, so
its `waveArcNo` property is unchanged. -/
theorem waveArcNo_update (rec : NNSSndArcBankInfo) (n fn : String)
    (wa : List NNSSndArcWaveArcInfo) :
    NNSSndArcBankInfo.waveArcNo
        { rec with name := n, filename := fn, waveArc := wa } =
      rec.waveArcNo := rfl

/-- Every bank record produced by the BANK binding loop resolves its
`waveArc` list index-wise from its non-sentinel slots (provided every record
was paired with a symbol). -/
theorem bindZipIdx_bank_out (w : List NNSSndArcWaveArcInfo)
    (files : List (List Nat)) :
    ∀ (recs : List NNSSndArcBankInfo) (ss : List String)
      (i : Nat) (descs : List NativeFileInfo) out,
      bindZipIdx (bindBankRec w files) i recs ss descs = some out →
      recs.length ≤ ss.length →
      ∀ b ∈ out.1,
        b.waveArc.length = b.waveArcNo.length ∧
        ∀ j : Nat, b.waveArc[j]? = (b.waveArcNo[j]?).bind fun x => w[x]? := by
  intro recs
  induction recs with
  | nil =>
    intro ss i descs out hout _
    rw [bindZipIdx_nil_left] at hout
    cases hout
    intro b hb
    simp at hb
  | cons r rs ih =>
    intro ss i descs out hout hcov
    cases ss with
    | nil => simp at hcov
    | cons s bs =>
      simp only [bindZipIdx, bindBankRec_eq, Option.bind_eq_some,
        Option.some.injEq] at hout
      obtain ⟨p, ⟨c, hc, resolved, hres, rfl⟩, q, hq, rfl⟩ := hout
      intro b hb
      simp only [List.mem_cons] at hb
      rcases hb with rfl | hb
      · obtain ⟨hlen, hidx⟩ := mapM_option_spec _ _ _ hres
        rw [waveArcNo_update]
        exact ⟨hlen, hidx⟩
      · exact ih bs (i + 1) _ q hq (by simpa using hcov) b hb

/-- C5: after a successful symbol-binding pass in which every bank record is
paired with a symbol, every bound bank record's resolved `waveArc` list has
exactly one entry per non-sentinel `waveArcNo` slot, in slot order (the
entry at position `j` is the model's wave-archive record indexed by the
`j`-th non-sentinel slot); sentinel (`0xFFFF`) slots contribute nothing. -/
theorem setSymbols_bank_waveArc_resolution (m : InfoData)
    (symbols : SymbolData) (files : List (List Nat)) (m2 : InfoData)
    (hcov : m.bank.length ≤ symbols.bank.length)
    (h : setSymbols m symbols files = some m2) :
    ∀ b ∈ m2.bank,
      b.waveArc.length = b.waveArcNo.length ∧
      ∀ j : Nat, b.waveArc[j]? =
        (b.waveArcNo[j]?).bind fun x => m.waveArc[x]? := by
  simp only [setSymbols, Option.bind_eq_some, Option.some.injEq] at h
  obtain ⟨pSeq, _, pSeqArc, _, pBank, hBank, pWaveArc, _, pPlayer, _,
    pGroup, _, pStrmPlayer, _, pStrm, _, rfl⟩ := h
  intro b hb
  exact bindZipIdx_bank_out m.waveArc files m.bank symbols.bank 0 pSeqArc.2
    pBank hBank hcov b hb

/-- C5 witness: a model holding one bank record with slots
`(2, 0xFFFF, 0, 0xFFFF)` and three wave-archive records binds successfully,
and the theorem instantiates on it. -/
theorem setSymbols_bank_waveArc_resolution_witness :
    ∃ m2, setSymbols
        { bank := [⟨0, 2, 65535, 0, 65535, "", "", []⟩]
          waveArc := [⟨10, "", ""⟩, ⟨11, "", ""⟩, ⟨12, "", ""⟩] }
        { bank := ["B"] } [[]] = some m2 ∧
      ∀ b ∈ m2.bank,
        b.waveArc.length = b.waveArcNo.length ∧
        ∀ j : Nat, b.waveArc[j]? = (b.waveArcNo[j]?).bind fun x =>
          ([⟨10, "", ""⟩, ⟨11, "", ""⟩, ⟨12, "", ""⟩] :
            List NNSSndArcWaveArcInfo)[x]? := by
  cases hx : setSymbols
      { bank := [⟨0, 2, 65535, 0, 65535, "", "", []⟩]
        waveArc := [⟨10, "", ""⟩, ⟨11, "", ""⟩, ⟨12, "", ""⟩] }
      { bank := ["B"] } [[]] with
  | none => exact absurd hx (by decide)
  | some m2 =>
    exact ⟨m2, rfl, setSymbols_bank_waveArc_resolution _ _ [[]] m2
      (by decide) hx⟩

/-! ## Theorems for claims C8, C9, C10 -/

/-- C8 counterexample input: a one-byte buffer read with width 4 — the read
position plus width exceeds the buffer length. -/
theorem sdatIO_read_past_end_counterexample :
    SdatIOState.read ⟨[0x12], 0⟩ 4 none = (0x12, ⟨[0x12], 4⟩) := by
  decide

/-- C8 (amended): a fixed-width read whose position plus width exceeds the
buffer length does not fault; it returns the integer decoded from the bytes
actually available past the position (zero bytes give `0`) and still
advances the cursor by the full width. -/
theorem sdatIO_read_past_end_truncates (data : List Nat) (c size : Nat)
    (h : data.length < c + size) :
    SdatIOState.read ⟨data, c⟩ size none =
      (intFromBytesLE (data.drop c), ⟨data, c + size⟩) := by
  simp only [SdatIOState.read, pySlice]
  have : (data.drop c).take size = data.drop c := by
    apply List.take_of_length_le
    have := List.length_drop c data
    omega
  rw [this]

/-- C8 amended witness: reading 4 bytes at the cursor of a 1-byte buffer
returns the single available byte and advances the cursor to 4. -/
theorem sdatIO_read_past_end_truncates_witness :
    SdatIOState.read ⟨[0x12], 0⟩ 4 none = (0x12, ⟨[0x12], 4⟩) ∧
      (0x12 : Nat) = intFromBytesLE ([0x12].drop 0) :=
  ⟨sdatIO_read_past_end_truncates [0x12] 0 4 (by decide), by decide⟩

/-- C10: with `whence` equal to `SEEK_SET` (0), `SEEK_CUR` (1) or `SEEK_END`
(2), `SdatIO.seek` succeeds, leaves the buffer unchanged and clamps the new
cursor into the closed range `[0, length of the buffer]`; with any other
`whence` it raises `ValueError` and the object keeps its old cursor. -/
theorem sdatIO_seek_clamps_or_rejects (st : SdatIOState) (pos whence : Int) :
    (whence = 0 ∨ whence = 1 ∨ whence = 2 →
      ∃ s, SdatIOState.seek st pos whence = .ok s ∧
        s.data = st.data ∧ s.cursor ≤ st.data.length) ∧
    (¬(whence = 0 ∨ whence = 1 ∨ whence = 2) →
      (∃ msg, SdatIOState.seek st pos whence = .error msg) ∧
        SdatIOState.seekState st pos whence = st) := by
  constructor
  · rintro (rfl | rfl | rfl)
    · exact ⟨_, rfl, rfl, by dsimp only; omega⟩
    · exact ⟨_, rfl, rfl, by dsimp only; omega⟩
    · exact ⟨_, rfl, rfl, by dsimp only; omega⟩
  · intro h
    have h0 : whence ≠ 0 := fun hh => h (Or.inl hh)
    have h1 : whence ≠ 1 := fun hh => h (Or.inr (Or.inl hh))
    have h2 : whence ≠ 2 := fun hh => h (Or.inr (Or.inr hh))
    refine ⟨⟨"unrecognized argument for whence", ?_⟩, ?_⟩
    · simp [SdatIOState.seek, h0, h1, h2]
    · simp [SdatIOState.seekState, SdatIOState.seek, h0, h1, h2]

/-- C10 witness: seeking to -5 from the end of a 3-byte buffer clamps the
cursor to the buffer range, and `whence = 7` is rejected without moving the
cursor. -/
theorem sdatIO_seek_clamps_or_rejects_witness :
    ((7 : Int) = 0 ∨ (7 : Int) = 1 ∨ (7 : Int) = 2 →
      ∃ s, SdatIOState.seek ⟨[1, 2, 3], 1⟩ (-5) 7 = .ok s ∧
        s.data = [1, 2, 3] ∧ s.cursor ≤ [1, 2, 3].length) ∧
    (¬((7 : Int) = 0 ∨ (7 : Int) = 1 ∨ (7 : Int) = 2) →
      (∃ msg, SdatIOState.seek ⟨[1, 2, 3], 1⟩ (-5) 7 = .error msg) ∧
        SdatIOState.seekState ⟨[1, 2, 3], 1⟩ (-5) 7 = ⟨[1, 2, 3], 1⟩) :=
  sdatIO_seek_clamps_or_rejects ⟨[1, 2, 3], 1⟩ (-5) 7

/-- C9: on the packed wave-archive word (`raw < 2^32`), the `fileId` setter
replaces exactly the low 24 bits (`fileId` becomes `v mod 2^24`, the bits
above bit 23 — hence `flags` — are untouched), and the `flags` setter
replaces exactly bits 24..31 (`flags` becomes `w mod 2^8`, `fileId` is
untouched). -/
theorem waveArcInfo_setters_frame (raw v w : Nat) (h : raw < 2 ^ 32) :
    NNSSndArcWaveArcInfo.fileId (NNSSndArcWaveArcInfo.setFileId raw v) =
        v % 2 ^ 24 ∧
    NNSSndArcWaveArcInfo.setFileId raw v / 2 ^ 24 = raw / 2 ^ 24 ∧
    NNSSndArcWaveArcInfo.flags (NNSSndArcWaveArcInfo.setFileId raw v) =
        NNSSndArcWaveArcInfo.flags raw ∧
    NNSSndArcWaveArcInfo.flags (NNSSndArcWaveArcInfo.setFlags raw w) =
        w % 2 ^ 8 ∧
    NNSSndArcWaveArcInfo.setFlags raw w % 2 ^ 24 = raw % 2 ^ 24 ∧
    NNSSndArcWaveArcInfo.fileId (NNSSndArcWaveArcInfo.setFlags raw w) =
        NNSSndArcWaveArcInfo.fileId raw := by
  unfold NNSSndArcWaveArcInfo.fileId NNSSndArcWaveArcInfo.flags
    NNSSndArcWaveArcInfo.setFileId NNSSndArcWaveArcInfo.setFlags
  refine ⟨?_, ?_, ?_, ?_, ?_, ?_⟩ <;> omega

/-- C9 witness: concrete frame check at `raw = 0xAB123456`, `v = 0x2FEDCBA9`,
`w = 0x1CD`. -/
theorem waveArcInfo_setters_frame_witness :
    (0xAB123456 : Nat) < 2 ^ 32 ∧
    NNSSndArcWaveArcInfo.fileId
        (NNSSndArcWaveArcInfo.setFileId 0xAB123456 0x2FEDCBA9) =
      0x2FEDCBA9 % 2 ^ 24 :=
  ⟨by decide, (waveArcInfo_setters_frame 0xAB123456 0x2FEDCBA9 0x1CD
    (by decide)).1⟩

/-! ## Theorems for the sequence codec claims (C1, C3, C4, C7) -/

/-- C3: the variable-length writer/reader boundary check.  Encoding then
decoding round-trips for 127, 128, 16383 and 0xFFFFFFF, but encoding 0
raises (`write_varlen` emits no chunk and `buffer[0] &= 0x7F` hits an empty
buffer), so the claimed round-trip fails at the failing input 0. -/
theorem varlen_roundtrip_boundary :
    writeVarlen [] 0 none = none ∧
    ((writeVarlen [] 127 none).bind fun bs => readVarlen bs 0) =
      some (127, 1) ∧
    ((writeVarlen [] 128 none).bind fun bs => readVarlen bs 0) =
      some (128, 2) ∧
    ((writeVarlen [] 16383 none).bind fun bs => readVarlen bs 0) =
      some (16383, 2) ∧
    ((writeVarlen [] 0xFFFFFFF none).bind fun bs => readVarlen bs 0) =
      some (0xFFFFFFF, 4) := by
  decide

/-- C4 counterexample: on the two-track binary (`0xFE` header, mask
`0b11`), the first track's label is registered at stream-relative address 3
(the cursor after the 3-byte tracks-used header), not at address 0 — the
labels dict has no key 0. -/
theorem two_track_no_label_at_zero :
    Option.map (fun st => (dictGet st.labels 0, st.ntracks))
        ((sseqInit (strL "S") exampleTwoTrackBin).bind
          fun s => scanCommands (strL "S") s.view.length s) =
      some (none, 2) := by
  decide

/-- C4 (amended): decoding the two-track binary yields a track count of
exactly 2 and exactly two labels: one at stream-relative address 3 —
immediately after the 3-byte tracks-used header — naming the first track's
entry, and one at address 9, the address declared by track 1's `Pointer`
statement. -/
theorem two_track_labels :
    Option.map (fun st => (st.ntracks, st.labels))
        ((sseqInit (strL "S") exampleTwoTrackBin).bind
          fun s => scanCommands (strL "S") s.view.length s) =
      some (2, [(3, strL "S_Tk00"), (9, strL "S_Tk01")]) := by
  decide

/-- C7 counterexample: a completed assembly run over a program with two
`Pointer 0, A` statements performs the retroactive 3-byte header insertion
twice (`tracks_mask |= 1 << 0` leaves the mask at 1, so the shift re-fires);
the run still completes. -/
theorem double_shift_counterexample :
    Option.map (fun st => st.shifts)
        (examplePointerZeroTwice.foldlM compileLine txtToSseqInit) =
      some 2 ∧ (compileTxt examplePointerZeroTwice).isSome := by
  decide

/-- Setting a bit at position ≥ 1 can never produce the mask value 1. -/
theorem lor_two_pow_ne_one (m t : Nat) (ht : 1 ≤ t) : m ||| 2 ^ t ≠ 1 := by
  intro h
  have hbit := congrArg (fun x => Nat.testBit x t) h
  simp only [Nat.testBit_lor, Nat.testBit_two_pow_self, Bool.or_true] at hbit
  rw [show (1 : Nat) = 2 ^ 0 from rfl, Nat.testBit_two_pow_of_ne
    (by omega : 0 ≠ t)] at hbit
  exact Bool.noConfusion hbit

/-- How the `0x90` block changes `tracks_mask` and the shift counter. -/
theorem writeCmd90_mask_shifts (cmdKnown : Bool) (cmdIdx : Nat)
    (argsL : List (List Char)) (st : TxtToSseq) (compiled : List Nat)
    (st2 : TxtToSseq)
    (h : writeCmd90 cmdKnown cmdIdx argsL st compiled = some st2) :
    (st2.tracks_mask = st.tracks_mask ∧ st2.shifts = st.shifts) ∨
    (cmdKnown = true ∧ cmdIdx = 0x93 ∧
     ∃ a b t, argsL = [a, b] ∧ pyInt a = some t ∧ 0 ≤ t ∧
       st2.tracks_mask = st.tracks_mask ||| 2 ^ t.toNat ∧
       ((st.tracks_mask = 1 ∧ st2.shifts = st.shifts + 1) ∨
        (st.tracks_mask ≠ 1 ∧ st2.shifts = st.shifts))) := by
  unfold writeCmd90 at h
  split at h
  · -- known Pointer
    rename_i hck
    rcases argsL with _ | ⟨a, _ | ⟨b, _ | _⟩⟩ <;>
      simp only [Option.bind_eq_bind, Option.none_bind, Option.some_bind] at h
    · exact absurd h (by simp)
    · exact absurd h (by simp)
    case cons.cons.nil =>
      rcases hi : pyInt a with _ | t <;> rw [hi] at h
      · simp at h
      simp only [Option.some_bind] at h
      right
      refine ⟨hck.1, hck.2, a, b, t, rfl, hi, ?_⟩
      by_cases hm : st.tracks_mask = 1
      · rw [if_pos hm] at h
        by_cases ht : t < 0
        · rw [if_pos ht] at h
          exact absurd h (by simp)
        rw [if_neg ht] at h
        simp only [Option.bind_eq_some, Option.some.injEq] at h
        obtain ⟨c3, _, c4, _, rfl⟩ := h
        exact ⟨by omega, rfl, Or.inl ⟨hm, rfl⟩⟩
      · rw [if_neg hm] at h
        by_cases ht : t < 0
        · rw [if_pos ht] at h
          exact absurd h (by simp)
        rw [if_neg ht] at h
        simp only [Option.bind_eq_some, Option.some.injEq] at h
        obtain ⟨c3, _, c4, _, rfl⟩ := h
        exact ⟨by omega, rfl, Or.inr ⟨hm, rfl⟩⟩
    · exact absurd h (by simp)
  · split at h
    · -- known Jump/Call
      left
      rcases argsL with _ | ⟨a, _ | _⟩ <;>
        simp only [Option.bind_eq_bind, Option.none_bind,
          Option.some_bind] at h
      · exact absurd h (by simp)
      case cons.nil =>
        simp only [Option.bind_eq_some, Option.some.injEq] at h
        obtain ⟨c2, _, rfl⟩ := h
        exact ⟨rfl, rfl⟩
      · exact absurd h (by simp)
    · left
      cases h
      exact ⟨rfl, rfl⟩

/-- How `write_command` changes `tracks_mask` and the shift counter: only a
successful known `Pointer` statement touches them, ORing `1 << trackno` into
the mask and performing the retroactive shift exactly when the mask was
still 1. -/
theorem writeCommand_mask_shifts (cond : Bool) (cmd args : List Char)
    (st st2 : TxtToSseq) (h : writeCommand cond cmd args st = some st2) :
    (st2.tracks_mask = st.tracks_mask ∧ st2.shifts = st.shifts) ∨
    (cmdFromName cmd = some 0x93 ∧
     ∃ a b t, cmdArgsFindall args = [a, b] ∧ pyInt a = some t ∧ 0 ≤ t ∧
       st2.tracks_mask = st.tracks_mask ||| 2 ^ t.toNat ∧
       ((st.tracks_mask = 1 ∧ st2.shifts = st.shifts + 1) ∨
        (st.tracks_mask ≠ 1 ∧ st2.shifts = st.shifts))) := by
  unfold writeCommand at h
  rcases hn : cmdFromName cmd with _ | v <;> rw [hn] at h
  case none =>
    rcases hu : unkCommandMatch cmd with _ | u <;> rw [hu] at h
    case none => simp at h
    case some =>
      simp only [Option.map_some', Option.bind_eq_bind,
        Option.some_bind] at h
      generalize hAL : cmdArgsFindall args = argsL at h
      generalize hVA : (match argsL.getLast? with
        | some last => argLenMatch last
        | none => none) = varArg at h
      rcases hp : handlePrefix cond varArg st.compiled with _ | c1 <;>
        rw [hp] at h
      · rw [Option.none_bind] at h
        exact Option.noConfusion h
      simp only [Option.some_bind] at h
      rcases hw : writeInteger c1 u 1 none with _ | c2 <;> rw [hw] at h
      · rw [Option.none_bind] at h
        exact Option.noConfusion h
      simp only [Option.some_bind] at h
      split at h
      · left
        simp only [Option.bind_eq_some, Option.some.injEq] at h
        obtain ⟨a0, _, c3, _, rfl⟩ := h
        exact ⟨rfl, rfl⟩
      split at h
      · rcases writeCmd90_mask_shifts false u argsL st c2 st2 h with
          hfr | ⟨hck, _⟩
        · exact Or.inl hfr
        · exact absurd hck (by simp)
      split at h
      · left
        simp only [Option.map_eq_some'] at h
        obtain ⟨c3, _, rfl⟩ := h
        exact ⟨rfl, rfl⟩
      split at h
      · left
        rcases argsL with _ | ⟨a0, _ | _⟩ <;>
          simp only [Option.none_bind, Option.some_bind] at h
        · exact absurd h (by simp)
        case cons.nil =>
          simp only [Option.bind_eq_some, Option.some.injEq] at h
          obtain ⟨c3, _, rfl⟩ := h
          exact ⟨rfl, rfl⟩
        · exact absurd h (by simp)
      split at h
      · left
        simp only [Option.map_eq_some'] at h
        obtain ⟨c3, _, rfl⟩ := h
        exact ⟨rfl, rfl⟩
      · left
        cases h
        exact ⟨rfl, rfl⟩
  case some =>
    simp only [Option.bind_eq_bind, Option.some_bind] at h
    generalize hAL : cmdArgsFindall args = argsL at h
    generalize hVA : (match argsL.getLast? with
      | some last => argLenMatch last
      | none => none) = varArg at h
    rcases hp : handlePrefix cond varArg st.compiled with _ | c1 <;>
      rw [hp] at h
    · rw [Option.none_bind] at h
      exact Option.noConfusion h
    simp only [Option.some_bind] at h
    rcases hw : writeInteger c1 v 1 none with _ | c2 <;> rw [hw] at h
    · rw [Option.none_bind] at h
      exact Option.noConfusion h
    simp only [Option.some_bind] at h
    split at h
    · left
      simp only [Option.bind_eq_some, Option.some.injEq] at h
      obtain ⟨a0, _, c3, _, rfl⟩ := h
      exact ⟨rfl, rfl⟩
    split at h
    · rcases writeCmd90_mask_shifts true v argsL st c2 st2 h with
        hfr | ⟨_, hv, a, b, t, hab, hi, hnn, hmask, hsh⟩
      · exact Or.inl hfr
      · subst hv
        exact Or.inr ⟨rfl, a, b, t, hAL ▸ hab, hi, hnn, hmask, hsh⟩
    split at h
    · left
      simp only [Option.map_eq_some'] at h
      obtain ⟨c3, _, rfl⟩ := h
      exact ⟨rfl, rfl⟩
    split at h
    · left
      rcases argsL with _ | ⟨a0, _ | _⟩ <;>
        simp only [Option.none_bind, Option.some_bind] at h
      · exact absurd h (by simp)
      case cons.nil =>
        simp only [Option.bind_eq_some, Option.some.injEq] at h
        obtain ⟨c3, _, rfl⟩ := h
        exact ⟨rfl, rfl⟩
      · exact absurd h (by simp)
    split at h
    · left
      simp only [Option.map_eq_some'] at h
      obtain ⟨c3, _, rfl⟩ := h
      exact ⟨rfl, rfl⟩
    · left
      cases h
      exact ⟨rfl, rfl⟩

/-- One line of the assembly loop preserves the shift invariant: the shift
counter stays at most 1, and is still 0 whenever the track mask is still 1,
provided the line does not declare track 0 via a `Pointer` statement. -/
theorem compileLine_shift_inv (st st2 : TxtToSseq) (line : List Char)
    (hpos : linePointerPositive line = true)
    (h : compileLine st line = some st2)
    (h1 : st.shifts ≤ 1) (h2 : st.tracks_mask = 1 → st.shifts = 0) :
    st2.shifts ≤ 1 ∧ (st2.tracks_mask = 1 → st2.shifts = 0) := by
  unfold compileLine at h
  unfold linePointerPositive at hpos
  simp only [] at h hpos
  generalize hL : rstripWS (List.takeWhile (fun x => x ≠ '@') line) = l
    at h hpos
  cases hlab : labelPatMatch l with
  | some sym =>
    simp only [hlab] at h
    cases h
    exact ⟨h1, h2⟩
  | none =>
    simp only [hlab] at h hpos
    cases hnote : notePatMatch l with
    | some g =>
      simp only [hnote] at h
      obtain ⟨cond, note, octave, velocity, length⟩ := g
      simp only [Option.map_eq_some'] at h
      obtain ⟨c, _, rfl⟩ := h
      exact ⟨h1, h2⟩
    | none =>
      simp only [hnote] at h hpos
      cases hcmd : cmdPatMatch l with
      | none =>
        simp only [hcmd] at h
        cases h
        exact ⟨h1, h2⟩
      | some g =>
        obtain ⟨cond, cmd, args⟩ := g
        simp only [hcmd] at h hpos
        rcases writeCommand_mask_shifts cond cmd args st st2 h with
          ⟨hma, hsh⟩ | ⟨h93, a, b, t, hab, hi, hnn, hmask, hsh⟩
        · rw [hma, hsh]
          exact ⟨h1, h2⟩
        · unfold cmdPointerPositive at hpos
          rw [if_pos h93] at hpos
          simp only [hab, hi] at hpos
          have hpost : 1 ≤ t := of_decide_eq_true hpos
          have htn : 1 ≤ t.toNat := by omega
          have hne : st2.tracks_mask ≠ 1 := by
            rw [hmask]
            exact lor_two_pow_ne_one st.tracks_mask t.toNat htn
          rcases hsh with ⟨hm1, hs⟩ | ⟨hm1, hs⟩
          · have := h2 hm1
            refine ⟨by omega, fun hc => absurd hc hne⟩
          · refine ⟨by omega, fun hc => absurd hc hne⟩

/-- The assembly loop preserves the shift invariant line by line. -/
theorem foldlM_compileLine_shift_inv (lines : List (List Char)) :
    ∀ (s s2 : TxtToSseq),
      (∀ l ∈ lines, linePointerPositive l = true) →
      lines.foldlM compileLine s = some s2 →
      s.shifts ≤ 1 → (s.tracks_mask = 1 → s.shifts = 0) →
      s2.shifts ≤ 1 ∧ (s2.tracks_mask = 1 → s2.shifts = 0) := by
  induction lines with
  | nil =>
    intro s s2 _ h h1 h2
    cases h
    exact ⟨h1, h2⟩
  | cons l ls ih =>
    intro s s2 hall h h1 h2
    rw [List.foldlM_cons] at h
    simp only [Option.bind_eq_bind, Option.bind_eq_some] at h
    obtain ⟨sm, hsm, hrest⟩ := h
    obtain ⟨g1, g2⟩ := compileLine_shift_inv s sm l
      (hall l (by simp)) hsm h1 h2
    exact ih sm s2 (fun x hx => hall x (by simp [hx])) hrest g1 g2

/-- C7 (amended): during one assembly run over a text program whose
`Pointer` statements all declare a nonzero track index — which is what the
disassembler emits, track 0 being implicit — the retroactive insertion of
the 3-byte tracks-used header (with its +3 shift of recorded labels and
relocations) happens at most once.  (A `Pointer 0` statement leaves
`tracks_mask` at 1 and re-fires the shift, hence the counterexample.) -/
theorem compile_shift_at_most_once (lines : List (List Char))
    (st : TxtToSseq)
    (hpos : ∀ l ∈ lines, linePointerPositive l = true)
    (h : lines.foldlM compileLine txtToSseqInit = some st) :
    st.shifts ≤ 1 :=
  (foldlM_compileLine_shift_inv lines txtToSseqInit st hpos h
    (by decide) (fun _ => rfl)).1

/-- C7 amended witness: a two-line program declaring track 1 once. -/
theorem compile_shift_at_most_once_witness :
    (∀ l ∈ [strL "A:", strL "\tPointer 1, A"],
      linePointerPositive l = true) ∧
    ∃ st, [strL "A:", strL "\tPointer 1, A"].foldlM compileLine
        txtToSseqInit = some st ∧ st.shifts ≤ 1 := by
  refine ⟨by decide, ?_⟩
  cases hx : [strL "A:", strL "\tPointer 1, A"].foldlM compileLine
      txtToSseqInit with
  | none => exact absurd hx (by decide)
  | some st =>
    exact ⟨st, rfl, compile_shift_at_most_once _ st (by decide) hx⟩

/-! ### Round-trip support (C1): decimal rendering, variable-length values -/

theorem natToDecCharsGo_congr : ∀ f1 f2 n, n < f1 → n < f2 →
    natToDecCharsGo f1 n = natToDecCharsGo f2 n := by
  intro f1
  induction f1 with
  | zero => intro f2 n h1 _; exact absurd h1 (Nat.not_lt_zero n)
  | succ f ih =>
    intro f2 n h1 h2
    cases f2 with
    | zero => exact absurd h2 (Nat.not_lt_zero n)
    | succ g =>
      show natToDecCharsGo (f + 1) n = natToDecCharsGo (g + 1) n
      by_cases hn : n < 10
      · simp [natToDecCharsGo, hn]
      · have hd : n / 10 < n := Nat.div_lt_self (by omega) (by omega)
        simp only [natToDecCharsGo, if_neg hn]
        rw [ih g (n / 10) (by omega) (by omega)]

theorem natToDecChars_eq (n : Nat) :
    natToDecChars n =
      if n < 10 then [Char.ofNat (48 + n)]
      else natToDecChars (n / 10) ++ [Char.ofNat (48 + n % 10)] := by
  show natToDecCharsGo (n + 1) n = _
  rw [show natToDecCharsGo (n + 1) n =
      if n < 10 then [Char.ofNat (48 + n)]
      else natToDecCharsGo n (n / 10) ++ [Char.ofNat (48 + n % 10)] from rfl]
  by_cases hn : n < 10
  · simp [hn]
  · simp only [if_neg hn]
    have hd : n / 10 < n := Nat.div_lt_self (by omega) (by omega)
    show _ ++ _ = natToDecCharsGo (n / 10 + 1) (n / 10) ++ _
    rw [natToDecCharsGo_congr n (n / 10 + 1) (n / 10) (by omega)
      (Nat.lt_succ_self _)]

theorem natToDecChars_ne_nil (n : Nat) : natToDecChars n ≠ [] := by
  rw [natToDecChars_eq]
  by_cases hn : n < 10 <;> simp [hn]

theorem natToDecChars_chars (n : Nat) :
    ∀ c ∈ natToDecChars n, c.isDigit = true ∧ c ≠ '-' ∧ c ≠ '+' ∧
      isWordChar c = true ∧ c ≠ '@' ∧ isPySpace c = false ∧ c ≠ ',' ∧
      c ≠ ' ' ∧ c ≠ '\n' ∧ c ≠ ':' ∧ c ≠ '(' ∧ c ≠ ')' := by
  induction n using Nat.strong_induction_on with
  | _ n ih =>
    rw [natToDecChars_eq]
    by_cases hn : n < 10
    · rw [if_pos hn]
      intro c hc
      rw [List.mem_singleton] at hc
      subst hc
      interval_cases n <;> decide
    · rw [if_neg hn]
      intro c hc
      rcases List.mem_append.mp hc with hc | hc
      · exact ih (n / 10) (Nat.div_lt_self (by omega) (by omega)) c hc
      · rw [List.mem_singleton] at hc
        subst hc
        have h10 : n % 10 < 10 := Nat.mod_lt _ (by omega)
        revert h10
        generalize n % 10 = m
        intro h10
        interval_cases m <;> decide

theorem natToDecChars_val (n : Nat) :
    (natToDecChars n).foldl (fun a c => a * 10 + (c.toNat - 48)) 0 = n := by
  induction n using Nat.strong_induction_on with
  | _ n ih =>
    rw [natToDecChars_eq]
    by_cases hn : n < 10
    · rw [if_pos hn]
      simp only [List.foldl_cons, List.foldl_nil]
      revert hn
      generalize n = m  -- keep the goal free of the strong-induction motive
      intro hm
      interval_cases m <;> decide
    · rw [if_neg hn]
      rw [List.foldl_append]
      rw [ih (n / 10) (Nat.div_lt_self (by omega) (by omega))]
      simp only [List.foldl_cons, List.foldl_nil]
      have h10 : n % 10 < 10 := Nat.mod_lt _ (by omega)
      have hchar : (Char.ofNat (48 + n % 10)).toNat = 48 + n % 10 := by
        revert h10
        generalize n % 10 = m
        intro h10
        interval_cases m <;> decide
      rw [hchar]
      omega

theorem pyInt_digits (s : List Char) (hne : s ≠ [])
    (hd : ∀ c ∈ s, c.isDigit = true) (hh : ∀ c ∈ s, c ≠ '-' ∧ c ≠ '+') :
    pyInt s =
      some ((s.foldl (fun a c => a * 10 + (c.toNat - 48)) 0 : Nat) : Int) := by
  unfold pyInt
  split
  · exact absurd rfl (hh '-' (List.mem_cons_self _ _)).1
  · exact absurd rfl (hh '+' (List.mem_cons_self _ _)).2
  · rw [if_pos ⟨hne, List.all_eq_true.mpr fun c hc => hd c hc⟩]

theorem pyInt_natToDecChars (n : Nat) :
    pyInt (natToDecChars n) = some (n : Int) := by
  rw [pyInt_digits _ (natToDecChars_ne_nil n)
      (fun c hc => (natToDecChars_chars n c hc).1)
      (fun c hc => ⟨(natToDecChars_chars n c hc).2.1,
        (natToDecChars_chars n c hc).2.2.1⟩)]
  rw [natToDecChars_val]

theorem varlenChunksGo_congr : ∀ f1 f2 v, v < f1 → v < f2 →
    varlenChunksGo f1 v = varlenChunksGo f2 v := by
  intro f1
  induction f1 with
  | zero => intro f2 v h1 _; exact absurd h1 (Nat.not_lt_zero v)
  | succ f ih =>
    intro f2 v h1 h2
    cases f2 with
    | zero => exact absurd h2 (Nat.not_lt_zero v)
    | succ g =>
      show varlenChunksGo (f + 1) v = varlenChunksGo (g + 1) v
      by_cases hv : v = 0
      · simp [varlenChunksGo, hv]
      · have hd : v / 128 < v := Nat.div_lt_self (by omega) (by omega)
        simp only [varlenChunksGo, if_neg hv]
        rw [ih g (v / 128) (by omega) (by omega)]

theorem varlenChunks_eq (v : Nat) :
    varlenChunks v =
      if v = 0 then [] else (v % 128 + 128) :: varlenChunks (v / 128) := by
  show varlenChunksGo (v + 1) v = _
  rw [show varlenChunksGo (v + 1) v =
      if v = 0 then [] else (v % 128 + 128) :: varlenChunksGo v (v / 128)
      from rfl]
  by_cases hv : v = 0
  · simp [hv]
  · simp only [if_neg hv]
    have hd : v / 128 < v := Nat.div_lt_self (by omega) (by omega)
    show _ :: _ = _ :: varlenChunksGo (v / 128 + 1) (v / 128)
    rw [varlenChunksGo_congr v (v / 128 + 1) (v / 128) (by omega)
      (Nat.lt_succ_self _)]

theorem varlenChunks_mem : ∀ v x, x ∈ varlenChunks v → 128 ≤ x ∧ x < 256 := by
  intro v
  induction v using Nat.strong_induction_on with
  | _ v ih =>
    intro x hx
    rw [varlenChunks_eq] at hx
    by_cases hv : v = 0
    · simp [hv] at hx
    · rw [if_neg hv] at hx
      rcases List.mem_cons.mp hx with rfl | hx
      · constructor <;> omega
      · exact ih (v / 128) (Nat.div_lt_self (by omega) (by omega)) x hx

theorem varlenChunks_foldl (v : Nat) :
    (varlenChunks v).reverse.foldl (fun a x => a * 128 + x % 128) 0 = v := by
  induction v using Nat.strong_induction_on with
  | _ v ih =>
    rw [varlenChunks_eq]
    by_cases hv : v = 0
    · simp [hv]
    · rw [if_neg hv]
      rw [List.reverse_cons, List.foldl_append]
      rw [ih (v / 128) (Nat.div_lt_self (by omega) (by omega))]
      simp only [List.foldl_cons, List.foldl_nil]
      omega

theorem minVarlen_eq (v : Nat) (h : v ≠ 0) :
    minVarlen v = (varlenChunks (v / 128)).reverse ++ [v % 128] := by
  unfold minVarlen
  rw [varlenChunks_eq, if_neg h]
  show (((v % 128 + 128) % 128) :: varlenChunks (v / 128)).reverse = _
  rw [List.reverse_cons]
  have hm : (v % 128 + 128) % 128 = v % 128 := by omega
  rw [hm]

theorem minVarlen_ne_nil (v : Nat) (h : v ≠ 0) : minVarlen v ≠ [] := by
  rw [minVarlen_eq v h]
  simp

theorem drop_cons_succ {α : Type} (V : List α) (c : Nat) (x : α)
    (xs : List α) (h : List.drop c V = x :: xs) :
    List.drop (c + 1) V = xs := by
  have h2 := congrArg (List.drop 1) h
  rw [List.drop_drop] at h2
  simpa using h2

theorem readInteger_one (view : List Nat) (c : Nat) (x : Nat) (xs : List Nat)
    (h : List.drop c view = x :: xs) : readInteger view c 1 = (x, c + 1) := by
  simp [readInteger, pySlice, h, intFromBytesLE]

theorem readInteger_two (view : List Nat) (c : Nat) (x y : Nat)
    (xs : List Nat) (h : List.drop c view = x :: y :: xs) :
    readInteger view c 2 = (x + 256 * y, c + 2) := by
  simp [readInteger, pySlice, h, intFromBytesLE]

theorem readVarlenGo_spec : ∀ (bs : List Nat) (view : List Nat)
    (c acc fuel bl : Nat) (r : List Nat),
    List.drop c view = bs ++ bl :: r →
    (∀ x ∈ bs, 128 ≤ x ∧ x < 256) →
    bl < 128 →
    bs.length + 1 ≤ fuel →
    readVarlenGo view fuel c acc =
      some ((bs ++ [bl]).foldl (fun a x => a * 128 + x % 128) acc,
            c + (bs.length + 1)) := by
  intro bs
  induction bs with
  | nil =>
    intro view c acc fuel bl r hdrop hmem hbl hfuel
    cases fuel with
    | zero => simp at hfuel
    | succ f =>
      rw [List.nil_append] at hdrop
      simp only [readVarlenGo, readInteger_one view c bl r hdrop]
      rw [if_neg (by omega : ¬ 128 ≤ bl)]
      simp only [List.nil_append, List.foldl_cons, List.foldl_nil,
        List.length_nil]
  | cons x bs ih =>
    intro view c acc fuel bl r hdrop hmem hbl hfuel
    cases fuel with
    | zero => simp at hfuel
    | succ f =>
      have hx := hmem x (List.mem_cons_self _ _)
      rw [List.cons_append] at hdrop
      have hdrop2 : List.drop (c + 1) view = bs ++ bl :: r :=
        drop_cons_succ view c x _ hdrop
      simp only [readVarlenGo, readInteger_one view c x _ hdrop]
      rw [if_pos (by omega : 128 ≤ x)]
      rw [ih view (c + 1) (acc * 128 + x % 128) f bl r hdrop2
        (fun y hy => hmem y (List.mem_cons_of_mem _ hy)) hbl
        (by simp at hfuel; omega)]
      simp only [List.cons_append, List.foldl_cons, List.length_cons]
      rw [show c + 1 + (bs.length + 1) = c + (bs.length + 1 + 1) from by omega]

theorem readVarlen_minVarlen (view : List Nat) (c l : Nat) (r : List Nat)
    (h1 : 1 ≤ l) (h2 : l ≤ 0xFFFFFFFF)
    (hdrop : List.drop c view = minVarlen l ++ r) :
    readVarlen view c = some (l, c + (minVarlen l).length) := by
  rw [minVarlen_eq l (by omega)] at hdrop
  rw [List.append_assoc, List.singleton_append] at hdrop
  have hlenview : (List.drop c view).length = view.length - c :=
    List.length_drop c view
  rw [hdrop] at hlenview
  unfold readVarlen
  rw [readVarlenGo_spec (varlenChunks (l / 128)).reverse view c 0 _ (l % 128)
    r hdrop
    (fun x hx => varlenChunks_mem (l / 128) x (List.mem_reverse.mp hx))
    (by omega)
    (by simp only [List.length_append, List.length_cons] at hlenview; omega)]
  have hval : ((varlenChunks (l / 128)).reverse ++ [l % 128]).foldl
      (fun a x => a * 128 + x % 128) 0 = l := by
    rw [List.foldl_append, varlenChunks_foldl]
    simp only [List.foldl_cons, List.foldl_nil]
    omega
  rw [hval]
  have hlen : (minVarlen l).length =
      (varlenChunks (l / 128)).reverse.length + 1 := by
    rw [minVarlen_eq l (by omega)]
    simp
  simp only [Option.bind_eq_bind, Option.some_bind]
  rw [if_pos (by omega : l ≤ 0xFFFFFFFF)]
  rw [hlen]

theorem writeVarlen_pos (comp : List Nat) (l : Nat) (h : 1 ≤ l) :
    writeVarlen comp (l : Int) none = some (comp ++ minVarlen l) := by
  unfold writeVarlen
  rw [if_neg (by omega : ¬ (l : Int) ≤ 0)]
  rw [show ((l : Int)).toNat = l from by omega]
  rw [varlenChunks_eq, if_neg (by omega : ¬ l = 0)]
  show some (comp ++ (((l % 128 + 128) % 128) :: varlenChunks (l / 128)).reverse) = _
  rw [minVarlen_eq l (by omega)]
  rw [List.reverse_cons]
  have hm : (l % 128 + 128) % 128 = l % 128 := by omega
  rw [hm]

theorem takeWhile_all_append {α : Type} (p : α → Bool) (xs ys : List α)
    (h : ∀ x ∈ xs, p x = true) :
    (xs ++ ys).takeWhile p = xs ++ ys.takeWhile p := by
  induction xs with
  | nil => simp
  | cons a l ih =>
    rw [List.cons_append, List.takeWhile_cons_of_pos
      (h a (List.mem_cons_self _ _))]
    rw [ih fun x hx => h x (List.mem_cons_of_mem _ hx)]
    rfl

theorem takeWhile_eq_self {α : Type} (p : α → Bool) (xs : List α)
    (h : ∀ x ∈ xs, p x = true) : xs.takeWhile p = xs := by
  induction xs with
  | nil => rfl
  | cons a l ih =>
    rw [List.takeWhile_cons_of_pos (h a (List.mem_cons_self _ _))]
    rw [ih fun x hx => h x (List.mem_cons_of_mem _ hx)]

theorem dropWhile_zeros_append (k : Nat) (ys : List Nat) :
    (List.replicate k 0 ++ ys).dropWhile (fun b => b == 0) =
      ys.dropWhile (fun b => b == 0) := by
  induction k with
  | zero => simp
  | succ n ih =>
    rw [List.replicate_succ, List.cons_append,
      List.dropWhile_cons_of_pos (by decide)]
    exact ih

theorem rstripZeros_append_replicate (x : List Nat) (k : Nat) :
    rstripZeros (x ++ List.replicate k 0) = rstripZeros x := by
  unfold rstripZeros
  rw [List.reverse_append, List.reverse_replicate, dropWhile_zeros_append]

theorem rstripZeros_last_ne (x : List Nat) (b : Nat) (hb : x.getLast? = some b)
    (h : b ≠ 0) : rstripZeros x = x := by
  unfold rstripZeros
  have hh : x.reverse.head? = some b := by rw [List.head?_reverse]; exact hb
  cases hx : x.reverse with
  | nil => rw [hx] at hh; exact absurd hh (by simp)
  | cons c cs =>
    rw [hx] at hh
    have hc : c = b := by simpa using hh
    subst hc
    rw [List.dropWhile_cons_of_neg (by simpa using h), ← hx,
      List.reverse_reverse]

theorem getLast?_append_right {α : Type} (l1 l2 : List α) (h : l2 ≠ []) :
    (l1 ++ l2).getLast? = l2.getLast? := by
  rw [← List.head?_reverse, List.reverse_append, ← List.head?_reverse l2]
  cases hr : l2.reverse with
  | nil => exact absurd (by simpa using congrArg List.reverse hr) h
  | cons c cs => rw [List.cons_append]; rfl

theorem eq_append_of_getLast? {α : Type} (l : List α) (a : α)
    (h : l.getLast? = some a) : ∃ l2, l = l2 ++ [a] := by
  rw [← List.head?_reverse] at h
  cases hr : l.reverse with
  | nil => rw [hr] at h; exact absurd h (by simp)
  | cons c cs =>
    rw [hr] at h
    have hc : c = a := by simpa using h
    subst hc
    refine ⟨cs.reverse, ?_⟩
    have h2 := congrArg List.reverse hr
    rw [List.reverse_reverse] at h2
    rw [h2, List.reverse_cons]

theorem intToBytesLE_nat (v n : Nat) (h : v < 256 ^ n) :
    intToBytesLE (v : Int) n =
      some ((List.range n).map fun i => v / 256 ^ i % 256) := by
  unfold intToBytesLE
  have ht : ((v : Int)).toNat = v := by omega
  rw [if_pos ⟨by exact_mod_cast Nat.zero_le v, by rw [ht]; exact h⟩]
  rw [ht]

theorem writeInteger_u8 (comp : List Nat) (v : Nat) (h : v < 256) :
    writeInteger comp (v : Int) 1 none = some (comp ++ [v]) := by
  simp only [writeInteger]
  rw [if_neg (by omega : ¬ (v : Int) < 0)]
  rw [intToBytesLE_nat v 1 (by rw [pow_one]; exact h)]
  simp [List.range_succ, List.range_zero, Nat.mod_eq_of_lt h]

theorem writeInteger_u16 (comp : List Nat) (v : Nat) (h : v < 65536) :
    writeInteger comp (v : Int) 2 none = some (comp ++ le2 v) := by
  simp only [writeInteger]
  rw [if_neg (by omega : ¬ (v : Int) < 0)]
  rw [intToBytesLE_nat v 2 (by norm_num; omega)]
  simp [le2, List.range_succ, List.range_zero]

theorem intToDecChars_natCast (n : Nat) :
    intToDecChars (n : Int) = natToDecChars n := by
  unfold intToDecChars
  rw [if_neg (by omega : ¬ (n : Int) < 0)]
  rw [show ((n : Int)).toNat = n from by omega]

theorem sseqPackHeader_eq (f s : Nat) : sseqPackHeader f s =
    [0x53, 0x53, 0x45, 0x51, 0xFF, 0xFE, 0x00, 0x01,
     f % 256, f / 256 % 256, f / 65536 % 256, f / 16777216 % 256,
     0x10, 0x00, 0x01, 0x00, 0x44, 0x41, 0x54, 0x41,
     s % 256, s / 256 % 256, s / 65536 % 256, s / 16777216 % 256,
     0x1C, 0x00, 0x00, 0x00] := by
  unfold sseqPackHeader
  norm_num [List.range_succ, List.range_zero]

theorem sseqPackHeader_length (f s : Nat) :
    (sseqPackHeader f s).length = 28 := by
  rw [sseqPackHeader_eq]
  rfl

theorem sseqUnpackHeader_canonical (f s : Nat) (hf : f < 2 ^ 32)
    (hs : s < 2 ^ 32) (r : List Nat) :
    sseqUnpackHeader (sseqPackHeader f s ++ r) = some
      { signature := [0x53, 0x53, 0x45, 0x51], byteOrder := 0xFEFF,
        version := 0x0100, fileSize := f, headerSize := 0x10, dataBlocks := 1,
        kind := intFromBytesLE [0x44, 0x41, 0x54, 0x41], size2 := s,
        baseOffset := 28 } := by
  rw [sseqPackHeader_eq]
  unfold sseqUnpackHeader
  rw [if_neg (by simp [List.length_append])]
  simp only [pySlice, List.drop_succ_cons, List.drop_zero,
    List.take_succ_cons, List.take_zero, intFromBytesLE]
  rw [if_pos (by norm_num)]
  simp only [NNSSndSeqData.mk.injEq, Option.some.injEq]
  refine ⟨rfl, by norm_num, by norm_num, by omega, by norm_num, by norm_num,
    by norm_num [intFromBytesLE], by omega, by norm_num⟩

theorem u8Ops_facts : ∀ op ∈ u8Ops,
    (cmdNameOf op).isSome = true ∧ op < 256 ∧
    (op / 16 * 16 = 0xC0 ∨ op / 16 * 16 = 0xD0) ∧ op ≠ 0xC0 ∧
    op ≠ 0xFE ∧ op ≠ 0xA0 ∧ op ≠ 0xA1 ∧ op ≠ 0xA2 ∧ ¬ op < 128 ∧
    op ≠ 0x93 ∧ op ≠ 0x94 ∧ op ≠ 0x95 ∧ op / 16 * 16 ≠ 0x80 ∧
    op / 16 * 16 ≠ 0x90 := by decide

theorem u16Ops_facts : ∀ op ∈ u16Ops,
    (cmdNameOf op).isSome = true ∧ op < 256 ∧ op / 16 * 16 = 0xE0 ∧
    op ≠ 0xFE ∧ op ≠ 0xA0 ∧ op ≠ 0xA1 ∧ op ≠ 0xA2 ∧ ¬ op < 128 ∧
    op ≠ 0x93 ∧ op ≠ 0x94 ∧ op ≠ 0x95 ∧ op / 16 * 16 ≠ 0x80 ∧
    op / 16 * 16 ≠ 0x90 ∧ op / 16 * 16 ≠ 0xC0 ∧ op / 16 * 16 ≠ 0xD0 := by
  decide

theorem varOps_facts : ∀ op ∈ varOps,
    (cmdNameOf op).isSome = true ∧ op < 256 ∧ op / 16 * 16 = 0xB0 ∧
    op ≠ 0xFE ∧ op ≠ 0xA0 ∧ op ≠ 0xA1 ∧ op ≠ 0xA2 ∧ ¬ op < 128 ∧
    op ≠ 0x93 ∧ op ≠ 0x94 ∧ op ≠ 0x95 ∧ op / 16 * 16 ≠ 0x80 ∧
    op / 16 * 16 ≠ 0x90 ∧ op / 16 * 16 ≠ 0xC0 ∧ op / 16 * 16 ≠ 0xD0 ∧
    op / 16 * 16 ≠ 0xE0 := by decide

theorem noneOps_facts : ∀ op ∈ ([0xFC, 0xFD, 0xFF] : List Nat),
    (cmdNameOf op).isSome = true ∧ op < 256 ∧ op / 16 * 16 = 0xF0 ∧
    op ≠ 0xFE ∧ op ≠ 0xA0 ∧ op ≠ 0xA1 ∧ op ≠ 0xA2 ∧ ¬ op < 128 ∧
    op ≠ 0x93 ∧ op ≠ 0x94 ∧ op ≠ 0x95 ∧ op / 16 * 16 ≠ 0x80 ∧
    op / 16 * 16 ≠ 0x90 ∧ op / 16 * 16 ≠ 0xC0 ∧ op / 16 * 16 ≠ 0xD0 ∧
    op / 16 * 16 ≠ 0xE0 ∧ op / 16 * 16 ≠ 0xB0 := by decide

theorem vlvOps_facts : ∀ op ∈ ([0x80, 0x81] : List Nat),
    (cmdNameOf op).isSome = true ∧ op < 256 ∧ op / 16 * 16 = 0x80 ∧
    op ≠ 0xFE ∧ op ≠ 0xA0 ∧ op ≠ 0xA1 ∧ op ≠ 0xA2 ∧ ¬ op < 128 ∧
    op ≠ 0x93 ∧ op ≠ 0x94 ∧ op ≠ 0x95 := by decide

theorem getCommand_plain (view : List Nat) (c b : Nat) (bs : List Nat)
    (h : List.drop c view = b :: bs) (h2 : b ≠ 0xA2) (h0 : b ≠ 0xA0)
    (h1 : b ≠ 0xA1) :
    getCommand view c = (b, SNDSeqVal.noinit, false, c + 1) := by
  simp [getCommand, readInteger_one view c b bs h, h2, h0, h1]

theorem dictSet_append {κ ν : Type} [DecidableEq κ] (d : List (κ × ν))
    (k : κ) (v : ν) (h : ∀ p ∈ d, p.1 ≠ k) :
    dictSet d k v = d ++ [(k, v)] := by
  induction d with
  | nil => rfl
  | cons a rest ih =>
    obtain ⟨k1, v1⟩ := a
    unfold dictSet
    rw [if_neg (h (k1, v1) (List.mem_cons_self _ _))]
    rw [ih fun p hp => h p (List.mem_cons_of_mem _ hp)]
    rfl

theorem scanStep_cmdNone (seqname : List Char) (st : SseqToTxt) (op : Nat)
    (r : List Nat) (hop : op ∈ ([0xFC, 0xFD, 0xFF] : List Nat))
    (hdrop : List.drop st.cursor st.view = op :: r) :
    scanStep seqname st = some { st with
      commands := dictSet st.commands st.cursor
        (entryOf (StraightStmt.cmdNone op)),
      cursor := st.cursor + (encStmt (StraightStmt.cmdNone op)).length } := by
  obtain ⟨hsome, h256, hhigh, hFE, hA0, hA1, hA2, h128, h93, h94, h95, hh80,
    hh90, hhC0, hhD0, hhE0, hhB0⟩ := noneOps_facts op hop
  unfold scanStep
  rw [getCommand_plain st.view st.cursor op _ hdrop hA2 hA0 hA1]
  simp only [parseCmd, hsome, if_neg h128, if_neg hh80, if_neg hh90,
    if_neg hhE0, if_neg hhB0, hhigh]
  rw [if_neg (by omega : ¬ ((0xF0 : Nat) = 0xC0 ∨ (0xF0 : Nat) = 0xD0))]
  simp only [Option.bind_eq_bind, Option.some_bind, if_true]
  simp only [SseqCmdStr.cmd.injEq, h93, h94, h95, if_neg, ite_false,
    if_false]
  simp [entryOf, encStmt, h93, h94, h95]

theorem scanStep_cmdU8 (seqname : List Char) (st : SseqToTxt) (op a : Nat)
    (r : List Nat) (hop : op ∈ u8Ops)
    (hdrop : List.drop st.cursor st.view = op :: a :: r) :
    scanStep seqname st = some { st with
      commands := dictSet st.commands st.cursor
        (entryOf (StraightStmt.cmdU8 op a)),
      cursor := st.cursor + (encStmt (StraightStmt.cmdU8 op a)).length } := by
  obtain ⟨hsome, h256, hhigh, hC0, hFE, hA0, hA1, hA2, h128, h93, h94, h95,
    hh80, hh90⟩ := u8Ops_facts op hop
  have hdrop2 : List.drop (st.cursor + 1) st.view = a :: r :=
    drop_cons_succ st.view st.cursor op _ hdrop
  unfold scanStep
  rw [getCommand_plain st.view st.cursor op _ hdrop hA2 hA0 hA1]
  simp only [parseCmd, hsome, if_neg h128, if_neg hh80, if_neg hh90,
    if_pos hhigh]
  simp only [readValue, reduceIte, readInteger_one st.view (st.cursor + 1) a
    r hdrop2]
  simp only [Option.bind_eq_bind, Option.some_bind]
  simp [hC0, h93, h94, h95, entryOf, encStmt, SseqCmdStr.cmd.injEq]

theorem scanStep_cmdU16 (seqname : List Char) (st : SseqToTxt) (op a : Nat)
    (r : List Nat) (hop : op ∈ u16Ops) (ha : a < 65536)
    (hdrop : List.drop st.cursor st.view = op :: a % 256 :: a / 256 % 256 :: r) :
    scanStep seqname st = some { st with
      commands := dictSet st.commands st.cursor
        (entryOf (StraightStmt.cmdU16 op a)),
      cursor := st.cursor + (encStmt (StraightStmt.cmdU16 op a)).length } := by
  obtain ⟨hsome, h256, hhigh, hFE, hA0, hA1, hA2, h128, h93, h94, h95, hh80,
    hh90, hhC0, hhD0⟩ := u16Ops_facts op hop
  have hdrop2 : List.drop (st.cursor + 1) st.view =
      a % 256 :: a / 256 % 256 :: r :=
    drop_cons_succ st.view st.cursor op _ hdrop
  unfold scanStep
  rw [getCommand_plain st.view st.cursor op _ hdrop hA2 hA0 hA1]
  simp only [parseCmd, hsome, if_neg h128, if_neg hh80, if_neg hh90,
    if_neg (not_or.mpr ⟨hhC0, hhD0⟩), if_pos hhigh]
  simp only [readValue, reduceIte,
    readInteger_two st.view (st.cursor + 1) _ _ r hdrop2]
  rw [show a % 256 + 256 * (a / 256 % 256) = a from by omega]
  simp only [Option.bind_eq_bind, Option.some_bind]
  simp [h93, h94, h95, entryOf, encStmt, le2, SseqCmdStr.cmd.injEq]

theorem scanStep_cmdVar (seqname : List Char) (st : SseqToTxt) (op n p : Nat)
    (r : List Nat) (hop : op ∈ varOps) (hp : p < 65536)
    (hdrop : List.drop st.cursor st.view =
      op :: n :: p % 256 :: p / 256 % 256 :: r) :
    scanStep seqname st = some { st with
      commands := dictSet st.commands st.cursor
        (entryOf (StraightStmt.cmdVar op n p)),
      cursor := st.cursor + (encStmt (StraightStmt.cmdVar op n p)).length } := by
  obtain ⟨hsome, h256, hhigh, hFE, hA0, hA1, hA2, h128, h93, h94, h95, hh80,
    hh90, hhC0, hhD0, hhE0⟩ := varOps_facts op hop
  have hdrop2 : List.drop (st.cursor + 1) st.view =
      n :: p % 256 :: p / 256 % 256 :: r :=
    drop_cons_succ st.view st.cursor op _ hdrop
  have hdrop3 : List.drop (st.cursor + 1 + 1) st.view =
      p % 256 :: p / 256 % 256 :: r :=
    drop_cons_succ st.view (st.cursor + 1) n _ hdrop2
  unfold scanStep
  rw [getCommand_plain st.view st.cursor op _ hdrop hA2 hA0 hA1]
  simp only [parseCmd, hsome, if_neg h128, if_neg hh80, if_neg hh90,
    if_neg (not_or.mpr ⟨hhC0, hhD0⟩), if_neg hhE0, if_pos hhigh,
    readInteger_one st.view (st.cursor + 1) n _ hdrop2]
  simp only [readValue, reduceIte,
    readInteger_two st.view (st.cursor + 1 + 1) _ _ r hdrop3]
  rw [show p % 256 + 256 * (p / 256 % 256) = p from by omega]
  simp only [Option.bind_eq_bind, Option.some_bind]
  simp [h93, h94, h95, entryOf, encStmt, le2, SseqCmdStr.cmd.injEq]

theorem scanStep_cmdVlv (seqname : List Char) (st : SseqToTxt) (op v : Nat)
    (r : List Nat) (hop : op = 0x80 ∨ op = 0x81) (h1 : 1 ≤ v)
    (h2 : v ≤ 0xFFFFFFFF)
    (hdrop : List.drop st.cursor st.view = op :: (minVarlen v ++ r)) :
    scanStep seqname st = some { st with
      commands := dictSet st.commands st.cursor
        (entryOf (StraightStmt.cmdVlv op v)),
      cursor := st.cursor + (encStmt (StraightStmt.cmdVlv op v)).length } := by
  have hop2 : op ∈ ([0x80, 0x81] : List Nat) := by
    rcases hop with rfl | rfl <;> simp
  obtain ⟨hsome, h256, hhigh, hFE, hA0, hA1, hA2, h128, h93, h94, h95⟩ :=
    vlvOps_facts op hop2
  have hdrop2 : List.drop (st.cursor + 1) st.view = minVarlen v ++ r :=
    drop_cons_succ st.view st.cursor op _ hdrop
  unfold scanStep
  rw [getCommand_plain st.view st.cursor op _ hdrop hA2 hA0 hA1]
  simp only [parseCmd, hsome, if_neg h128, if_pos hhigh]
  simp only [readValue, reduceIte,
    readVarlen_minVarlen st.view (st.cursor + 1) v r h1 h2 hdrop2]
  simp only [Option.bind_eq_bind, Option.some_bind]
  rw [show st.cursor + 1 + (minVarlen v).length =
    st.cursor + ((minVarlen v).length + 1) from by omega]
  simp [h93, h94, h95, entryOf, encStmt, SseqCmdStr.cmd.injEq]

theorem scanStep_note (seqname : List Char) (st : SseqToTxt) (p v l : Nat)
    (r : List Nat) (hp : p < 120) (h1 : 1 ≤ l)
    (h2 : l ≤ 0xFFFFFFFF)
    (hdrop : List.drop st.cursor st.view = p :: v :: (minVarlen l ++ r)) :
    scanStep seqname st = some { st with
      commands := dictSet st.commands st.cursor
        (entryOf (StraightStmt.note p v l)),
      cursor := st.cursor + (encStmt (StraightStmt.note p v l)).length } := by
  have hdrop2 : List.drop (st.cursor + 1) st.view = v :: (minVarlen l ++ r) :=
    drop_cons_succ st.view st.cursor p _ hdrop
  have hdrop3 : List.drop (st.cursor + 1 + 1) st.view = minVarlen l ++ r :=
    drop_cons_succ st.view (st.cursor + 1) v _ hdrop2
  unfold scanStep
  rw [getCommand_plain st.view st.cursor p _ hdrop (by omega) (by omega)
    (by omega)]
  simp only [if_pos (show p < 128 from by omega)]
  simp only [parseNote, readInteger_one st.view (st.cursor + 1) v _ hdrop2]
  simp only [readValue, reduceIte,
    readVarlen_minVarlen st.view (st.cursor + 1 + 1) l r h1 h2 hdrop3]
  simp only [Option.bind_eq_bind, Option.some_bind]
  rw [show st.cursor + 1 + 1 + (minVarlen l).length =
    st.cursor + ((minVarlen l).length + 1 + 1) from by omega]
  simp [entryOf, encStmt]

theorem scanStep_stmt (seqname : List Char) (st : SseqToTxt)
    (s : StraightStmt) (r : List Nat) (hwf : wfStmt s = true)
    (hdrop : List.drop st.cursor st.view = encStmt s ++ r) :
    scanStep seqname st = some { st with
      commands := dictSet st.commands st.cursor (entryOf s),
      cursor := st.cursor + (encStmt s).length } := by
  cases s with
  | note p v l =>
    simp only [wfStmt, Bool.and_eq_true, decide_eq_true_eq] at hwf
    exact scanStep_note seqname st p v l r hwf.1.1.1 hwf.1.2 hwf.2
      (by simpa [encStmt] using hdrop)
  | cmdVlv op v =>
    simp only [wfStmt, Bool.and_eq_true, Bool.or_eq_true,
      decide_eq_true_eq] at hwf
    exact scanStep_cmdVlv seqname st op v r hwf.1.1 hwf.1.2 hwf.2
      (by simpa [encStmt] using hdrop)
  | cmdU8 op a =>
    simp only [wfStmt, Bool.and_eq_true, decide_eq_true_eq] at hwf
    exact scanStep_cmdU8 seqname st op a r hwf.1
      (by simpa [encStmt] using hdrop)
  | cmdU16 op a =>
    simp only [wfStmt, Bool.and_eq_true, decide_eq_true_eq] at hwf
    exact scanStep_cmdU16 seqname st op a r hwf.1 hwf.2
      (by simpa [encStmt, le2] using hdrop)
  | cmdVar op n p =>
    simp only [wfStmt, Bool.and_eq_true, decide_eq_true_eq] at hwf
    exact scanStep_cmdVar seqname st op n p r hwf.1.1 hwf.2
      (by simpa [encStmt, le2] using hdrop)
  | cmdNone op =>
    simp only [wfStmt, Bool.or_eq_true, decide_eq_true_eq] at hwf
    refine scanStep_cmdNone seqname st op r ?_
      (by simpa [encStmt] using hdrop)
    rcases hwf with (rfl | rfl) | rfl <;> simp

theorem encStmt_length_pos (s : StraightStmt) : (encStmt s).length ≠ 0 := by
  cases s <;> simp [encStmt]

theorem scanCommands_canonical (seqname : List Char) :
    ∀ (stmts : List StraightStmt) (fuel : Nat) (st : SseqToTxt),
    (∀ s ∈ stmts, wfStmt s = true) →
    List.drop st.cursor st.view = canonicalBody stmts →
    st.cursor + (canonicalBody stmts).length = st.view.length →
    (∀ q ∈ st.commands, q.1 < st.cursor) →
    stmts.length ≤ fuel →
    scanCommands seqname fuel st = some { st with
      commands := st.commands ++ entriesFrom st.cursor stmts,
      cursor := st.view.length } := by
  intro stmts
  induction stmts with
  | nil =>
    intro fuel st hwf hdrop hlen hkeys hfuel
    have hc : st.cursor = st.view.length := by
      simp [canonicalBody] at hlen
      omega
    have hterm : ¬ st.cursor < st.view.length := by omega
    cases fuel <;>
      (simp only [scanCommands, if_neg hterm]
       rw [← hc]
       simp [entriesFrom])
  | cons s rest ih =>
    intro fuel st hwf hdrop hlen hkeys hfuel
    have hbody : canonicalBody (s :: rest) =
        encStmt s ++ canonicalBody rest := by
      simp [canonicalBody]
    rw [hbody] at hdrop hlen
    have hlpos := encStmt_length_pos s
    have hcur : st.cursor < st.view.length := by
      rw [List.length_append] at hlen
      omega
    cases fuel with
    | zero => simp at hfuel
    | succ f =>
      simp only [scanCommands, if_pos hcur]
      rw [scanStep_stmt seqname st s (canonicalBody rest)
        (hwf s (List.mem_cons_self _ _)) hdrop]
      simp only [Option.bind_eq_bind, Option.some_bind]
      rw [ih f _ (fun x hx => hwf x (List.mem_cons_of_mem _ hx)) ?hd ?hl ?hk
        ?hf]
      case hd =>
        show List.drop (st.cursor + (encStmt s).length) st.view =
          canonicalBody rest
        have h3 := congrArg (List.drop (encStmt s).length) hdrop
        rw [List.drop_drop, List.drop_left] at h3
        exact h3
      case hl =>
        show st.cursor + (encStmt s).length + (canonicalBody rest).length =
          st.view.length
        rw [List.length_append] at hlen
        omega
      case hk =>
        intro q hq
        show q.1 < st.cursor + (encStmt s).length
        rw [dictSet_append st.commands st.cursor (entryOf s)
          (fun q2 hq2 => by have := hkeys q2 hq2; omega)] at hq
        rcases List.mem_append.mp hq with hq | hq
        · have := hkeys q hq
          omega
        · rw [List.mem_singleton] at hq
          rw [hq]
          show st.cursor < st.cursor + (encStmt s).length
          omega
      case hf =>
        simp at hfuel
        omega
      rw [dictSet_append st.commands st.cursor (entryOf s)
        (fun q2 hq2 => by have := hkeys q2 hq2; omega)]
      simp [entriesFrom, List.append_assoc]

theorem renderEntry_stmt (s : StraightStmt) (hw : wfStmt s = true)
    (L : List (Int × List Char)) (addr : Nat) (lbls : List (List Char))
    (hlbl : (match dictGet L ((addr : Int) - 28) with
             | some lbl =>
               [lbl ++ (strL ": @ 0x" ++ hex4 ((addr : Int) - 28).toNat)]
             | none => ([] : List (List Char))) = lbls) :
    renderEntry L 28 (addr, entryOf s) = some (lbls ++ stmtLines s) := by
  cases s with
  | note p v l =>
    simp [renderEntry, entryOf, stmtLines, intToDecChars_natCast, hlbl]
  | cmdVlv op v =>
    simp only [wfStmt, Bool.and_eq_true, Bool.or_eq_true,
      decide_eq_true_eq] at hw
    have hop2 : op ∈ ([0x80, 0x81] : List Nat) := by
      rcases hw.1.1 with rfl | rfl <;> simp
    obtain ⟨hsome, _, hhigh, _, _, _, _, _, h93, h94, h95⟩ :=
      vlvOps_facts op hop2
    obtain ⟨nm, hname⟩ := Option.isSome_iff_exists.mp hsome
    have hFD : op ≠ 0xFD := by omega
    have hFF : op ≠ 0xFF := by omega
    simp [renderEntry, entryOf, stmtLines, hname, h93, h94, h95, hFD, hFF,
      intToDecChars_natCast, joinSep, hlbl]
  | cmdU8 op a =>
    simp only [wfStmt, Bool.and_eq_true, decide_eq_true_eq] at hw
    obtain ⟨hsome, _, hhigh, _, _, _, _, _, _, h93, h94, h95, _, _⟩ :=
      u8Ops_facts op hw.1
    obtain ⟨nm, hname⟩ := Option.isSome_iff_exists.mp hsome
    have hFD : op ≠ 0xFD := by omega
    have hFF : op ≠ 0xFF := by omega
    simp [renderEntry, entryOf, stmtLines, hname, h93, h94, h95, hFD, hFF,
      intToDecChars_natCast, joinSep, hlbl]
  | cmdU16 op a =>
    simp only [wfStmt, Bool.and_eq_true, decide_eq_true_eq] at hw
    obtain ⟨hsome, _, hhigh, _, _, _, _, _, h93, h94, h95, _, _, _, _⟩ :=
      u16Ops_facts op hw.1
    obtain ⟨nm, hname⟩ := Option.isSome_iff_exists.mp hsome
    have hFD : op ≠ 0xFD := by omega
    have hFF : op ≠ 0xFF := by omega
    simp [renderEntry, entryOf, stmtLines, hname, h93, h94, h95, hFD, hFF,
      intToDecChars_natCast, joinSep, hlbl]
  | cmdVar op n p =>
    simp only [wfStmt, Bool.and_eq_true, decide_eq_true_eq] at hw
    obtain ⟨hsome, _, hhigh, _, _, _, _, _, h93, h94, h95, _, _, _, _, _⟩ :=
      varOps_facts op hw.1.1
    obtain ⟨nm, hname⟩ := Option.isSome_iff_exists.mp hsome
    have hFD : op ≠ 0xFD := by omega
    have hFF : op ≠ 0xFF := by omega
    simp [renderEntry, entryOf, stmtLines, hname, h93, h94, h95, hFD, hFF,
      intToDecChars_natCast, joinSep, hlbl]
  | cmdNone op =>
    simp only [wfStmt, Bool.or_eq_true, decide_eq_true_eq] at hw
    have hop2 : op ∈ ([0xFC, 0xFD, 0xFF] : List Nat) := by
      rcases hw with (rfl | rfl) | rfl <;> simp
    obtain ⟨hsome, _, hhigh, _, _, _, _, _, h93, h94, h95, _, _, _, _, _,
      _⟩ := noneOps_facts op hop2
    obtain ⟨nm, hname⟩ := Option.isSome_iff_exists.mp hsome
    by_cases hfd : op = 0xFD ∨ op = 0xFF
    · simp [renderEntry, entryOf, stmtLines, hname, h93, h94, h95, hfd, hlbl]
    · simp [renderEntry, entryOf, stmtLines, hname, h93, h94, h95, hfd, hlbl]

theorem encStmt_head_ne_FE (s : StraightStmt) (hw : wfStmt s = true) :
    ∃ b bs, encStmt s = b :: bs ∧ b ≠ 0xFE := by
  cases s with
  | note p v l =>
    simp only [wfStmt, Bool.and_eq_true, decide_eq_true_eq] at hw
    exact ⟨p, _, rfl, by omega⟩
  | cmdVlv op v =>
    simp only [wfStmt, Bool.and_eq_true, Bool.or_eq_true,
      decide_eq_true_eq] at hw
    refine ⟨op, _, rfl, ?_⟩
    rcases hw.1.1 with rfl | rfl <;> omega
  | cmdU8 op a =>
    simp only [wfStmt, Bool.and_eq_true, decide_eq_true_eq] at hw
    obtain ⟨_, _, _, _, hFE, _⟩ := u8Ops_facts op hw.1
    exact ⟨op, _, rfl, hFE⟩
  | cmdU16 op a =>
    simp only [wfStmt, Bool.and_eq_true, decide_eq_true_eq] at hw
    obtain ⟨_, _, _, hFE, _⟩ := u16Ops_facts op hw.1
    exact ⟨op, _, rfl, hFE⟩
  | cmdVar op n p =>
    simp only [wfStmt, Bool.and_eq_true, decide_eq_true_eq] at hw
    obtain ⟨_, _, _, hFE, _⟩ := varOps_facts op hw.1.1
    exact ⟨op, _, rfl, hFE⟩
  | cmdNone op =>
    simp only [wfStmt, Bool.or_eq_true, decide_eq_true_eq] at hw
    refine ⟨op, _, rfl, ?_⟩
    rcases hw with (rfl | rfl) | rfl <;> omega

theorem stmts_length_le_body (stmts : List StraightStmt) :
    stmts.length ≤ (canonicalBody stmts).length := by
  induction stmts with
  | nil => simp [canonicalBody]
  | cons s rest ih =>
    have h := encStmt_length_pos s
    simp only [canonicalBody, List.map_cons, List.flatten_cons,
      List.length_cons, List.length_append]
    simp only [canonicalBody] at ih
    omega

theorem mapM_renderEntry_tail :
    ∀ (stmts : List StraightStmt) (addr : Nat), 28 < addr →
    (∀ s ∈ stmts, wfStmt s = true) →
    (entriesFrom addr stmts).mapM
      (renderEntry [((0 : Int), strL "S_Tk00")] 28) =
      some (stmts.map stmtLines) := by
  intro stmts
  induction stmts with
  | nil => intro addr _ _; rfl
  | cons s rest ih =>
    intro addr h28 hwf
    have hget : (match dictGet [((0 : Int), strL "S_Tk00")]
          ((addr : Int) - 28) with
        | some lbl => [lbl ++ (strL ": @ 0x" ++ hex4 ((addr : Int) - 28).toNat)]
        | none => ([] : List (List Char))) = ([] : List (List Char)) := by
      have hne : ¬ ((0 : Int) = (addr : Int) - 28) := by omega
      simp [dictGet, hne]
    simp only [entriesFrom, List.mapM_cons]
    rw [renderEntry_stmt s (hwf s (List.mem_cons_self _ _)) _ addr [] hget]
    rw [ih (addr + (encStmt s).length)
      (by have := encStmt_length_pos s; omega)
      (fun x hx => hwf x (List.mem_cons_of_mem _ hx))]
    simp

theorem sseqParse_canonical (stmts : List StraightStmt)
    (hwf : ∀ s ∈ stmts, wfStmt s = true)
    (hlast : stmts.getLast? = some (StraightStmt.cmdNone 0xFF))
    (hsize : (canonicalBody stmts).length + 32 < 2 ^ 32) :
    sseqParse (strL "S") (canonicalBin stmts) =
      some (strL "S_Tk00: @ 0x0000" :: (stmts.map stmtLines).flatten) := by
  obtain ⟨stmts0, hsplit⟩ := eq_append_of_getLast? stmts _ hlast
  have hne : stmts ≠ [] := by rw [hsplit]; simp
  obtain ⟨s1, rest, hcons⟩ : ∃ s1 rest, stmts = s1 :: rest := by
    cases stmts with
    | nil => exact absurd rfl hne
    | cons a l => exact ⟨a, l, rfl⟩
  have hbody_last : (canonicalBody stmts).getLast? = some 0xFF := by
    rw [hsplit]
    simp only [canonicalBody, List.map_append, List.flatten_append]
    simp [encStmt]
  have hbody_ne : canonicalBody stmts ≠ [] := by
    intro h
    rw [h] at hbody_last
    simp at hbody_last
  set B := canonicalBody stmts with hB
  set pad := (4 - B.length % 4) % 4 with hpad
  have hpadlt : pad < 4 := by omega
  set HD := sseqPackHeader (28 + (B.length + pad)) (12 + (B.length + pad))
    with hHD
  have hHDlen : HD.length = 28 := sseqPackHeader_length _ _
  have hcanon : canonicalBin stmts = HD ++ (B ++ List.replicate pad 0) := by
    simp [canonicalBin, List.append_assoc, hHD, ← hB, ← hpad]
  have hview : rstripZeros (canonicalBin stmts) = HD ++ B := by
    rw [hcanon, ← List.append_assoc, rstripZeros_append_replicate]
    refine rstripZeros_last_ne _ 0xFF ?_ (by omega)
    rw [getLast?_append_right _ _ hbody_ne]
    exact hbody_last
  have hf : 28 + (B.length + pad) < 2 ^ 32 := by omega
  have hs2 : 12 + (B.length + pad) < 2 ^ 32 := by omega
  have hunpack := sseqUnpackHeader_canonical _ _ hf hs2
    (B ++ List.replicate pad 0)
  have hdrop28 : List.drop 28 (HD ++ B) = B := by
    rw [← hHDlen]
    exact List.drop_left _ _
  obtain ⟨b, bs0, henc1, hbne⟩ := encStmt_head_ne_FE s1
    (hwf s1 (by rw [hcons]; exact List.mem_cons_self _ _))
  have hBcons : B = b :: (bs0 ++ canonicalBody rest) := by
    rw [hB, hcons]
    simp only [canonicalBody, List.map_cons, List.flatten_cons]
    rw [henc1]
    simp [canonicalBody]
  have hinit : sseqInit (strL "S") (canonicalBin stmts) = some
      { labels := [((0 : Int), strL "S_Tk00")], commands := [],
        ntracks := 0, trackMask := 0, view := HD ++ B,
        cursor := 28, baseOffset := 28 } := by
    unfold sseqInit
    rw [hcanon, hunpack, ← hcanon, hview]
    simp only [Option.bind_eq_bind, Option.some_bind]
    rw [readInteger_one (HD ++ B) 28 b _ (by rw [hdrop28, hBcons])]
    rw [if_neg hbne]
    simp only [Option.some.injEq, SseqToTxt.mk.injEq, and_true, true_and]
    decide
  have hlenview : (HD ++ B).length = 28 + B.length := by
    rw [List.length_append, hHDlen]
  have hscan := scanCommands_canonical (strL "S") stmts ((HD ++ B).length)
    { labels := [((0 : Int), strL "S_Tk00")], commands := [],
      ntracks := 0, trackMask := 0, view := HD ++ B,
      cursor := 28, baseOffset := 28 }
    hwf hdrop28 (by rw [hlenview, ← hB])
    (fun q hq => absurd hq (List.not_mem_nil q))
    (by rw [hlenview]
        have h1 := stmts_length_le_body stmts
        rw [← hB] at h1
        omega)
  have hget1 : (match dictGet [((0 : Int), strL "S_Tk00")]
        (((28 : Nat) : Int) - 28) with
      | some lbl =>
        [lbl ++ (strL ": @ 0x" ++ hex4 (((28 : Nat) : Int) - 28).toNat)]
      | none => ([] : List (List Char))) = [strL "S_Tk00: @ 0x0000"] := by
    decide
  unfold sseqParse
  rw [hinit]
  simp only [Option.bind_eq_bind, Option.some_bind]
  rw [hscan]
  simp only [Option.some_bind]
  rw [hcons]
  simp only [entriesFrom, List.mapM_cons, List.nil_append]
  rw [renderEntry_stmt s1 (hwf s1 (by rw [hcons]; exact List.mem_cons_self _ _))
    _ 28 _ hget1]
  rw [mapM_renderEntry_tail rest (28 + (encStmt s1).length)
    (by have := encStmt_length_pos s1; omega)
    (fun x hx => hwf x (by rw [hcons]; exact List.mem_cons_of_mem _ hx))]
  simp

theorem labelPatMatch_tab (rest : List Char) :
    labelPatMatch ('\t' :: rest) = none := by
  unfold labelPatMatch
  rw [List.takeWhile_cons_of_neg (by decide)]
  simp

theorem rstripWS_eq_self (s : List Char)
    (h2 : ∀ c, s.getLast? = some c → isPySpace c = false) :
    rstripWS s = s := by
  unfold rstripWS
  cases hx : s.reverse with
  | nil =>
    have hs := congrArg List.reverse hx
    rw [List.reverse_reverse] at hs
    rw [hs]
    rfl
  | cons c cs =>
    have hlast : s.getLast? = some c := by
      rw [← List.head?_reverse, hx]
      rfl
    rw [List.dropWhile_cons_of_neg (by simp [h2 c hlast]), ← hx,
      List.reverse_reverse]

theorem cleanLine_id (line : List Char) (h1 : ∀ c ∈ line, c ≠ '@')
    (h2 : ∀ c, line.getLast? = some c → isPySpace c = false) :
    rstripWS (line.takeWhile (fun c => c ≠ '@')) = line := by
  rw [takeWhile_eq_self _ line fun c hc => by simp [h1 c hc]]
  exact rstripWS_eq_self line h2

theorem iftrue_prefix_false (c1 c2 : Char) (rest : List Char)
    (hIF : c1 ≠ 'I' ∨ c2 ≠ 'F') :
    (strL "IFTRUE ").isPrefixOf (c1 :: c2 :: rest) = false := by
  show (['I', 'F', 'T', 'R', 'U', 'E', ' '] : List Char).isPrefixOf
    (c1 :: c2 :: rest) = false
  rcases hIF with h | h
  · have h1 : ('I' == c1) = false := beq_eq_false_iff_ne.mpr (Ne.symm h)
    simp [List.isPrefixOf, h1]
  · have h1 : ('F' == c2) = false := beq_eq_false_iff_ne.mpr (Ne.symm h)
    simp [List.isPrefixOf, h1]

theorem notePatMatch_fail (c1 c2 : Char) (rest : List Char)
    (hIF : c1 ≠ 'I' ∨ c2 ≠ 'F')
    (hguard : ¬ (('A' ≤ c1 ∧ c1 ≤ 'G') ∧ (c2 = '_' ∨ c2 = '#'))) :
    notePatMatch ('\t' :: c1 :: c2 :: rest) = none := by
  unfold notePatMatch
  split
  · rename_i rest2 heq
    rw [List.cons.injEq] at heq
    obtain ⟨-, heq2⟩ := heq
    subst heq2
    rw [iftrue_prefix_false c1 c2 rest hIF]
    simp only [Bool.false_eq_true, if_false]
    split
    · rename_i n1 n2 oc restB heq3
      rw [List.cons.injEq, List.cons.injEq] at heq3
      obtain ⟨h1, h2, -⟩ := heq3
      subst h1
      subst h2
      rw [if_neg fun hg => hguard ⟨hg.1, hg.2.1⟩]
    · rfl
  · rfl

theorem cmdArgsFindallGo_nil (fuel : Nat) : cmdArgsFindallGo fuel [] = [] := by
  cases fuel <;> rfl

theorem cmdArgsFindallGo_skip (fuel : Nat) (c : Char) (rest : List Char)
    (hc : c = ',' ∨ c = ' ') :
    cmdArgsFindallGo (fuel + 1) (c :: rest) = cmdArgsFindallGo fuel rest := by
  have h1 : isWordChar ',' = false := by decide
  have h2 : isWordChar ' ' = false := by decide
  rcases hc with rfl | rfl <;>
    simp [cmdArgsFindallGo, List.takeWhile_cons, h1, h2]

theorem cmdArgsFindallGo_token (fuel : Nat) (d rest : List Char)
    (hne : d ≠ [])
    (hd : ∀ c ∈ d, isWordChar c = true ∧ c ≠ ',' ∧ c ≠ ' ')
    (hr1 : rest.takeWhile isWordChar = [])
    (hr2 : rest.head? ≠ some '(')
    (hr3 : rest.takeWhile (fun x => x ≠ ',' ∧ x ≠ ' ') = []) :
    cmdArgsFindallGo (fuel + 1) (d ++ rest) =
      d :: cmdArgsFindallGo fuel rest := by
  obtain ⟨c, cs, rfl⟩ : ∃ c cs, d = c :: cs := by
    cases d with
    | nil => exact absurd rfl hne
    | cons a l => exact ⟨a, l, rfl⟩
  have hc := hd c (List.mem_cons_self _ _)
  have hw : ((c :: cs) ++ rest).takeWhile isWordChar = c :: cs := by
    rw [takeWhile_all_append _ _ _ fun x hx => (hd x hx).1, hr1,
      List.append_nil]
  have htok : ((c :: cs) ++ rest).takeWhile
      (fun x => x ≠ ',' ∧ x ≠ ' ') = c :: cs := by
    rw [takeWhile_all_append _ _ _ fun x hx => by simp [(hd x hx).2.1,
      (hd x hx).2.2], hr3, List.append_nil]
  have hdropw : ((c :: cs) ++ rest).drop (c :: cs).length = rest :=
    List.drop_left _ _
  simp only [List.cons_append] at hw htok hdropw
  simp only [List.cons_append, cmdArgsFindallGo, List.append_eq]
  simp only [hw, htok, hdropw]
  rw [if_pos (by simp : (c :: cs : List Char) ≠ [])]
  split
  · rename_i tok rem hmatch
    exfalso
    split at hmatch
    · exact hr2 rfl
    · exact Option.noConfusion hmatch
  · rw [if_pos ⟨hc.2.1, hc.2.2⟩]

theorem cmdArgsFindallGo_token_nil (fuel : Nat) (d : List Char)
    (hne : d ≠ [])
    (hd : ∀ c ∈ d, isWordChar c = true ∧ c ≠ ',' ∧ c ≠ ' ') :
    cmdArgsFindallGo (fuel + 1) d = [d] := by
  have h := cmdArgsFindallGo_token fuel d [] hne hd rfl (by simp) rfl
  rw [List.append_nil] at h
  rw [h, cmdArgsFindallGo_nil]

theorem cmdArgsFindall_one_num (d : List Char) (hne : d ≠ [])
    (hd : ∀ c ∈ d, isWordChar c = true ∧ c ≠ ',' ∧ c ≠ ' ') :
    cmdArgsFindall (' ' :: d) = [d] := by
  unfold cmdArgsFindall
  rw [show (' ' :: d).length + 1 = (d.length + 1) + 1 from by simp]
  rw [cmdArgsFindallGo_skip (d.length + 1) ' ' d (Or.inr rfl)]
  exact cmdArgsFindallGo_token_nil d.length d hne hd

theorem cmdArgsFindall_two_num (d1 d2 : List Char) (hne1 : d1 ≠ [])
    (hne2 : d2 ≠ [])
    (hd1 : ∀ c ∈ d1, isWordChar c = true ∧ c ≠ ',' ∧ c ≠ ' ')
    (hd2 : ∀ c ∈ d2, isWordChar c = true ∧ c ≠ ',' ∧ c ≠ ' ') :
    cmdArgsFindall (' ' :: (d1 ++ ',' :: ' ' :: d2)) = [d1, d2] := by
  unfold cmdArgsFindall
  have hlen : (' ' :: (d1 ++ ',' :: ' ' :: d2)).length + 1 =
      (d1.length + d2.length + 3) + 1 := by
    simp
    omega
  rw [hlen]
  rw [cmdArgsFindallGo_skip _ ' ' _ (Or.inr rfl)]
  rw [show d1.length + d2.length + 3 = (d1.length + d2.length + 2) + 1
    from by omega]
  rw [cmdArgsFindallGo_token (d1.length + d2.length + 2) d1 (',' :: ' ' :: d2)
    hne1 hd1 (by rw [List.takeWhile_cons_of_neg (by decide)])
    (by simp) (by rw [List.takeWhile_cons_of_neg (by decide)])]
  rw [show d1.length + d2.length + 2 = (d1.length + d2.length + 1) + 1
    from by omega]
  rw [cmdArgsFindallGo_skip _ ',' _ (Or.inl rfl)]
  rw [show d1.length + d2.length + 1 = (d1.length + d2.length) + 1
    from by omega]
  rw [cmdArgsFindallGo_skip _ ' ' _ (Or.inr rfl)]
  obtain ⟨c2, cs2, rfl⟩ : ∃ c cs, d2 = c :: cs := by
    cases d2 with
    | nil => exact absurd rfl hne2
    | cons a l => exact ⟨a, l, rfl⟩
  rw [show d1.length + (c2 :: cs2).length = (d1.length + cs2.length) + 1
    from by simp; omega]
  rw [cmdArgsFindallGo_token_nil (d1.length + cs2.length) (c2 :: cs2)
    (by simp) hd2]

theorem argLenMatch_word (s : List Char) (hne : s ≠ [])
    (hw : ∀ c ∈ s, isWordChar c = true) : argLenMatch s = none := by
  unfold argLenMatch
  rw [takeWhile_eq_self _ s hw]
  rw [if_neg hne, List.drop_length]

theorem cmdPatMatch_plain (c1 c2 : Char) (nmr args : List Char)
    (hword : ∀ c ∈ c1 :: c2 :: nmr, isWordChar c = true)
    (hIF : c1 ≠ 'I' ∨ c2 ≠ 'F')
    (hargs1 : args.takeWhile isWordChar = [])
    (hargsNL : ∀ c ∈ args, c ≠ '\n') :
    cmdPatMatch ('\t' :: ((c1 :: c2 :: nmr) ++ args)) =
      some (false, c1 :: c2 :: nmr, args) := by
  have hpre : (strL "IFTRUE ").isPrefixOf ((c1 :: c2 :: nmr) ++ args) =
      false := by
    rw [List.cons_append, List.cons_append]
    exact iftrue_prefix_false c1 c2 _ hIF
  have hw : ((c1 :: c2 :: nmr) ++ args).takeWhile isWordChar =
      c1 :: c2 :: nmr := by
    rw [takeWhile_all_append _ _ _ hword, hargs1, List.append_nil]
  have hdropw : ((c1 :: c2 :: nmr) ++ args).drop (c1 :: c2 :: nmr).length =
      args := List.drop_left _ _
  unfold cmdPatMatch
  split
  · rename_i rest2 heq
    rw [List.cons.injEq] at heq
    obtain ⟨-, heq2⟩ := heq
    subst heq2
    rw [if_neg fun hcond => by
      have h1 := hcond.1
      rw [hpre] at h1
      exact Bool.noConfusion h1]
    simp only [hw, hdropw]
    rw [if_pos (by simp : (c1 :: c2 :: nmr : List Char) ≠ [])]
    rw [takeWhile_eq_self _ args fun c hc => by simp [hargsNL c hc]]
  · rename_i hno
    exact (hno _ rfl).elim

theorem decChars_token (n : Nat) :
    ∀ c ∈ natToDecChars n, isWordChar c = true ∧ c ≠ ',' ∧ c ≠ ' ' :=
  fun c hc => ⟨(natToDecChars_chars n c hc).2.2.2.1,
    (natToDecChars_chars n c hc).2.2.2.2.2.2.1,
    (natToDecChars_chars n c hc).2.2.2.2.2.2.2.1⟩

theorem decChars_word (n : Nat) :
    ∀ c ∈ natToDecChars n, isWordChar c = true :=
  fun c hc => (natToDecChars_chars n c hc).2.2.2.1

theorem handlePrefix_plain (comp : List Nat) :
    handlePrefix false none comp = some comp := rfl

theorem handleVarArg_vlv (comp : List Nat) (l : Nat) (h1 : 1 ≤ l) :
    handleVarArg comp (natToDecChars l) none SNDSeqVal.vlv =
      some (comp ++ minVarlen l) := by
  simp only [handleVarArg, pyInt_natToDecChars, Option.bind_eq_bind,
    Option.some_bind]
  exact writeVarlen_pos comp l h1

theorem handleVarArg_u8 (comp : List Nat) (v : Nat) (h : v < 256) :
    handleVarArg comp (natToDecChars v) none SNDSeqVal.u8 =
      some (comp ++ [v]) := by
  simp only [handleVarArg, pyInt_natToDecChars, Option.bind_eq_bind,
    Option.some_bind]
  exact writeInteger_u8 comp v h

theorem handleVarArg_u16 (comp : List Nat) (v : Nat) (h : v < 65536) :
    handleVarArg comp (natToDecChars v) none SNDSeqVal.u16 =
      some (comp ++ le2 v) := by
  show (do
    let x ← pyInt (natToDecChars v)
    writeInteger comp x 2 none : Option (List Nat)) = some (comp ++ le2 v)
  rw [pyInt_natToDecChars]
  show writeInteger comp (v : Int) 2 none = some (comp ++ le2 v)
  exact writeInteger_u16 comp v h

theorem cmdArgsFindall_nil : cmdArgsFindall [] = [] := rfl

theorem writeCommand_u8_generic (st : TxtToSseq) (op a : Nat)
    (nm : List Char) (hfrom : cmdFromName nm = some op) (hop256 : op < 256)
    (hhigh : op / 16 * 16 = 0xC0 ∨ op / 16 * 16 = 0xD0) (hC0 : op ≠ 0xC0)
    (ha : a < 256) :
    writeCommand false nm (' ' :: natToDecChars a) st =
      some { st with compiled := st.compiled ++ [op, a] } := by
  have h80 : op / 16 * 16 ≠ 0x80 := by omega
  have h90 : op / 16 * 16 ≠ 0x90 := by omega
  unfold writeCommand
  rw [hfrom]
  simp only [Option.bind_eq_bind, Option.some_bind]
  rw [cmdArgsFindall_one_num (natToDecChars a) (natToDecChars_ne_nil a)
    (decChars_token a)]
  simp only [List.getLast?_singleton]
  rw [argLenMatch_word (natToDecChars a) (natToDecChars_ne_nil a)
    (decChars_word a)]
  rw [handlePrefix_plain]
  simp only [Option.some_bind]
  rw [writeInteger_u8 st.compiled op hop256]
  simp only [Option.some_bind]
  rw [if_neg h80, if_neg h90, if_pos hhigh]
  simp only [writeCmdC0D0, Option.bind_eq_bind, Option.some_bind]
  rw [handleVarArg_u8 (st.compiled ++ [op]) a ha]
  simp only [Option.some_bind]
  rw [if_neg fun hc => hC0 hc.2]
  simp [List.append_assoc]

theorem writeCommand_vlv_generic (st : TxtToSseq) (op v : Nat)
    (nm : List Char) (hfrom : cmdFromName nm = some op) (hop256 : op < 256)
    (hhigh : op / 16 * 16 = 0x80) (h1 : 1 ≤ v) :
    writeCommand false nm (' ' :: natToDecChars v) st =
      some { st with compiled := st.compiled ++ op :: minVarlen v } := by
  unfold writeCommand
  rw [hfrom]
  simp only [Option.bind_eq_bind, Option.some_bind]
  rw [cmdArgsFindall_one_num (natToDecChars v) (natToDecChars_ne_nil v)
    (decChars_token v)]
  simp only [List.getLast?_singleton]
  rw [argLenMatch_word (natToDecChars v) (natToDecChars_ne_nil v)
    (decChars_word v)]
  rw [handlePrefix_plain]
  simp only [Option.some_bind]
  rw [writeInteger_u8 st.compiled op hop256]
  simp only [Option.some_bind]
  rw [if_pos hhigh]
  simp only [List.getElem?_cons_zero, Option.some_bind]
  rw [handleVarArg_vlv (st.compiled ++ [op]) v h1]
  simp only [Option.some_bind]
  simp [List.append_assoc]

theorem writeCommand_u16_generic (st : TxtToSseq) (op a : Nat)
    (nm : List Char) (hfrom : cmdFromName nm = some op) (hop256 : op < 256)
    (hhigh : op / 16 * 16 = 0xE0) (ha : a < 65536) :
    writeCommand false nm (' ' :: natToDecChars a) st =
      some { st with compiled := st.compiled ++ op :: le2 a } := by
  have h80 : op / 16 * 16 ≠ 0x80 := by omega
  have h90 : op / 16 * 16 ≠ 0x90 := by omega
  have hC0 : op / 16 * 16 ≠ 0xC0 := by omega
  have hD0 : op / 16 * 16 ≠ 0xD0 := by omega
  unfold writeCommand
  rw [hfrom]
  simp only [Option.bind_eq_bind, Option.some_bind]
  rw [cmdArgsFindall_one_num (natToDecChars a) (natToDecChars_ne_nil a)
    (decChars_token a)]
  simp only [List.getLast?_singleton]
  rw [argLenMatch_word (natToDecChars a) (natToDecChars_ne_nil a)
    (decChars_word a)]
  rw [handlePrefix_plain]
  simp only [Option.some_bind]
  rw [writeInteger_u8 st.compiled op hop256]
  simp only [Option.some_bind]
  rw [if_neg h80, if_neg h90, if_neg (not_or.mpr ⟨hC0, hD0⟩), if_pos hhigh]
  simp only [Option.some_bind, handleVarArg_u16 (st.compiled ++ [op]) a ha]
  simp [List.append_assoc]

theorem writeCommand_var_generic (st : TxtToSseq) (op n p : Nat)
    (nm : List Char) (hfrom : cmdFromName nm = some op) (hop256 : op < 256)
    (hhigh : op / 16 * 16 = 0xB0) (hn : n < 256) (hp : p < 65536) :
    writeCommand false nm
      (' ' :: (natToDecChars n ++ ',' :: ' ' :: natToDecChars p)) st =
      some { st with compiled := st.compiled ++ op :: n :: le2 p } := by
  have h80 : op / 16 * 16 ≠ 0x80 := by omega
  have h90 : op / 16 * 16 ≠ 0x90 := by omega
  have hC0 : op / 16 * 16 ≠ 0xC0 := by omega
  have hD0 : op / 16 * 16 ≠ 0xD0 := by omega
  have hE0 : op / 16 * 16 ≠ 0xE0 := by omega
  unfold writeCommand
  rw [hfrom]
  simp only [Option.bind_eq_bind, Option.some_bind]
  rw [cmdArgsFindall_two_num (natToDecChars n) (natToDecChars p)
    (natToDecChars_ne_nil n) (natToDecChars_ne_nil p) (decChars_token n)
    (decChars_token p)]
  simp only [List.getLast?_cons_cons, List.getLast?_singleton]
  rw [argLenMatch_word (natToDecChars p) (natToDecChars_ne_nil p)
    (decChars_word p)]
  rw [handlePrefix_plain]
  simp only [Option.some_bind]
  rw [writeInteger_u8 st.compiled op hop256]
  simp only [Option.some_bind]
  rw [if_neg h80, if_neg h90, if_neg (not_or.mpr ⟨hC0, hD0⟩), if_neg hE0,
    if_pos hhigh]
  simp only [writeCmdB0, Option.bind_eq_bind, Option.some_bind,
    pyInt_natToDecChars]
  rw [writeInteger_u8 (st.compiled ++ [op]) n hn]
  simp only [Option.some_bind,
    handleVarArg_u16 (st.compiled ++ [op] ++ [n]) p hp]
  simp [List.append_assoc]

theorem writeCommand_none_generic (st : TxtToSseq) (op : Nat)
    (nm : List Char) (hfrom : cmdFromName nm = some op) (hop256 : op < 256)
    (hhigh : op / 16 * 16 = 0xF0) :
    writeCommand false nm [] st =
      some { st with compiled := st.compiled ++ [op] } := by
  have h80 : op / 16 * 16 ≠ 0x80 := by omega
  have h90 : op / 16 * 16 ≠ 0x90 := by omega
  have hC0 : op / 16 * 16 ≠ 0xC0 := by omega
  have hD0 : op / 16 * 16 ≠ 0xD0 := by omega
  have hE0 : op / 16 * 16 ≠ 0xE0 := by omega
  have hB0 : op / 16 * 16 ≠ 0xB0 := by omega
  unfold writeCommand
  rw [hfrom]
  simp only [Option.bind_eq_bind, Option.some_bind]
  rw [cmdArgsFindall_nil]
  simp only [List.getLast?_nil]
  rw [handlePrefix_plain]
  simp only [Option.some_bind]
  rw [writeInteger_u8 st.compiled op hop256]
  simp only [Option.some_bind]
  rw [if_neg h80, if_neg h90, if_neg (not_or.mpr ⟨hC0, hD0⟩), if_neg hE0,
    if_neg hB0]

theorem notePatMatch_note (n1 n2 oc : Char) (v l : Nat)
    (hg : ('A' ≤ n1 ∧ n1 ≤ 'G') ∧ (n2 = '_' ∨ n2 = '#')) (hIF : n1 ≠ 'I')
    (hoc : oc.isDigit = true) :
    notePatMatch ('\t' :: n1 :: n2 :: oc :: ',' :: ' ' ::
      (natToDecChars v ++ ',' :: ' ' :: natToDecChars l)) =
      some (false, [n1, n2], [oc], natToDecChars v, natToDecChars l) := by
  unfold notePatMatch
  split
  · rename_i rest2 heq
    rw [List.cons.injEq] at heq
    obtain ⟨-, heq2⟩ := heq
    subst heq2
    rw [iftrue_prefix_false n1 n2 _ (Or.inl hIF)]
    simp only [Bool.false_eq_true, if_false]
    split
    · have hvel : (natToDecChars v ++ ',' :: ' ' :: natToDecChars l).takeWhile
          (fun x => x.isDigit) = natToDecChars v := by
        rw [takeWhile_all_append _ _ _
          (fun c hc => (natToDecChars_chars v c hc).1),
          List.takeWhile_cons_of_neg (by decide), List.append_nil]
      simp only [hvel]
      rw [if_pos (natToDecChars_ne_nil v)]
      rw [List.drop_left]
      split
      · rename_i restC heq4
        rw [List.cons.injEq, List.cons.injEq] at heq4
        obtain ⟨-, -, e9⟩ := heq4
        subst e9
        rw [takeWhile_eq_self _ (natToDecChars l)
          (fun c hc => by
            simp [(natToDecChars_chars l c hc).2.2.2.2.2.2.2.2.1])]
        rw [if_pos (natToDecChars_ne_nil l)]
      · rename_i hno
        exact (hno _ rfl).elim
    · rename_i hng
      exact absurd ⟨hg.1, hg.2, hoc⟩ hng
  · rename_i hno
    exact (hno _ rfl).elim

theorem writeNote_canonical (comp : List Nat) (p v l : Nat) (hp : p < 120)
    (hv : v < 256) (h1 : 1 ≤ l) :
    writeNote false (noteNames.getD (p % 12) []) (natToDecChars (p / 12))
      (natToDecChars v) (natToDecChars l) comp =
      some (comp ++ p :: v :: minVarlen l) := by
  have hidx : noteNamesIndex (noteNames.getD (p % 12) []) = some (p % 12) := by
    have h12 : p % 12 < 12 := Nat.mod_lt _ (by omega)
    revert h12
    generalize p % 12 = m
    intro h12
    interval_cases m <;> decide
  unfold writeNote
  rw [hidx]
  simp only [Option.bind_eq_bind, Option.some_bind]
  rw [pyInt_natToDecChars (p / 12)]
  simp only [Option.some_bind]
  rw [pyInt_natToDecChars v]
  simp only [Option.some_bind]
  rw [argLenMatch_word (natToDecChars l) (natToDecChars_ne_nil l)
    (decChars_word l)]
  rw [handlePrefix_plain]
  simp only [Option.some_bind]
  rw [show ((p % 12 : Nat) : Int) + 12 * ((p / 12 : Nat) : Int) = (p : Int)
    from by push_cast; omega]
  rw [writeInteger_u8 comp p (by omega)]
  simp only [Option.some_bind]
  rw [writeInteger_u8 (comp ++ [p]) v hv]
  simp only [Option.some_bind]
  rw [handleVarArg_vlv (comp ++ [p] ++ [v]) l h1]
  simp [List.append_assoc]

theorem strL_space : strL " " = [' '] := rfl

theorem strL_commaspace : strL ", " = [',', ' '] := rfl

theorem wordChar_ne_at (c : Char) (h : isWordChar c = true) : c ≠ '@' :=
  fun hc => by subst hc; exact absurd h (by decide)

theorem lastChar_digits (pre : List Char) (n : Nat) :
    ∀ c, (pre ++ natToDecChars n).getLast? = some c → isPySpace c = false := by
  intro c hc
  rw [getLast?_append_right _ _ (natToDecChars_ne_nil n)] at hc
  obtain ⟨l2, hl2⟩ := eq_append_of_getLast? _ _ hc
  have hm : c ∈ natToDecChars n := by rw [hl2]; simp
  exact (natToDecChars_chars n c hm).2.2.2.2.2.1

theorem compileLine_blank (st : TxtToSseq) : compileLine st [] = some st :=
  rfl

theorem compileLine_label (st : TxtToSseq) :
    compileLine st (strL "S_Tk00: @ 0x0000") = some { st with
      labels := dictSet st.labels (strL "S_Tk00") st.compiled.length } :=
  rfl

theorem compileLine_cmd (st : TxtToSseq) (c1 c2 : Char) (nmr args : List Char)
    (hword : ∀ c ∈ c1 :: c2 :: nmr, isWordChar c = true)
    (hIF : c1 ≠ 'I' ∨ c2 ≠ 'F')
    (hguard : ¬ (('A' ≤ c1 ∧ c1 ≤ 'G') ∧ (c2 = '_' ∨ c2 = '#')))
    (hargs1 : args.takeWhile isWordChar = [])
    (hargsC : ∀ c ∈ args, c ≠ '@' ∧ c ≠ '\n')
    (hlast : ∀ c, ('\t' :: ((c1 :: c2 :: nmr) ++ args)).getLast? = some c →
      isPySpace c = false) :
    compileLine st ('\t' :: ((c1 :: c2 :: nmr) ++ args)) =
      writeCommand false (c1 :: c2 :: nmr) args st := by
  unfold compileLine
  rw [cleanLine_id _ ?hat hlast]
  case hat =>
    intro c hc
    rcases List.mem_cons.mp hc with rfl | hc
    · decide
    · rcases List.mem_append.mp hc with hc | hc
      · exact wordChar_ne_at c (hword c hc)
      · exact (hargsC c hc).1
  have hnp : notePatMatch ('\t' :: ((c1 :: c2 :: nmr) ++ args)) = none := by
    rw [show (c1 :: c2 :: nmr) ++ args = c1 :: c2 :: (nmr ++ args) from by
      simp]
    exact notePatMatch_fail c1 c2 _ hIF hguard
  simp only [labelPatMatch_tab, hnp,
    cmdPatMatch_plain c1 c2 nmr args hword hIF hargs1
      fun c hc => (hargsC c hc).2]

theorem nameOk_spec (nm : List Char) (h : nameOkB nm = true) :
    ∃ c1 c2 nmr, nm = c1 :: c2 :: nmr ∧
      (∀ c ∈ nm, isWordChar c = true) ∧ (c1 ≠ 'I' ∨ c2 ≠ 'F') ∧
      ¬ (('A' ≤ c1 ∧ c1 ≤ 'G') ∧ (c2 = '_' ∨ c2 = '#')) ∧
      (∀ c, nm.getLast? = some c → isPySpace c = false) := by
  cases nm with
  | nil => exact absurd h (by simp [nameOkB])
  | cons c1 t =>
    cases t with
    | nil => exact absurd h (by simp [nameOkB])
    | cons c2 nmr =>
      simp only [nameOkB, Bool.and_eq_true, Bool.not_eq_eq_eq_not,
        Bool.not_true] at h
      obtain ⟨⟨⟨hall, hif⟩, hgd⟩, hsp⟩ := h
      refine ⟨c1, c2, nmr, rfl, fun c hc => List.all_eq_true.mp hall c hc,
        ?_, ?_, ?_⟩
      · rcases Bool.and_eq_false_iff.mp hif with h1 | h1
        · exact Or.inl fun hc => by subst hc; simp at h1
        · exact Or.inr fun hc => by subst hc; simp at h1
      · rintro ⟨hr, hor⟩
        rcases Bool.and_eq_false_iff.mp hgd with h1 | h1
        · rw [decide_eq_false_iff_not] at h1
          exact h1 hr
        · rcases Bool.or_eq_false_iff.mp h1 with ⟨h2, h3⟩
          rcases hor with hc | hc
          · subst hc; simp at h2
          · subst hc; simp at h3
      · intro c hc
        have hgl : (c1 :: c2 :: nmr).getLastD ' ' = c := by
          rw [List.getLastD_eq_getLast?, hc]
          rfl
        rw [← hgl]
        exact hsp

theorem u8_names_ok : ∀ op ∈ u8Ops,
    nameOkB ((cmdNameOf op).getD []) = true ∧
    cmdFromName ((cmdNameOf op).getD []) = some op := by decide

theorem u16_names_ok : ∀ op ∈ u16Ops,
    nameOkB ((cmdNameOf op).getD []) = true ∧
    cmdFromName ((cmdNameOf op).getD []) = some op := by decide

theorem var_names_ok : ∀ op ∈ varOps,
    nameOkB ((cmdNameOf op).getD []) = true ∧
    cmdFromName ((cmdNameOf op).getD []) = some op := by decide

theorem vlv_names_ok : ∀ op ∈ ([0x80, 0x81] : List Nat),
    nameOkB ((cmdNameOf op).getD []) = true ∧
    cmdFromName ((cmdNameOf op).getD []) = some op := by decide

theorem none_names_ok : ∀ op ∈ ([0xFC, 0xFD, 0xFF] : List Nat),
    nameOkB ((cmdNameOf op).getD []) = true ∧
    cmdFromName ((cmdNameOf op).getD []) = some op := by decide

theorem digit_argsC (n : Nat) :
    ∀ c ∈ ' ' :: natToDecChars n, c ≠ '@' ∧ c ≠ '\n' := by
  intro c hc
  rcases List.mem_cons.mp hc with rfl | hc
  · exact ⟨by decide, by decide⟩
  · exact ⟨(natToDecChars_chars n c hc).2.2.2.2.1,
      (natToDecChars_chars n c hc).2.2.2.2.2.2.2.2.1⟩

theorem compileLine_u8 (st : TxtToSseq) (op a : Nat) (hop : op ∈ u8Ops)
    (ha : a < 256) :
    compileLine st ('\t' :: ((cmdNameOf op).getD [] ++ strL " " ++
      natToDecChars a)) =
      some { st with compiled := st.compiled ++ [op, a] } := by
  obtain ⟨hnok, hfrom⟩ := u8_names_ok op hop
  obtain ⟨_, hop256, hhigh, hC0, _⟩ := u8Ops_facts op hop
  obtain ⟨c1, c2, nmr, hnm, hword, hIF, hguard, hflast⟩ := nameOk_spec _ hnok
  rw [hnm] at hword hflast
  rw [hnm]
  rw [show (c1 :: c2 :: nmr) ++ strL " " ++ natToDecChars a =
      (c1 :: c2 :: nmr) ++ (' ' :: natToDecChars a) from by
        simp [strL_space]]
  rw [compileLine_cmd st c1 c2 nmr (' ' :: natToDecChars a) hword hIF hguard
    (by rw [List.takeWhile_cons_of_neg (by decide)])
    (digit_argsC a)
    (fun c hc => by
      refine lastChar_digits ('\t' :: ((c1 :: c2 :: nmr) ++ [' '])) a c ?_
      rw [show ('\t' :: ((c1 :: c2 :: nmr) ++ [' '])) ++ natToDecChars a =
        '\t' :: ((c1 :: c2 :: nmr) ++ ' ' :: natToDecChars a) from by simp]
      exact hc)]
  rw [hnm] at hfrom
  exact writeCommand_u8_generic st op a _ hfrom hop256 hhigh hC0 ha

theorem compileLine_vlv (st : TxtToSseq) (op v : Nat)
    (hop : op ∈ ([0x80, 0x81] : List Nat)) (h1 : 1 ≤ v) :
    compileLine st ('\t' :: ((cmdNameOf op).getD [] ++ strL " " ++
      natToDecChars v)) =
      some { st with compiled := st.compiled ++ op :: minVarlen v } := by
  obtain ⟨hnok, hfrom⟩ := vlv_names_ok op hop
  obtain ⟨_, hop256, hhigh, _⟩ := vlvOps_facts op hop
  obtain ⟨c1, c2, nmr, hnm, hword, hIF, hguard, hflast⟩ := nameOk_spec _ hnok
  rw [hnm] at hword hflast
  rw [hnm]
  rw [show (c1 :: c2 :: nmr) ++ strL " " ++ natToDecChars v =
      (c1 :: c2 :: nmr) ++ (' ' :: natToDecChars v) from by
        simp [strL_space]]
  rw [compileLine_cmd st c1 c2 nmr (' ' :: natToDecChars v) hword hIF hguard
    (by rw [List.takeWhile_cons_of_neg (by decide)])
    (digit_argsC v)
    (fun c hc => by
      refine lastChar_digits ('\t' :: ((c1 :: c2 :: nmr) ++ [' '])) v c ?_
      rw [show ('\t' :: ((c1 :: c2 :: nmr) ++ [' '])) ++ natToDecChars v =
        '\t' :: ((c1 :: c2 :: nmr) ++ ' ' :: natToDecChars v) from by simp]
      exact hc)]
  rw [hnm] at hfrom
  exact writeCommand_vlv_generic st op v _ hfrom hop256 hhigh h1

theorem compileLine_u16 (st : TxtToSseq) (op a : Nat) (hop : op ∈ u16Ops)
    (ha : a < 65536) :
    compileLine st ('\t' :: ((cmdNameOf op).getD [] ++ strL " " ++
      natToDecChars a)) =
      some { st with compiled := st.compiled ++ op :: le2 a } := by
  obtain ⟨hnok, hfrom⟩ := u16_names_ok op hop
  obtain ⟨_, hop256, hhigh, _⟩ := u16Ops_facts op hop
  obtain ⟨c1, c2, nmr, hnm, hword, hIF, hguard, hflast⟩ := nameOk_spec _ hnok
  rw [hnm] at hword hflast
  rw [hnm]
  rw [show (c1 :: c2 :: nmr) ++ strL " " ++ natToDecChars a =
      (c1 :: c2 :: nmr) ++ (' ' :: natToDecChars a) from by
        simp [strL_space]]
  rw [compileLine_cmd st c1 c2 nmr (' ' :: natToDecChars a) hword hIF hguard
    (by rw [List.takeWhile_cons_of_neg (by decide)])
    (digit_argsC a)
    (fun c hc => by
      refine lastChar_digits ('\t' :: ((c1 :: c2 :: nmr) ++ [' '])) a c ?_
      rw [show ('\t' :: ((c1 :: c2 :: nmr) ++ [' '])) ++ natToDecChars a =
        '\t' :: ((c1 :: c2 :: nmr) ++ ' ' :: natToDecChars a) from by simp]
      exact hc)]
  rw [hnm] at hfrom
  exact writeCommand_u16_generic st op a _ hfrom hop256 hhigh ha

theorem compileLine_var (st : TxtToSseq) (op n p : Nat) (hop : op ∈ varOps)
    (hn : n < 256) (hp : p < 65536) :
    compileLine st ('\t' :: ((cmdNameOf op).getD [] ++ strL " " ++
      natToDecChars n ++ strL ", " ++ natToDecChars p)) =
      some { st with compiled := st.compiled ++ op :: n :: le2 p } := by
  obtain ⟨hnok, hfrom⟩ := var_names_ok op hop
  obtain ⟨_, hop256, hhigh, _⟩ := varOps_facts op hop
  obtain ⟨c1, c2, nmr, hnm, hword, hIF, hguard, hflast⟩ := nameOk_spec _ hnok
  rw [hnm] at hword hflast
  rw [hnm]
  rw [show (c1 :: c2 :: nmr) ++ strL " " ++ natToDecChars n ++ strL ", " ++
      natToDecChars p =
      (c1 :: c2 :: nmr) ++
        (' ' :: (natToDecChars n ++ ',' :: ' ' :: natToDecChars p))
      from by simp [strL_space, strL_commaspace]]
  rw [compileLine_cmd st c1 c2 nmr
    (' ' :: (natToDecChars n ++ ',' :: ' ' :: natToDecChars p)) hword hIF
    hguard
    (by rw [List.takeWhile_cons_of_neg (by decide)])
    (fun c hc => by
      rcases List.mem_cons.mp hc with rfl | hc
      · exact ⟨by decide, by decide⟩
      · rcases List.mem_append.mp hc with hc | hc
        · exact ⟨(natToDecChars_chars n c hc).2.2.2.2.1,
            (natToDecChars_chars n c hc).2.2.2.2.2.2.2.2.1⟩
        · rcases List.mem_cons.mp hc with rfl | hc
          · exact ⟨by decide, by decide⟩
          · rcases List.mem_cons.mp hc with rfl | hc
            · exact ⟨by decide, by decide⟩
            · exact ⟨(natToDecChars_chars p c hc).2.2.2.2.1,
                (natToDecChars_chars p c hc).2.2.2.2.2.2.2.2.1⟩)
    (fun c hc => by
      refine lastChar_digits ('\t' :: ((c1 :: c2 :: nmr) ++
        (' ' :: (natToDecChars n ++ [',', ' '])))) p c ?_
      rw [show ('\t' :: ((c1 :: c2 :: nmr) ++
          (' ' :: (natToDecChars n ++ [',', ' '])))) ++ natToDecChars p =
        '\t' :: ((c1 :: c2 :: nmr) ++
          (' ' :: (natToDecChars n ++ ',' :: ' ' :: natToDecChars p)))
        from by simp]
      exact hc)]
  rw [hnm] at hfrom
  exact writeCommand_var_generic st op n p _ hfrom hop256 hhigh hn hp

theorem compileLine_none (st : TxtToSseq) (op : Nat)
    (hop : op ∈ ([0xFC, 0xFD, 0xFF] : List Nat)) :
    compileLine st ('\t' :: (cmdNameOf op).getD []) =
      some { st with compiled := st.compiled ++ [op] } := by
  obtain ⟨hnok, hfrom⟩ := none_names_ok op hop
  obtain ⟨_, hop256, hhigh, _⟩ := noneOps_facts op hop
  obtain ⟨c1, c2, nmr, hnm, hword, hIF, hguard, hflast⟩ := nameOk_spec _ hnok
  rw [hnm] at hword hflast
  rw [hnm]
  rw [show (c1 :: c2 :: nmr : List Char) =
      (c1 :: c2 :: nmr) ++ ([] : List Char) from by simp]
  rw [compileLine_cmd st c1 c2 nmr [] hword hIF hguard rfl
    (fun c hc => absurd hc (List.not_mem_nil c))
    (fun c hc => by
      rw [show ('\t' :: ((c1 :: c2 :: nmr) ++ ([] : List Char))) =
        ['\t'] ++ (c1 :: c2 :: nmr) from by simp] at hc
      rw [getLast?_append_right _ _ (by simp)] at hc
      exact hflast c hc)]
  rw [hnm] at hfrom
  exact writeCommand_none_generic st op _ hfrom hop256 hhigh

theorem compileLine_note (st : TxtToSseq) (p v l : Nat) (hp : p < 120)
    (hv : v < 256) (h1 : 1 ≤ l) :
    compileLine st ('\t' :: (noteNames.getD (p % 12) [] ++
      natToDecChars (p / 12) ++ strL ", " ++ natToDecChars v ++ strL ", " ++
      natToDecChars l)) =
      some { st with compiled := st.compiled ++ p :: v :: minVarlen l } := by
  have hoct : natToDecChars (p / 12) = [Char.ofNat (48 + p / 12)] := by
    rw [natToDecChars_eq, if_pos (by omega)]
  have h12 : p % 12 < 12 := Nat.mod_lt _ (by omega)
  obtain ⟨n1, n2, hname, hg, hIF⟩ :
      ∃ n1 n2, noteNames.getD (p % 12) [] = [n1, n2] ∧
        (('A' ≤ n1 ∧ n1 ≤ 'G') ∧ (n2 = '_' ∨ n2 = '#')) ∧ n1 ≠ 'I' := by
    revert h12
    generalize p % 12 = m
    intro h12
    interval_cases m <;> exact ⟨_, _, rfl, by decide, by decide⟩
  have hoc : (Char.ofNat (48 + p / 12)).isDigit = true := by
    have h10 : p / 12 < 10 := by omega
    revert h10
    generalize p / 12 = m
    intro h10
    interval_cases m <;> decide
  rw [hname, hoct]
  rw [show ([n1, n2] : List Char) ++ [Char.ofNat (48 + p / 12)] ++
      strL ", " ++ natToDecChars v ++ strL ", " ++ natToDecChars l =
      n1 :: n2 :: Char.ofNat (48 + p / 12) :: ',' :: ' ' ::
        (natToDecChars v ++ ',' :: ' ' :: natToDecChars l) from by
      simp [strL_commaspace]]
  unfold compileLine
  rw [cleanLine_id _ ?hat ?hlast]
  case hat =>
    intro c hc
    rcases List.mem_cons.mp hc with rfl | hc
    · decide
    · rcases List.mem_cons.mp hc with rfl | hc
      · exact fun heq => by subst heq; exact absurd hg.1.1 (by decide)
      · rcases List.mem_cons.mp hc with rfl | hc
        · rcases hg.2 with rfl | rfl <;> decide
        · rcases List.mem_cons.mp hc with rfl | hc
          · exact fun heq => by
              rw [heq] at hoc
              exact absurd hoc (by decide)
          · rcases List.mem_cons.mp hc with rfl | hc
            · decide
            · rcases List.mem_cons.mp hc with rfl | hc
              · decide
              · rcases List.mem_append.mp hc with hc | hc
                · exact (natToDecChars_chars v c hc).2.2.2.2.1
                · rcases List.mem_cons.mp hc with rfl | hc
                  · decide
                  · rcases List.mem_cons.mp hc with rfl | hc
                    · decide
                    · exact (natToDecChars_chars l c hc).2.2.2.2.1
  case hlast =>
    intro c hc
    refine lastChar_digits ('\t' :: n1 :: n2 :: Char.ofNat (48 + p / 12) ::
      ',' :: ' ' :: (natToDecChars v ++ [',', ' '])) l c ?_
    rw [show ('\t' :: n1 :: n2 :: Char.ofNat (48 + p / 12) :: ',' :: ' ' ::
        (natToDecChars v ++ [',', ' '])) ++ natToDecChars l =
      '\t' :: n1 :: n2 :: Char.ofNat (48 + p / 12) :: ',' :: ' ' ::
        (natToDecChars v ++ ',' :: ' ' :: natToDecChars l) from by simp]
    exact hc
  have hlp : labelPatMatch ('\t' :: n1 :: n2 :: Char.ofNat (48 + p / 12) ::
      ',' :: ' ' :: (natToDecChars v ++ ',' :: ' ' :: natToDecChars l)) =
      none := labelPatMatch_tab _
  simp only [hlp, notePatMatch_note n1 n2 _ v l hg hIF hoc]
  rw [show ([n1, n2] : List Char) = noteNames.getD (p % 12) [] from
    hname.symm]
  rw [show ([Char.ofNat (48 + p / 12)] : List Char) =
    natToDecChars (p / 12) from hoct.symm]
  rw [writeNote_canonical st.compiled p v l hp hv h1]
  rfl

theorem foldlM_stmtLines (s : StraightStmt) (hw : wfStmt s = true)
    (st : TxtToSseq) :
    (stmtLines s).foldlM compileLine st =
      some { st with compiled := st.compiled ++ encStmt s } := by
  cases s with
  | note p v l =>
    simp only [wfStmt, Bool.and_eq_true, decide_eq_true_eq] at hw
    simp only [stmtLines, List.foldlM_cons, List.foldlM_nil]
    rw [compileLine_note st p v l hw.1.1.1 hw.1.1.2 hw.1.2]
    simp [encStmt]
  | cmdVlv op v =>
    simp only [wfStmt, Bool.and_eq_true, Bool.or_eq_true,
      decide_eq_true_eq] at hw
    have hop : op ∈ ([0x80, 0x81] : List Nat) := by
      rcases hw.1.1 with rfl | rfl <;> simp
    simp only [stmtLines, List.foldlM_cons, List.foldlM_nil]
    rw [compileLine_vlv st op v hop hw.1.2]
    simp [encStmt]
  | cmdU8 op a =>
    simp only [wfStmt, Bool.and_eq_true, decide_eq_true_eq] at hw
    simp only [stmtLines, List.foldlM_cons, List.foldlM_nil]
    rw [compileLine_u8 st op a hw.1 hw.2]
    simp [encStmt]
  | cmdU16 op a =>
    simp only [wfStmt, Bool.and_eq_true, decide_eq_true_eq] at hw
    simp only [stmtLines, List.foldlM_cons, List.foldlM_nil]
    rw [compileLine_u16 st op a hw.1 hw.2]
    simp [encStmt]
  | cmdVar op n p =>
    simp only [wfStmt, Bool.and_eq_true, decide_eq_true_eq] at hw
    simp only [stmtLines, List.foldlM_cons, List.foldlM_nil]
    rw [compileLine_var st op n p hw.1.1 hw.1.2 hw.2]
    simp [encStmt]
  | cmdNone op =>
    simp only [wfStmt, Bool.or_eq_true, decide_eq_true_eq] at hw
    have hop : op ∈ ([0xFC, 0xFD, 0xFF] : List Nat) := by
      rcases hw with (rfl | rfl) | rfl <;> simp
    by_cases hfd : op = 0xFD ∨ op = 0xFF
    · simp only [stmtLines, if_pos hfd, List.foldlM_cons, List.foldlM_nil]
      rw [compileLine_none st op hop]
      simp only [Option.bind_eq_bind, Option.some_bind]
      rw [compileLine_blank]
      simp [encStmt]
    · simp only [stmtLines, if_neg hfd, List.foldlM_cons, List.foldlM_nil]
      rw [compileLine_none st op hop]
      simp [encStmt]

theorem foldlM_append_option {α β : Type} (f : β → α → Option β)
    (l1 l2 : List α) (b : β) :
    (l1 ++ l2).foldlM f b = (l1.foldlM f b).bind fun b2 => l2.foldlM f b2 := by
  induction l1 generalizing b with
  | nil => simp
  | cons a l ih =>
    simp only [List.cons_append, List.foldlM_cons]
    cases h : f b a with
    | none => simp [Option.bind_eq_bind]
    | some b2 => simp [Option.bind_eq_bind, ih]

theorem foldlM_program : ∀ (stmts : List StraightStmt) (st : TxtToSseq),
    (∀ s ∈ stmts, wfStmt s = true) →
    ((stmts.map stmtLines).flatten).foldlM compileLine st =
      some { st with compiled := st.compiled ++ canonicalBody stmts } := by
  intro stmts
  induction stmts with
  | nil =>
    intro st _
    simp [canonicalBody]
  | cons s rest ih =>
    intro st hwf
    simp only [List.map_cons, List.flatten_cons]
    rw [foldlM_append_option]
    rw [foldlM_stmtLines s (hwf s (List.mem_cons_self _ _)) st]
    simp only [Option.some_bind]
    rw [ih _ fun x hx => hwf x (List.mem_cons_of_mem _ hx)]
    simp [canonicalBody, List.append_assoc]

theorem dispatchRelocs_nil (L : List (List Char × Nat)) (comp : List Nat) :
    dispatchRelocs L [] comp = some comp := rfl

theorem compileTxt_canonical (stmts : List StraightStmt)
    (hwf : ∀ s ∈ stmts, wfStmt s = true)
    (hsize : (canonicalBody stmts).length + 32 < 2 ^ 32) :
    compileTxt (strL "S_Tk00: @ 0x0000" :: (stmts.map stmtLines).flatten) =
      some (canonicalBin stmts) := by
  unfold compileTxt
  rw [List.foldlM_cons]
  rw [compileLine_label txtToSseqInit]
  simp only [Option.bind_eq_bind, Option.some_bind]
  rw [foldlM_program stmts _ hwf]
  simp only [Option.some_bind, txtToSseqInit, dictSet, List.length_nil,
    List.nil_append]
  rw [dispatchRelocs_nil]
  simp only [Option.some_bind]
  rw [if_neg (by simp : ¬ ((1 : Nat) ≠ 1))]
  set B := canonicalBody stmts with hB
  by_cases hm : B.length % 4 = 0
  · rw [if_neg (show ¬ (B.length % 4 ≠ 0) from fun h => h hm)]
    rw [if_pos (by omega : 28 + B.length < 2 ^ 32)]
    rw [show canonicalBin stmts =
      sseqPackHeader (28 + (B.length + (4 - B.length % 4) % 4))
        (12 + (B.length + (4 - B.length % 4) % 4)) ++
        (B ++ List.replicate ((4 - B.length % 4) % 4) 0) from by
      simp [canonicalBin, List.append_assoc, ← hB]]
    rw [hm]
    norm_num
  · rw [if_pos hm]
    have hlen2 : (B ++ List.replicate (4 - B.length % 4) 0).length =
        B.length + (4 - B.length % 4) := by simp
    rw [hlen2]
    rw [if_pos (by omega : 28 + (B.length + (4 - B.length % 4)) < 2 ^ 32)]
    rw [show canonicalBin stmts =
      sseqPackHeader (28 + (B.length + (4 - B.length % 4) % 4))
        (12 + (B.length + (4 - B.length % 4) % 4)) ++
        (B ++ List.replicate ((4 - B.length % 4) % 4) 0) from by
      simp [canonicalBin, List.append_assoc, ← hB]]
    rw [show (4 - B.length % 4) % 4 = 4 - B.length % 4 from by omega]

/-- **C1** (amended): the assemble-after-disassemble round trip holds on the
canonically encoded single-track streams: for every straight-line statement
list (notes and known commands with in-range arguments, minimally encoded
nonzero variable-length values, no modifier prefixes, no track/branch
statements) that ends in `TrackEnd`, disassembling the canonical binary
(standard 28-byte header, the encoded statements, zero padding to 32-bit
alignment) and assembling the resulting text reproduces that binary byte for
byte.  The unrestricted claim is refuted by
`assemble_disassemble_counterexample`: a fully decodable stream with a
non-minimal variable-length argument does not round-trip. -/
theorem assemble_disassemble_canonical (stmts : List StraightStmt)
    (hwf : ∀ s ∈ stmts, wfStmt s = true)
    (hlast : stmts.getLast? = some (StraightStmt.cmdNone 0xFF))
    (hsize : (canonicalBody stmts).length + 32 < 2 ^ 32) :
    (sseqParse (strL "S") (canonicalBin stmts)).bind compileTxt =
      some (canonicalBin stmts) := by
  rw [sseqParse_canonical stmts hwf hlast hsize]
  simp only [Option.some_bind]
  exact compileTxt_canonical stmts hwf hsize

/-- Witness for the amended C1 theorem: a concrete eight-statement program
exercising every statement class. -/
theorem assemble_disassemble_canonical_witness :
    (sseqParse (strL "S") (canonicalBin
      [StraightStmt.note 61 100 3, StraightStmt.cmdVlv 0x80 129,
       StraightStmt.cmdVlv 0x81 5, StraightStmt.cmdU8 0xC1 100,
       StraightStmt.cmdU16 0xE1 300, StraightStmt.cmdVar 0xB0 5 40000,
       StraightStmt.cmdNone 0xFC, StraightStmt.cmdNone 0xFF])).bind
      compileTxt =
      some (canonicalBin
        [StraightStmt.note 61 100 3, StraightStmt.cmdVlv 0x80 129,
         StraightStmt.cmdVlv 0x81 5, StraightStmt.cmdU8 0xC1 100,
         StraightStmt.cmdU16 0xE1 300, StraightStmt.cmdVar 0xB0 5 40000,
         StraightStmt.cmdNone 0xFC, StraightStmt.cmdNone 0xFF]) :=
  assemble_disassemble_canonical
    [StraightStmt.note 61 100 3, StraightStmt.cmdVlv 0x80 129,
     StraightStmt.cmdVlv 0x81 5, StraightStmt.cmdU8 0xC1 100,
     StraightStmt.cmdU16 0xE1 300, StraightStmt.cmdVar 0xB0 5 40000,
     StraightStmt.cmdNone 0xFC, StraightStmt.cmdNone 0xFF]
    (by decide) (by decide) (by decide)

/-- C1 counterexample: the single-track binary whose `Delay` argument is the
non-minimally encoded variable-length value `80 01` is fully decoded with no
unknown-command entry, yet assembling the disassembler's text output yields
a different byte string (the argument is re-encoded minimally and the header
and padding change accordingly). -/
theorem assemble_disassemble_counterexample :
    Option.map (fun st => decide
        (∀ p ∈ st.commands, p.2.cmdstr ≠ SseqCmdStr.unk))
        ((sseqInit (strL "S") exampleNonMinimalVarlenBin).bind
          fun s => scanCommands (strL "S") s.view.length s) = some true ∧
    ((sseqParse (strL "S") exampleNonMinimalVarlenBin).bind
        compileTxt).isSome ∧
    (sseqParse (strL "S") exampleNonMinimalVarlenBin).bind compileTxt ≠
      some exampleNonMinimalVarlenBin := by
  refine ⟨by decide, by decide, by decide⟩

end SDATtool2
